import Mathlib

/-!
# CPU scheduling simulator (FCFS, SRT, Round-Robin)

A shallow embedding of `Source.cpp`.  The vectors `processes` and `temp` are
lists, and a `Process*` into `temp` is the position of the pointed-to element
in `temp`.  The two `while` loops are iterated with explicit fuel.

The program is embedded twice.  The exact model (`runFCFS`, `runSRT`, `runRR`)
computes with unbounded integers and describes the runs in which no `int`
overflows.  The machine model (`Machine.runFCFS`, `Machine.runSRT`,
`Machine.runRR`) reduces every `int` addition and subtraction to 32 bits, two's
complement, and describes every run.  The two are proved equal as long as
nothing overflows.

`std::sort` is a parameter constrained by its library contract; `stdSort` is the
introsort of the GNU C++ library, used where a concrete run is evaluated.
-/

namespace CpuScheduling

/-! ## Data model -/

/-- Record `struct Process`. -/
structure Process where
  id : Int
  arrival_time : Int
  burst_time : Int
  remaining_time : Int
  finish_time : Int
  waiting_time : Int
  turnaround_time : Int
deriving DecidableEq, Repr

/-- Constructor `Process(int i, int at, int bt)`. -/
def Process.new (i a bt : Int) : Process :=
  { id := i, arrival_time := a, burst_time := bt, remaining_time := bt,
    finish_time := 0, waiting_time := 0, turnaround_time := 0 }

/-- Data members of `class Scheduler`. -/
structure Scheduler where
  processes : List Process
  gantt_chart : List (Int × Int)
  quantum : Int
deriving DecidableEq, Repr

/-- Reading loop of the constructor `Scheduler(filename)`: the record read in
iteration `i` gets id `i + 1`; a record with `at < 0` or `bt <= 0` aborts. -/
def loadFrom : Nat → List (Int × Int) → Option (List Process)
  | _, [] => some []
  | i, (a, bt) :: rest =>
    if a < 0 ∨ bt ≤ 0 then none
    else (loadFrom (i + 1) rest).map (fun ps => Process.new ((i : Int) + 1) a bt :: ps)

/-- Constructor `Scheduler(filename)` on an already tokenised file: `n <= 0` or
`quantum <= 0` aborts (`none`). -/
def Scheduler.load (quantum : Int) (recs : List (Int × Int)) : Option Scheduler :=
  if recs.length = 0 ∨ quantum ≤ 0 then none
  else (loadFrom 0 recs).map (fun ps => { processes := ps, gantt_chart := [], quantum := quantum })

/-- Method `calculateMetrics`, with exact integers (`Machine.calculateMetrics` is
the 32-bit version). -/
def calculateMetrics (procs : List Process) : List Process :=
  procs.map (fun p =>
    { p with turnaround_time := p.finish_time - p.arrival_time,
             waiting_time := (p.finish_time - p.arrival_time) - p.burst_time })

/-- Assignment `processes[k].finish_time = t`.  Out of range the C++ is
undefined; the model leaves the vector unchanged. -/
def setFinish (procs : List Process) (k : Nat) (t : Int) : List Process :=
  match procs[k]? with
  | some p => procs.set k { p with finish_time := t }
  | none => procs

/-- A range-for over `temp` that collects, in vector order, the positions of the
elements satisfying `cond` (the two `if (...) push(&p)` loops). -/
def scan (temp : List Process) (cond : Process → Bool) : List Nat :=
  (List.range temp.length).filter (fun i =>
    match temp[i]? with
    | some p => cond p
    | none => false)

/-! ## FCFS -/

/-- The comparator lambda handed to `std::sort` in `runFCFS`. -/
def arrivalLess (a b : Process) : Bool := decide (a.arrival_time < b.arrival_time)

/-- Local state of the `for` loop of `runFCFS`. -/
structure FCFSState where
  processes : List Process
  gantt_chart : List (Int × Int)
  current_time : Int
deriving DecidableEq, Repr

/-- Body of the `for (auto& p : temp)` loop of `runFCFS`, with exact integers
(`Machine.fcfsStep` is the 32-bit version). -/
def fcfsStep (s : FCFSState) (p : Process) : FCFSState :=
  let start := if s.current_time < p.arrival_time then p.arrival_time else s.current_time
  { processes := setFinish s.processes (p.id - 1).toNat (start + p.burst_time),
    gantt_chart := s.gantt_chart ++ [(start, p.id)],
    current_time := start + p.burst_time }

/-- Loop of `runFCFS` over the sorted copy, before `calculateMetrics`. -/
def fcfsLoop (procs temp : List Process) : FCFSState :=
  temp.foldl fcfsStep { processes := procs, gantt_chart := [], current_time := 0 }

/-- Method `runFCFS`; `sort cmp v` stands for `std::sort(v.begin(), v.end(), cmp)`. -/
def runFCFS (sort : (Process → Process → Bool) → List Process → List Process)
    (s : Scheduler) : Scheduler :=
  let r := fcfsLoop s.processes (sort arrivalLess s.processes)
  { s with processes := calculateMetrics r.processes, gantt_chart := r.gantt_chart }

/-- What the C++ standard promises of `std::sort` for the comparator of
`runFCFS`: the result is a rearrangement of the input in which no later
element compares less than an earlier one.  The order of equivalent elements
is left open. -/
def StdSortContract (sort : (Process → Process → Bool) → List Process → List Process) : Prop :=
  ∀ l : List Process, (sort arrivalLess l).Perm l ∧
    (sort arrivalLess l).Pairwise (fun a b => arrivalLess b a = false)

/-- Inner loop of a straight insertion sort: `x` comes to rest before the first
element it compares less than. -/
def insertSorted (cmp : Process → Process → Bool) (x : Process) : List Process → List Process
  | [] => [x]
  | y :: ys => if cmp x y then x :: y :: ys else y :: insertSorted cmp x ys

/-- A stable instance of `std::sort`: straight insertion, left to right (what
library implementations run on short ranges). -/
def insertionSort (cmp : Process → Process → Bool) (l : List Process) : List Process :=
  l.foldl (fun acc x => insertSorted cmp x acc) []

/-- The Gantt chart `runFCFS` builds from clock value `ct` over the sorted copy
`temp`, written as a recursion (used to describe the loop result). -/
def chartFrom : Int → List Process → List (Int × Int)
  | _, [] => []
  | ct, p :: rest => (max ct p.arrival_time, p.id) :: chartFrom (max ct p.arrival_time + p.burst_time) rest

/-- Field `arrival_time` of the process with id `pid` in the canonical vector. -/
def arrivalOf (ps : List Process) (pid : Int) : Int :=
  ((ps[(pid - 1).toNat]?).map (fun p => p.arrival_time)).getD 0

/-- Field `burst_time` of the process with id `pid` in the canonical vector. -/
def burstOf (ps : List Process) (pid : Int) : Int :=
  ((ps[(pid - 1).toNat]?).map (fun p => p.burst_time)).getD 0

/-- Field `finish_time` of the process with id `pid` in the canonical vector. -/
def finishOf (ps : List Process) (pid : Int) : Int :=
  ((ps[(pid - 1).toNat]?).map (fun p => p.finish_time)).getD 0

/-! ## SRT -/

/-- Method `operator<` of `std::pair<int, Process*>`: lexicographic, the pointer
being the position in `temp`. -/
def pairLess (a b : Int × Nat) : Bool :=
  decide (a.1 < b.1) || (!decide (b.1 < a.1) && decide (a.2 < b.2))

/-- Method `top()` of the min-priority queue (`greater<>` comparator): a least
element under `pairLess`.  The queue is kept as the list of its elements. -/
def pqTop : List (Int × Nat) → Option (Int × Nat)
  | [] => none
  | x :: xs =>
    match pqTop xs with
    | none => some x
    | some m => if pairLess m x then some m else some x

/-- Local state of the `while` loop of `runSRT`. -/
structure SRTState where
  processes : List Process
  temp : List Process
  pq : List (Int × Nat)
  current_time : Int
  completed : Nat
  gantt_chart : List (Int × Int)
deriving DecidableEq, Repr

/-- The arrival loop of `runSRT`: pushes `(remaining_time, &p)` for every `p`
with `arrival_time == current_time && remaining_time > 0`. -/
def srtAdmit (s : SRTState) : List (Int × Nat) :=
  s.pq ++ (scan s.temp (fun p => p.arrival_time == s.current_time && decide (0 < p.remaining_time))).filterMap
    (fun i => (s.temp[i]?).map (fun p => (p.remaining_time, i)))

/-- One iteration of the body of the `while` loop of `runSRT`, with exact
integers (`Machine.srtStep` is the 32-bit version). -/
def srtStep (s : SRTState) : SRTState :=
  let pq1 := srtAdmit s
  match pqTop pq1 with
  | none => { s with pq := pq1, current_time := s.current_time + 1 }
  | some cur =>
    match s.temp[cur.2]? with
    | none => s
    | some p =>
      let p1 := { p with remaining_time := p.remaining_time - 1 }
      if p1.remaining_time = 0 then
        { processes := setFinish s.processes (p.id - 1).toNat (s.current_time + 1),
          temp := s.temp.set cur.2 p1,
          pq := pq1.erase cur,
          current_time := s.current_time + 1,
          completed := s.completed + 1,
          gantt_chart := s.gantt_chart ++ [(s.current_time, p.id)] }
      else
        { processes := s.processes,
          temp := s.temp.set cur.2 p1,
          pq := pq1.erase cur ++ [(p1.remaining_time, cur.2)],
          current_time := s.current_time + 1,
          completed := s.completed,
          gantt_chart := s.gantt_chart ++ [(s.current_time, p.id)] }

/-- State of `runSRT` on entry to the `while` loop. -/
def srtInit (procs : List Process) : SRTState :=
  { processes := procs, temp := procs, pq := [], current_time := 0, completed := 0,
    gantt_chart := [] }

/-- One pass through `while (completed < processes.size())`: the body when the
guard holds, no change once it has failed. -/
def srtTick (s : SRTState) : SRTState :=
  if s.completed < s.processes.length then srtStep s else s

/-- State of `runSRT` after `n` passes, i.e. at the start of tick `n`. -/
def srtAt (procs : List Process) (n : Nat) : SRTState :=
  srtTick^[n] (srtInit procs)

/-- The `while` loop of `runSRT` with at most `fuel` iterations; `none` when the
guard still holds after them. -/
def srtLoop : Nat → SRTState → Option SRTState
  | 0, s => if s.completed < s.processes.length then none else some s
  | fuel + 1, s =>
    if s.completed < s.processes.length then srtLoop fuel (srtStep s) else some s

/-- Method `runSRT`. -/
def runSRT (fuel : Nat) (s : Scheduler) : Option Scheduler :=
  (srtLoop fuel (srtInit s.processes)).map (fun r =>
    { s with processes := calculateMetrics r.processes, gantt_chart := r.gantt_chart })

/-! ## Round-Robin -/

/-- Local state of the `while` loop of `runRR`; `rq` holds positions in `temp`. -/
structure RRState where
  processes : List Process
  temp : List Process
  rq : List Nat
  current_time : Int
  completed : Nat
  gantt_chart : List (Int × Int)
deriving DecidableEq, Repr

/-- The ready queue after the arrival loop at the top of an iteration. -/
def rrAdmit (s : RRState) : List Nat :=
  s.rq ++ scan s.temp (fun p => p.arrival_time == s.current_time && decide (0 < p.remaining_time))

/-- The processes pushed by the inner loop after a slice ending at `ct` that
lasted `execute_time`, with exact integers (`Machine.rrSliceArrivals` is the
32-bit version). -/
def rrSliceArrivals (temp : List Process) (ct execute_time : Int) : List Nat :=
  scan temp (fun x => decide (ct - execute_time < x.arrival_time) &&
    decide (x.arrival_time ≤ ct) && decide (0 < x.remaining_time))

/-- One iteration of the body of the `while` loop of `runRR`, with exact integers
(`Machine.rrStep` is the 32-bit version). -/
def rrStep (quantum : Int) (s : RRState) : RRState :=
  match rrAdmit s with
  | [] => { s with rq := [], current_time := s.current_time + 1 }
  | cur :: rest =>
    match s.temp[cur]? with
    | none => s
    | some p =>
      let execute_time := min quantum p.remaining_time
      let p1 := { p with remaining_time := p.remaining_time - execute_time }
      let temp1 := s.temp.set cur p1
      let ct := s.current_time + execute_time
      if p1.remaining_time = 0 then
        { processes := setFinish s.processes (p.id - 1).toNat ct,
          temp := temp1,
          rq := rest,
          current_time := ct,
          completed := s.completed + 1,
          gantt_chart := s.gantt_chart ++ [(s.current_time, p.id)] }
      else
        { processes := s.processes,
          temp := temp1,
          rq := rest ++ rrSliceArrivals temp1 ct execute_time ++ [cur],
          current_time := ct,
          completed := s.completed,
          gantt_chart := s.gantt_chart ++ [(s.current_time, p.id)] }

/-- State of `runRR` on entry to the `while` loop. -/
def rrInit (procs : List Process) : RRState :=
  { processes := procs, temp := procs, rq := [], current_time := 0, completed := 0,
    gantt_chart := [] }

/-- One pass through `while (completed < processes.size())` of `runRR`. -/
def rrTick (quantum : Int) (s : RRState) : RRState :=
  if s.completed < s.processes.length then rrStep quantum s else s

/-- State of `runRR` after `n` passes through the loop. -/
def rrAt (quantum : Int) (procs : List Process) (n : Nat) : RRState :=
  (rrTick quantum)^[n] (rrInit procs)

/-- The `while` loop of `runRR` with at most `fuel` iterations; `none` when the
guard still holds after them. -/
def rrLoop (quantum : Int) : Nat → RRState → Option RRState
  | 0, s => if s.completed < s.processes.length then none else some s
  | fuel + 1, s =>
    if s.completed < s.processes.length then rrLoop quantum fuel (rrStep quantum s) else some s

/-- Method `runRR`. -/
def runRR (fuel : Nat) (s : Scheduler) : Option Scheduler :=
  (rrLoop s.quantum fuel (rrInit s.processes)).map (fun r =>
    { s with processes := calculateMetrics r.processes, gantt_chart := r.gantt_chart })

/-! ## Valid inputs -/

/-- Validity of the tail of a process vector whose first element sits at
position `k`: ids count up from `k + 1`, `arrival_time >= 0`, `burst_time > 0`,
and `remaining_time` still holds the burst (the canonical vector is never
decremented). -/
def ValidFrom : Nat → List Process → Prop
  | _, [] => True
  | k, p :: ps =>
    (p.id = (k : Int) + 1 ∧ 0 ≤ p.arrival_time ∧ 0 < p.burst_time ∧
      p.remaining_time = p.burst_time) ∧ ValidFrom (k + 1) ps

/-- A valid process list: what the constructor builds, whatever an earlier run
left in `finish_time`, `waiting_time` and `turnaround_time`. -/
def Valid (ps : List Process) : Prop := ValidFrom 0 ps

instance decValidFrom : (k : Nat) → (ps : List Process) → Decidable (ValidFrom k ps)
  | _, [] => isTrue trivial
  | k, p :: ps =>
    have := decValidFrom (k + 1) ps
    inferInstanceAs (Decidable ((p.id = (k : Int) + 1 ∧ 0 ≤ p.arrival_time ∧ 0 < p.burst_time ∧
      p.remaining_time = p.burst_time) ∧ ValidFrom (k + 1) ps))

instance decValid (ps : List Process) : Decidable (Valid ps) := decValidFrom 0 ps

/-- Total of the bursts. -/
def sumBurst (ps : List Process) : Int := (ps.map (fun p => p.burst_time)).sum

/-- Total of the remaining times. -/
def sumRemaining (ps : List Process) : Int := (ps.map (fun p => p.remaining_time)).sum

/-- Latest arrival time (0 for the empty list). -/
def maxArrival (ps : List Process) : Int := ps.foldr (fun p m => max p.arrival_time m) 0

/-! ## Example inputs -/

/-- Processes `[(0,5),(1,3),(2,8)]`. -/
def scenario1 : List Process := [Process.new 1 0 5, Process.new 2 1 3, Process.new 3 2 8]

/-! ## Loop invariants of `runSRT` -/

/-- Invariant of the `while` loop of `runSRT` on the scheduling state: `temp` is
the input with only `remaining_time` changed, the priority queue holds exactly
the pairs `(remaining_time, position)` of the arrived unfinished processes,
once each, and `completed` counts the finished ones. -/
structure SRTCore (ps : List Process) (s : SRTState) : Prop where
  len_temp : s.temp.length = ps.length
  len_procs : s.processes.length = ps.length
  static : ∀ (i : Nat) (p : Process), s.temp[i]? = some p →
    ∃ p0, ps[i]? = some p0 ∧ p = { p0 with remaining_time := p.remaining_time }
  rem_range : ∀ (i : Nat) (p : Process), s.temp[i]? = some p →
    0 ≤ p.remaining_time ∧ p.remaining_time ≤ p.burst_time
  fresh : ∀ (i : Nat) (p : Process), s.temp[i]? = some p →
    s.current_time ≤ p.arrival_time → p.remaining_time = p.burst_time
  pq_nodup : s.pq.Nodup
  pq_sync : ∀ (k : Int) (i : Nat), (k, i) ∈ s.pq ↔
    ∃ p, s.temp[i]? = some p ∧ p.arrival_time < s.current_time ∧ 0 < p.remaining_time ∧
      k = p.remaining_time
  completed_eq : s.completed = s.temp.countP (fun p => decide (p.remaining_time = 0))

/-- Invariant of the `while` loop of `runSRT` on what it records: every Gantt
entry lies before the clock, each process has as many entries as time units
it has run, a process that has run at all arrived that many units before the
clock, and a finished process has its finish time one past its last entry. -/
structure SRTChart (ps : List Process) (s : SRTState) : Prop where
  time_nonneg : 0 ≤ s.current_time
  gantt_times : ∀ e ∈ s.gantt_chart, 0 ≤ e.1 ∧ e.1 < s.current_time
  gantt_count : ∀ (i : Nat) (p : Process), s.temp[i]? = some p →
    ((s.gantt_chart.countP (fun e => decide (e.2 = p.id)) : Nat) : Int)
      = p.burst_time - p.remaining_time
  gantt_ids : ∀ e ∈ s.gantt_chart, ∃ p ∈ ps, e.2 = p.id
  progress : ∀ (i : Nat) (p : Process), s.temp[i]? = some p →
    p.remaining_time = p.burst_time ∨
      p.arrival_time + (p.burst_time - p.remaining_time) ≤ s.current_time
  finish : ∀ (i : Nat) (p : Process), s.temp[i]? = some p → p.remaining_time = 0 →
    ∃ f, s.processes[i]? = some f ∧ (f.finish_time - 1, p.id) ∈ s.gantt_chart ∧
      (∀ e ∈ s.gantt_chart, e.2 = p.id → e.1 < f.finish_time) ∧
      p.arrival_time + p.burst_time ≤ f.finish_time
  procs_static : ∀ (i : Nat) (f : Process), s.processes[i]? = some f →
    ∃ p0, ps[i]? = some p0 ∧ f = { p0 with finish_time := f.finish_time }
  gantt_len : (s.gantt_chart.length : Int) = sumBurst ps - sumRemaining s.temp

/-- Progress measure of the loop of `runSRT`: time units still to run plus the
ticks left until the latest arrival. -/
def srtMeasure (ps : List Process) (s : SRTState) : Nat :=
  (sumRemaining s.temp).toNat + (maxArrival ps - s.current_time).toNat

/-- Enough iterations for `runSRT` on `ps`: the latest arrival plus all bursts. -/
def srtFuel (ps : List Process) : Nat := (sumBurst ps).toNat + (maxArrival ps).toNat

/-- Processes `[(0,8),(1,4),(2,9),(3,5)]`. -/
def scenario2 : List Process :=
  [Process.new 1 0 8, Process.new 2 1 4, Process.new 3 2 9, Process.new 4 3 5]

/-! ## Loop invariant of `runRR` -/

/-- Invariant of the `while` loop of `runRR`: `temp` is the input with only
`remaining_time` changed and never negative, a process that has not arrived
yet is untouched, and every queued pointer refers to an arrived process. -/
structure RRCore (ps : List Process) (s : RRState) : Prop where
  len_temp : s.temp.length = ps.length
  static : ∀ (i : Nat) (p : Process), s.temp[i]? = some p →
    ∃ p0, ps[i]? = some p0 ∧ p = { p0 with remaining_time := p.remaining_time }
  rem_nonneg : ∀ (i : Nat) (p : Process), s.temp[i]? = some p → 0 ≤ p.remaining_time
  fresh : ∀ (i : Nat) (p : Process), s.temp[i]? = some p →
    s.current_time < p.arrival_time → 0 < p.remaining_time
  queued : ∀ i ∈ s.rq, ∃ p, s.temp[i]? = some p ∧ p.arrival_time ≤ s.current_time

/-- Processes `[(0,3),(2,1),(10,1)]`, run with quantum 2. -/
def rrDouble : List Process := [Process.new 1 0 3, Process.new 2 2 1, Process.new 3 10 1]

/-- Processes `[(0,5),(3,1),(1,1)]`, run with quantum 4. -/
def rrOrder : List Process := [Process.new 1 0 5, Process.new 2 3 1, Process.new 3 1 1]

/-- Processes `[(0,2),(1,1),(1,1),(9,1),(9,1)]`, run with quantum 1. -/
def rrShared : List Process :=
  [Process.new 1 0 2, Process.new 2 1 1, Process.new 3 1 1, Process.new 4 9 1,
    Process.new 5 9 1]

/-- The canonical vector of `[(0,3),(2,1),(10,1)]` as `runSRT` leaves it (finish
times 3, 4, 11), i.e. as `runRR` finds it in `main`. -/
def rrDoubleAfterSRT : List Process :=
  [{ Process.new 1 0 3 with finish_time := 3, waiting_time := 0, turnaround_time := 3 },
   { Process.new 2 2 1 with finish_time := 4, waiting_time := 1, turnaround_time := 2 },
   { Process.new 3 10 1 with finish_time := 11, waiting_time := 0, turnaround_time := 1 }]

/-- The fields of a process record that a run must leave alone. -/
def Process.inputFields (p : Process) : Int × Int × Int × Int :=
  (p.id, p.arrival_time, p.burst_time, p.remaining_time)

/-- The state of the canonical vector `after` a run that started from `before`:
every record has `turnaround_time = finish_time - arrival_time` and
`waiting_time = turnaround_time - burst_time`, the totals satisfy
`sum(waiting) + sum(burst) = sum(turnaround)`, and id, arrival, burst and
remaining time of every record are as they were. -/
def MetricsOk (before after : List Process) : Prop :=
  (∀ p ∈ after, p.turnaround_time = p.finish_time - p.arrival_time ∧
    p.waiting_time = p.turnaround_time - p.burst_time) ∧
  (after.map (fun p => p.waiting_time)).sum + (after.map (fun p => p.burst_time)).sum
    = (after.map (fun p => p.turnaround_time)).sum ∧
  after.map Process.inputFields = before.map Process.inputFields

/-- The makespan computed in `displayResults`: `completion_time` starts at
`processes[0].finish_time` and takes the maximum over all finish times.  On an
empty vector the C++ is undefined; the model returns 0. -/
def completionTime : List Process → Int
  | [] => 0
  | p :: ps => (p :: ps).foldl (fun m x => max m x.finish_time) p.finish_time

/-- The single record of the one-process input `[(0, b)]` while it still has `r`
units to run. -/
def singleAt (b r : Int) : Process :=
  { Process.new 1 0 b with remaining_time := r }

/-- The single record of the one-process input `[(0, b)]` as every algorithm
should report it: finish `b`, turnaround `b`, waiting 0. -/
def singleDone (b : Int) : Process :=
  { id := 1, arrival_time := 0, burst_time := b, remaining_time := b,
    finish_time := b, waiting_time := 0, turnaround_time := b }

/-- The value of `current_time` when the loop of `runFCFS`, entered with clock
`ct`, has gone through the sorted copy `temp`. -/
def clockFrom : Int → List Process → Int
  | ct, [] => ct
  | ct, p :: rest => clockFrom (max ct p.arrival_time + p.burst_time) rest

/-- Total idle time of `runFCFS`: the sum of the clock advances
`current_time = p.arrival_time` (each is `arrival_time - current_time` when the
branch `current_time < arrival_time` is taken and 0 otherwise). -/
def fcfsIdle : Int → List Process → Int
  | _, [] => 0
  | ct, p :: rest =>
    (max ct p.arrival_time - ct) + fcfsIdle (max ct p.arrival_time + p.burst_time) rest

/-- Whether iteration `n` of the loop of `runSRT` on `ps` is an idle one: the
guard holds and the priority queue is empty after the arrival scan. -/
def srtIdleAt (ps : List Process) (n : Nat) : Bool :=
  decide ((srtAt ps n).completed < (srtAt ps n).processes.length) &&
    (srtAdmit (srtAt ps n)).isEmpty

/-- Number of idle iterations of `runSRT` on `ps` among the first `n`. -/
def srtIdleUpto (ps : List Process) (n : Nat) : Nat :=
  ((List.range n).filter (srtIdleAt ps)).length

/-- Processes `[(2,1),(5,2)]`: the CPU idles before each arrival. -/
def gapInput : List Process := [Process.new 1 2 1, Process.new 2 5 2]

/-! ## The 32-bit machine model

The definitions above compute with exact integers.  The definitions of this
section are the same loops with every `int` addition and subtraction of the
source reduced to 32 bits, two's complement, the way the compiled program
behaves when `current_time`, `finish_time` or a metric leaves the range of
`int`.  Comparisons, `min` and the scans involve no arithmetic and are shared
with the exact model. -/

/-- Largest value of a C++ `int`. -/
def INT_MAX : Int := 2147483647

/-- Result of an `int` operation whose exact value is `x`: `x` reduced modulo
`2^32` into `[-2^31, 2^31 - 1]`. -/
def wrap32 (x : Int) : Int := (x + 2147483648) % 4294967296 - 2147483648

/-- Method `calculateMetrics` with `int` subtraction. -/
def Machine.calculateMetrics (procs : List Process) : List Process :=
  procs.map (fun p =>
    { p with turnaround_time := wrap32 (p.finish_time - p.arrival_time),
             waiting_time := wrap32 (wrap32 (p.finish_time - p.arrival_time) - p.burst_time) })

/-- Body of the `for (auto& p : temp)` loop of `runFCFS` with `int` arithmetic. -/
def Machine.fcfsStep (s : FCFSState) (p : Process) : FCFSState :=
  let start := if s.current_time < p.arrival_time then p.arrival_time else s.current_time
  { processes := setFinish s.processes (wrap32 (p.id - 1)).toNat (wrap32 (start + p.burst_time)),
    gantt_chart := s.gantt_chart ++ [(start, p.id)],
    current_time := wrap32 (start + p.burst_time) }

/-- Loop of `runFCFS` over the sorted copy with `int` arithmetic. -/
def Machine.fcfsLoop (procs temp : List Process) : FCFSState :=
  temp.foldl Machine.fcfsStep { processes := procs, gantt_chart := [], current_time := 0 }

/-- Method `runFCFS` with `int` arithmetic; `sort cmp v` stands for
`std::sort(v.begin(), v.end(), cmp)`. -/
def Machine.runFCFS (sort : (Process → Process → Bool) → List Process → List Process)
    (s : Scheduler) : Scheduler :=
  let r := Machine.fcfsLoop s.processes (sort arrivalLess s.processes)
  { s with processes := Machine.calculateMetrics r.processes, gantt_chart := r.gantt_chart }

/-- One iteration of the body of the `while` loop of `runSRT` with `int`
arithmetic (`remaining_time--`, `current_time++`). -/
def Machine.srtStep (s : SRTState) : SRTState :=
  let pq1 := srtAdmit s
  match pqTop pq1 with
  | none => { s with pq := pq1, current_time := wrap32 (s.current_time + 1) }
  | some cur =>
    match s.temp[cur.2]? with
    | none => s
    | some p =>
      let p1 := { p with remaining_time := wrap32 (p.remaining_time - 1) }
      if p1.remaining_time = 0 then
        { processes := setFinish s.processes (wrap32 (p.id - 1)).toNat
            (wrap32 (s.current_time + 1)),
          temp := s.temp.set cur.2 p1,
          pq := pq1.erase cur,
          current_time := wrap32 (s.current_time + 1),
          completed := s.completed + 1,
          gantt_chart := s.gantt_chart ++ [(s.current_time, p.id)] }
      else
        { processes := s.processes,
          temp := s.temp.set cur.2 p1,
          pq := pq1.erase cur ++ [(p1.remaining_time, cur.2)],
          current_time := wrap32 (s.current_time + 1),
          completed := s.completed,
          gantt_chart := s.gantt_chart ++ [(s.current_time, p.id)] }

/-- One pass through `while (completed < processes.size())` of `runSRT`, machine
arithmetic. -/
def Machine.srtTick (s : SRTState) : SRTState :=
  if s.completed < s.processes.length then Machine.srtStep s else s

/-- State of the machine `runSRT` after `n` passes through the loop. -/
def Machine.srtAt (procs : List Process) (n : Nat) : SRTState :=
  Machine.srtTick^[n] (srtInit procs)

/-- The `while` loop of `runSRT`, machine arithmetic, with at most `fuel`
iterations; `none` when the guard still holds after them. -/
def Machine.srtLoop : Nat → SRTState → Option SRTState
  | 0, s => if s.completed < s.processes.length then none else some s
  | fuel + 1, s =>
    if s.completed < s.processes.length then Machine.srtLoop fuel (Machine.srtStep s)
    else some s

/-- Method `runSRT` with `int` arithmetic. -/
def Machine.runSRT (fuel : Nat) (s : Scheduler) : Option Scheduler :=
  (Machine.srtLoop fuel (srtInit s.processes)).map (fun r =>
    { s with processes := Machine.calculateMetrics r.processes, gantt_chart := r.gantt_chart })

/-- The processes pushed by the inner loop of `runRR` after a slice ending at
`ct` that lasted `execute_time`; `current_time - execute_time` is an `int`
subtraction. -/
def Machine.rrSliceArrivals (temp : List Process) (ct execute_time : Int) : List Nat :=
  scan temp (fun x => decide (wrap32 (ct - execute_time) < x.arrival_time) &&
    decide (x.arrival_time ≤ ct) && decide (0 < x.remaining_time))

/-- One iteration of the body of the `while` loop of `runRR` with `int`
arithmetic (`remaining_time -= execute_time`, `current_time += execute_time`,
`current_time++`). -/
def Machine.rrStep (quantum : Int) (s : RRState) : RRState :=
  match rrAdmit s with
  | [] => { s with rq := [], current_time := wrap32 (s.current_time + 1) }
  | cur :: rest =>
    match s.temp[cur]? with
    | none => s
    | some p =>
      let execute_time := min quantum p.remaining_time
      let p1 := { p with remaining_time := wrap32 (p.remaining_time - execute_time) }
      let temp1 := s.temp.set cur p1
      let ct := wrap32 (s.current_time + execute_time)
      if p1.remaining_time = 0 then
        { processes := setFinish s.processes (wrap32 (p.id - 1)).toNat ct,
          temp := temp1,
          rq := rest,
          current_time := ct,
          completed := s.completed + 1,
          gantt_chart := s.gantt_chart ++ [(s.current_time, p.id)] }
      else
        { processes := s.processes,
          temp := temp1,
          rq := rest ++ Machine.rrSliceArrivals temp1 ct execute_time ++ [cur],
          current_time := ct,
          completed := s.completed,
          gantt_chart := s.gantt_chart ++ [(s.current_time, p.id)] }

/-- One pass through `while (completed < processes.size())` of `runRR`, machine
arithmetic. -/
def Machine.rrTick (quantum : Int) (s : RRState) : RRState :=
  if s.completed < s.processes.length then Machine.rrStep quantum s else s

/-- State of the machine `runRR` after `n` passes through the loop. -/
def Machine.rrAt (quantum : Int) (procs : List Process) (n : Nat) : RRState :=
  (Machine.rrTick quantum)^[n] (rrInit procs)

/-- The `while` loop of `runRR`, machine arithmetic, with at most `fuel`
iterations; `none` when the guard still holds after them. -/
def Machine.rrLoop (quantum : Int) : Nat → RRState → Option RRState
  | 0, s => if s.completed < s.processes.length then none else some s
  | fuel + 1, s =>
    if s.completed < s.processes.length then
      Machine.rrLoop quantum fuel (Machine.rrStep quantum s)
    else some s

/-- Method `runRR` with `int` arithmetic. -/
def Machine.runRR (fuel : Nat) (s : Scheduler) : Option Scheduler :=
  (Machine.rrLoop s.quantum fuel (rrInit s.processes)).map (fun r =>
    { s with processes := Machine.calculateMetrics r.processes, gantt_chart := r.gantt_chart })

/-- The input is small enough for `runFCFS` and `runSRT` never to overflow an
`int`: the latest arrival plus all bursts fits. -/
def NoOverflow (ps : List Process) : Prop := maxArrival ps + sumBurst ps ≤ INT_MAX

instance decNoOverflow (ps : List Process) : Decidable (NoOverflow ps) :=
  inferInstanceAs (Decidable (maxArrival ps + sumBurst ps ≤ INT_MAX))

/-- The input fits the types of the program: arrival and burst times are `int`
values and the ids `1..N` are too. -/
def InRange (ps : List Process) : Prop :=
  (ps.length : Int) ≤ INT_MAX ∧
    ∀ p ∈ ps, p.arrival_time ≤ INT_MAX ∧ p.burst_time ≤ INT_MAX

instance decInRange (ps : List Process) : Decidable (InRange ps) :=
  inferInstanceAs (Decidable ((ps.length : Int) ≤ INT_MAX ∧
    ∀ p ∈ ps, p.arrival_time ≤ INT_MAX ∧ p.burst_time ≤ INT_MAX))

/-! ## The library `std::sort`

`runFCFS` calls `std::sort`, which is library code.  The definitions below follow
the introsort of the GNU C++ library (the `std::sort` of `g++`): median-of-three
quicksort on ranges longer than 16 elements, then one insertion sort over the
whole array.  Arrays are lists and iterators are positions. -/

/-- Comparison `comp(first + i, first + j)` on the array `l`. -/
def cmpAt (cmp : Process → Process → Bool) (l : List Process) (i j : Nat) : Bool :=
  match l[i]?, l[j]? with
  | some a, some b => cmp a b
  | _, _ => false

/-- Library call `std::iter_swap(first + i, first + j)`. -/
def swapAt (l : List Process) (i j : Nat) : List Process :=
  match l[i]?, l[j]? with
  | some a, some b => (l.set i b).set j a
  | _, _ => l

/-- Library function `__move_median_to_first(result, a, b, c, comp)`. -/
def moveMedianToFirst (cmp : Process → Process → Bool) (l : List Process)
    (result a b c : Nat) : List Process :=
  if cmpAt cmp l a b then
    if cmpAt cmp l b c then swapAt l result b
    else if cmpAt cmp l a c then swapAt l result c
    else swapAt l result a
  else if cmpAt cmp l a c then swapAt l result a
  else if cmpAt cmp l b c then swapAt l result c
  else swapAt l result b

/-- Loop `while (comp(first, pivot)) ++first;` of `__unguarded_partition`. -/
def scanUp (cmp : Process → Process → Bool) (l : List Process) (pivot : Nat) :
    Nat → Nat → Nat
  | 0, first => first
  | fuel + 1, first => if cmpAt cmp l first pivot then scanUp cmp l pivot fuel (first + 1) else first

/-- Loop `while (comp(pivot, last)) --last;` of `__unguarded_partition`. -/
def scanDown (cmp : Process → Process → Bool) (l : List Process) (pivot : Nat) :
    Nat → Nat → Nat
  | 0, last => last
  | fuel + 1, last => if cmpAt cmp l pivot last then scanDown cmp l pivot fuel (last - 1) else last

/-- Library function `__unguarded_partition(first, last, pivot, comp)`; returns
the array and the cut.  Its `while (true)` loop runs at most once per element. -/
def unguardedPartition (cmp : Process → Process → Bool) (pivot : Nat) :
    Nat → List Process → Nat → Nat → List Process × Nat
  | 0, l, first, _ => (l, first)
  | fuel + 1, l, first, last =>
    let first1 := scanUp cmp l pivot l.length first
    let last1 := scanDown cmp l pivot l.length (last - 1)
    if first1 < last1 then
      unguardedPartition cmp pivot fuel (swapAt l first1 last1) (first1 + 1) last1
    else (l, first1)

/-- Library function `__unguarded_partition_pivot(first, last, comp)`. -/
def unguardedPartitionPivot (cmp : Process → Process → Bool) (l : List Process)
    (first last : Nat) : List Process × Nat :=
  let mid := first + (last - first) / 2
  unguardedPartition cmp first l.length
    (moveMedianToFirst cmp l first (first + 1) mid (last - 1)) (first + 1) last

/-- Library function `__introsort_loop(first, last, depth_limit, comp)`.  When
the depth limit is used up on a range longer than 16 the library switches to
heap sort, which is not modelled: the result is `none` there. -/
def introsortLoop (cmp : Process → Process → Bool) :
    Nat → List Process → Nat → Nat → Option (List Process)
  | 0, l, first, last => if last - first > 16 then none else some l
  | depth + 1, l, first, last =>
    if last - first > 16 then
      match introsortLoop cmp depth (unguardedPartitionPivot cmp l first last).1
          (unguardedPartitionPivot cmp l first last).2 last with
      | none => none
      | some l2 => introsortLoop cmp depth l2 first (unguardedPartitionPivot cmp l first last).2
    else some l

/-- Library function `__unguarded_linear_insert`: `val`, taken from position
`pos`, moves left past every element it compares less than.  (The library
relies on a smaller element to stop the loop; the model also stops at the
front of the array.) -/
def linearInsert (cmp : Process → Process → Bool) (val : Process) :
    Nat → List Process → Nat → List Process
  | 0, l, pos => l.set pos val
  | fuel + 1, l, pos =>
    match l[pos - 1]? with
    | some nx =>
      if pos ≠ 0 ∧ cmp val nx = true then linearInsert cmp val fuel (l.set pos nx) (pos - 1)
      else l.set pos val
    | none => l.set pos val

/-- One round of the `for` loop of the library `__insertion_sort` on a range that
starts at the front of the array: element `i` goes to the front when it is
less than the first element, and is linearly inserted otherwise. -/
def insertionRound (cmp : Process → Process → Bool) (l : List Process) (i : Nat) :
    List Process :=
  match l[i]? with
  | none => l
  | some val =>
    if cmpAt cmp l i 0 then val :: (l.take i ++ l.drop (i + 1))
    else linearInsert cmp val i l i

/-- Library function `__final_insertion_sort(first, last, comp)` on the whole
array: guarded insertion sort of the first 16 elements, unguarded linear
insertion of the rest. -/
def finalInsertionSort (cmp : Process → Process → Bool) (l : List Process) : List Process :=
  if l.length > 16 then
    (List.range' 16 (l.length - 16)).foldl
      (fun acc i =>
        match acc[i]? with
        | some val => linearInsert cmp val i acc i
        | none => acc)
      ((List.range' 1 15).foldl (insertionRound cmp) l)
  else (List.range' 1 (l.length - 1)).foldl (insertionRound cmp) l

/-- Library function `__lg(n)`: the position of the highest set bit of `n`
(0 for `n < 2`), computed by halving. -/
def lgFloor : Nat → Nat → Nat
  | 0, _ => 0
  | fuel + 1, n => if n < 2 then 0 else lgFloor fuel (n / 2) + 1

/-- Library function `std::sort(first, last, comp)` of the GNU C++ library.
Where the library would fall back to heap sort (depth limit `2 * lg n` used
up), the model stands in with straight insertion; no result below reaches
that case. -/
def stdSort (cmp : Process → Process → Bool) (l : List Process) : List Process :=
  match introsortLoop cmp (2 * lgFloor l.length l.length) l 0 l.length with
  | some l1 => finalInsertionSort cmp l1
  | none => insertionSort cmp l

/-- Seventeen processes that all arrive at time 0 with burst 1, ids 1 to 17. -/
def tie17 : List Process :=
  (List.range 17).map (fun i => Process.new ((i : Int) + 1) 0 1)

/-- Total idle time of the machine `runFCFS`: the sum of the clock advances
`current_time = p.arrival_time`, the clock being the `int` one. -/
def Machine.fcfsIdle : Int → List Process → Int
  | _, [] => 0
  | ct, p :: rest =>
    (max ct p.arrival_time - ct)
      + Machine.fcfsIdle (wrap32 (max ct p.arrival_time + p.burst_time)) rest

/-- Whether iteration `n` of the loop of the machine `runSRT` on `ps` is an idle
one: the guard holds and the priority queue is empty after the arrival scan. -/
def Machine.srtIdleAt (ps : List Process) (n : Nat) : Bool :=
  decide ((Machine.srtAt ps n).completed < (Machine.srtAt ps n).processes.length) &&
    (srtAdmit (Machine.srtAt ps n)).isEmpty

/-- Number of idle iterations of the machine `runSRT` on `ps` among the first `n`. -/
def Machine.srtIdleUpto (ps : List Process) (n : Nat) : Nat :=
  ((List.range n).filter (Machine.srtIdleAt ps)).length

/-- Processes `[(0,2147483647),(0,1)]`: the second finish time does not fit an
`int`. -/
def bigInput : List Process := [Process.new 1 0 2147483647, Process.new 2 0 1]

/-- The one-process input `[(2147483647, b)]`: the process arrives at the largest
`int`. -/
def lateInput (b : Int) : List Process := [Process.new 1 2147483647 b]

/-- Processes `[(2147483646,5),(2147483647,1)]`, run with quantum 2: the first
slice ends past the largest `int`. -/
def lateRR : List Process := [Process.new 1 2147483646 5, Process.new 2 2147483647 1]

/-- The state of the canonical vector `after` a machine run that started from
`before`: every record has `turnaround_time` and `waiting_time` equal to the
`int` results of `finish_time - arrival_time` and
`turnaround_time - burst_time`, and id, arrival, burst and remaining time of
every record are as they were. -/
def Machine.MetricsOk (before after : List Process) : Prop :=
  (∀ p ∈ after, p.turnaround_time = wrap32 (p.finish_time - p.arrival_time) ∧
    p.waiting_time = wrap32 (p.turnaround_time - p.burst_time)) ∧
  after.map Process.inputFields = before.map Process.inputFields

/-- Both differences of `calculateMetrics` fit an `int` on every record. -/
def MetricsFit (after : List Process) : Prop :=
  ∀ p ∈ after, -2147483648 ≤ p.finish_time - p.arrival_time ∧
    p.finish_time - p.arrival_time ≤ 2147483647 ∧
    -2147483648 ≤ p.finish_time - p.arrival_time - p.burst_time ∧
    p.finish_time - p.arrival_time - p.burst_time ≤ 2147483647

/-- The one-process input `[(1, 2147483647)]`: the finish time does not fit an
`int`. -/
def wrapInput : List Process := [Process.new 1 1 2147483647]

/-- Processes `[(0,3),(2,1),(2147483647,2)]`, run with quantum 2: the loop of
`runRR` exits before P3 has run. -/
def rrLate3 : List Process :=
  [Process.new 1 0 3, Process.new 2 2 1, Process.new 3 2147483647 2]

/-- Number of records of `temp` with `remaining_time == 0`. -/
def zeros (temp : List Process) : Int :=
  (temp.map (fun p => if p.remaining_time = 0 then (1 : Int) else 0)).sum

/-- What holds of the state of the machine `runRR` on `ps` at every iteration,
whether or not the clock has overflowed: `temp` is `ps` with only
`remaining_time` changed and between 0 and the burst, every queued pointer
refers into `temp`, the clock is an `int`, `completed` is at least the number
of finished records and at most `N`, and the chart is no longer than the work
done plus the dispatches of already finished records. -/
structure Machine.RRInv (ps : List Process) (s : RRState) : Prop where
  len_temp : s.temp.length = ps.length
  len_proc : s.processes.length = ps.length
  static : ∀ (i : Nat) (p : Process), s.temp[i]? = some p →
    ∃ p0, ps[i]? = some p0 ∧ p = { p0 with remaining_time := p.remaining_time }
  rem_range : ∀ (i : Nat) (p : Process), s.temp[i]? = some p →
    0 ≤ p.remaining_time ∧ p.remaining_time ≤ p.burst_time
  rq_valid : ∀ i ∈ s.rq, i < s.temp.length
  clock_lo : -2147483648 ≤ s.current_time
  clock_hi : s.current_time ≤ 2147483647
  zeros_le : zeros s.temp ≤ (s.completed : Int)
  completed_le : s.completed ≤ ps.length
  chart_le : (s.gantt_chart.length : Int) + sumRemaining s.temp + zeros s.temp
    ≤ sumBurst ps + (s.completed : Int)

/-- The clock of the machine `runRR` has not overflowed during the first `n`
iterations: it never went down. -/
def Machine.rrNoWrap (q : Int) (ps : List Process) (n : Nat) : Prop :=
  ∀ k < n, (Machine.rrAt q ps k).current_time ≤ (Machine.rrAt q ps (k + 1)).current_time

instance Machine.decRrNoWrap (q : Int) (ps : List Process) (n : Nat) :
    Decidable (Machine.rrNoWrap q ps n) :=
  inferInstanceAs (Decidable (∀ k < n,
    (Machine.rrAt q ps k).current_time ≤ (Machine.rrAt q ps (k + 1)).current_time))

/-- Number of idle iterations after which the clock of the machine `runRR`
equals the arrival time of the first unfinished record of `temp`. -/
def Machine.rrIdleDist (s : RRState) : Nat :=
  match s.temp.find? (fun p => decide (p.remaining_time ≠ 0)) with
  | some x => ((x.arrival_time - s.current_time) % 4294967296).toNat
  | none => 0

/-- Termination measure of the loop of the machine `runRR`: work and completions
still to come, then the idle distance. -/
def Machine.rrMeasure (ps : List Process) (s : RRState) : Nat :=
  (sumRemaining s.temp + ((ps.length : Int) - (s.completed : Int))).toNat * 4294967296
    + Machine.rrIdleDist s

/-- A number of iterations within which the loop of the machine `runRR` on `ps`
stops. -/
def Machine.rrFuel (ps : List Process) : Nat :=
  ((sumBurst ps).toNat + ps.length + 1) * 4294967296

/-- The clock of the machine `runSRT` has not overflowed during the first `n`
iterations: it never went down. -/
def Machine.srtNoWrap (ps : List Process) (n : Nat) : Prop :=
  ∀ k < n, (Machine.srtAt ps k).current_time ≤ (Machine.srtAt ps (k + 1)).current_time

instance Machine.decSrtNoWrap (ps : List Process) (n : Nat) :
    Decidable (Machine.srtNoWrap ps n) :=
  inferInstanceAs (Decidable (∀ k < n,
    (Machine.srtAt ps k).current_time ≤ (Machine.srtAt ps (k + 1)).current_time))

/-- No iteration of the loop of the machine `runFCFS`, entered in state `s` over
the sorted copy `temp`, lowers the clock. -/
def Machine.fcfsNoWrapFrom : FCFSState → List Process → Prop
  | _, [] => True
  | s, p :: rest =>
    s.current_time ≤ (Machine.fcfsStep s p).current_time ∧
      Machine.fcfsNoWrapFrom (Machine.fcfsStep s p) rest

instance Machine.decFcfsNoWrapFrom :
    (s : FCFSState) → (temp : List Process) → Decidable (Machine.fcfsNoWrapFrom s temp)
  | _, [] => isTrue trivial
  | s, p :: rest =>
    have := Machine.decFcfsNoWrapFrom (Machine.fcfsStep s p) rest
    inferInstanceAs (Decidable (s.current_time ≤ (Machine.fcfsStep s p).current_time ∧
      Machine.fcfsNoWrapFrom (Machine.fcfsStep s p) rest))

/-- The clock of the machine `runFCFS` on `ps` does not overflow: it never goes
down. -/
def Machine.fcfsNoWrap (sort : (Process → Process → Bool) → List Process → List Process)
    (ps : List Process) : Prop :=
  Machine.fcfsNoWrapFrom { processes := ps, gantt_chart := [], current_time := 0 }
    (sort arrivalLess ps)

instance Machine.decFcfsNoWrap
    (sort : (Process → Process → Bool) → List Process → List Process) (ps : List Process) :
    Decidable (Machine.fcfsNoWrap sort ps) :=
  Machine.decFcfsNoWrapFrom _ _

/-! ## Basic facts -/

theorem validFrom_get : ∀ (ps : List Process) (k i : Nat) (p : Process),
    ValidFrom k ps → ps[i]? = some p →
    p.id = (k : Int) + i + 1 ∧ 0 ≤ p.arrival_time ∧ 0 < p.burst_time ∧
      p.remaining_time = p.burst_time
  | [], _, _, _, _, h => by simp at h
  | q :: qs, k, 0, p, hv, h => by
    simp at h
    subst h
    obtain ⟨⟨h1, h2, h3, h4⟩, _⟩ := hv
    exact ⟨by simpa using h1, h2, h3, h4⟩
  | q :: qs, k, i + 1, p, hv, h => by
    obtain ⟨h1, h2⟩ := validFrom_get qs (k + 1) i p hv.2 (by simpa using h)
    exact ⟨by push_cast at h1 ⊢; omega, h2⟩

theorem valid_get {ps : List Process} (hv : Valid ps) {i : Nat} {p : Process}
    (h : ps[i]? = some p) :
    p.id = (i : Int) + 1 ∧ 0 ≤ p.arrival_time ∧ 0 < p.burst_time ∧
      p.remaining_time = p.burst_time := by
  simpa using validFrom_get ps 0 i p hv h

theorem valid_lookup {ps : List Process} (hv : Valid ps) {p : Process} (h : p ∈ ps) :
    ps[(p.id - 1).toNat]? = some p := by
  obtain ⟨i, hi⟩ := List.getElem?_of_mem h
  have := (valid_get hv hi).1
  have e : (p.id - 1).toNat = i := by omega
  rw [e, hi]

theorem valid_ids_inj {ps : List Process} (hv : Valid ps) {p q : Process} (hp : p ∈ ps)
    (hq : q ∈ ps) (h : p.id = q.id) : p = q := by
  have h1 := valid_lookup hv hp
  have h2 := valid_lookup hv hq
  rw [h] at h1
  rw [h1] at h2
  exact Option.some.inj h2

theorem valid_mem {ps : List Process} (hv : Valid ps) {p : Process} (h : p ∈ ps) :
    1 ≤ p.id ∧ 0 ≤ p.arrival_time ∧ 0 < p.burst_time ∧ p.remaining_time = p.burst_time := by
  obtain ⟨i, hi⟩ := List.getElem?_of_mem h
  obtain ⟨h1, h2⟩ := valid_get hv hi
  exact ⟨by omega, h2⟩

theorem arrivalOf_mem {ps : List Process} (hv : Valid ps) {p : Process} (h : p ∈ ps) :
    arrivalOf ps p.id = p.arrival_time := by
  rw [arrivalOf, valid_lookup hv h]; rfl

theorem burstOf_mem {ps : List Process} (hv : Valid ps) {p : Process} (h : p ∈ ps) :
    burstOf ps p.id = p.burst_time := by
  rw [burstOf, valid_lookup hv h]; rfl

theorem setFinish_length (procs : List Process) (k : Nat) (t : Int) :
    (setFinish procs k t).length = procs.length := by
  unfold setFinish
  split <;> simp

theorem setFinish_get_ne (procs : List Process) {k j : Nat} (t : Int) (h : k ≠ j) :
    (setFinish procs k t)[j]? = procs[j]? := by
  unfold setFinish
  split
  · simp [List.getElem?_set, h]
  · rfl

theorem setFinish_get_eq (procs : List Process) {k : Nat} (t : Int) {p : Process}
    (h : procs[k]? = some p) :
    (setFinish procs k t)[k]? = some { p with finish_time := t } := by
  have hk : k < procs.length := by
    by_contra hc
    rw [List.getElem?_eq_none (by omega)] at h
    cases h
  unfold setFinish
  rw [h]
  simp [List.getElem?_set, hk]

/-! ## FCFS: the loop as a recursion -/

theorem fcfsStep_start (s : FCFSState) (p : Process) :
    fcfsStep s p =
      { processes := setFinish s.processes (p.id - 1).toNat
          (max s.current_time p.arrival_time + p.burst_time),
        gantt_chart := s.gantt_chart ++ [(max s.current_time p.arrival_time, p.id)],
        current_time := max s.current_time p.arrival_time + p.burst_time } := by
  have e : (if s.current_time < p.arrival_time then p.arrival_time else s.current_time)
      = max s.current_time p.arrival_time := by
    split
    · exact (max_eq_right (by omega)).symm
    · exact (max_eq_left (by omega)).symm
  simp only [fcfsStep, e]

theorem fcfs_fold_gantt : ∀ (l : List Process) (s : FCFSState),
    (l.foldl fcfsStep s).gantt_chart = s.gantt_chart ++ chartFrom s.current_time l
  | [], s => by simp [chartFrom]
  | p :: rest, s => by
    rw [List.foldl_cons, fcfs_fold_gantt rest (fcfsStep s p), fcfsStep_start]
    simp [chartFrom]

theorem fcfs_fold_length : ∀ (l : List Process) (s : FCFSState),
    (l.foldl fcfsStep s).processes.length = s.processes.length
  | [], s => rfl
  | p :: rest, s => by
    rw [List.foldl_cons, fcfs_fold_length rest (fcfsStep s p), fcfsStep_start]
    exact setFinish_length _ _ _

theorem fcfs_fold_untouched : ∀ (l : List Process) (s : FCFSState) (j : Nat),
    (∀ p ∈ l, (p.id - 1).toNat ≠ j) → (l.foldl fcfsStep s).processes[j]? = s.processes[j]?
  | [], s, j, _ => rfl
  | p :: rest, s, j, h => by
    rw [List.foldl_cons, fcfs_fold_untouched rest (fcfsStep s p) j
      (fun q hq => h q (List.mem_cons_of_mem _ hq)), fcfsStep_start]
    exact setFinish_get_ne _ _ (h p (List.mem_cons_self _ _))

theorem fcfs_fold_finish : ∀ (l : List Process) (s : FCFSState) (i : Nat) (p p0 : Process),
    l.Pairwise (fun a b => (a.id - 1).toNat ≠ (b.id - 1).toNat) →
    l[i]? = some p → s.processes[(p.id - 1).toNat]? = some p0 →
    ∃ st, (chartFrom s.current_time l)[i]? = some (st, p.id) ∧
      (l.foldl fcfsStep s).processes[(p.id - 1).toNat]? =
        some { p0 with finish_time := st + p.burst_time }
  | [], _, _, _, _, _, h, _ => by simp at h
  | a :: rest, s, 0, p, p0, hp, h, h0 => by
    simp at h
    subst h
    refine ⟨max s.current_time a.arrival_time, by simp [chartFrom], ?_⟩
    rw [List.foldl_cons, fcfs_fold_untouched rest (fcfsStep s a) _
      (fun q hq => Ne.symm ((List.pairwise_cons.1 hp).1 q hq)), fcfsStep_start]
    exact setFinish_get_eq _ _ h0
  | a :: rest, s, i + 1, p, p0, hp, h, h0 => by
    have hmem : p ∈ rest := List.getElem?_mem (show rest[i]? = some p by simpa using h)
    have hne : (a.id - 1).toNat ≠ (p.id - 1).toNat := (List.pairwise_cons.1 hp).1 p hmem
    have h1 : (fcfsStep s a).processes[(p.id - 1).toNat]? = some p0 := by
      rw [fcfsStep_start]
      show (setFinish s.processes _ _)[(p.id - 1).toNat]? = some p0
      rw [setFinish_get_ne _ _ hne]
      exact h0
    obtain ⟨st, c1, c2⟩ := fcfs_fold_finish rest (fcfsStep s a) i p p0
      (List.pairwise_cons.1 hp).2 (by simpa using h) h1
    refine ⟨st, ?_, ?_⟩
    · rw [fcfsStep_start] at c1
      simpa [chartFrom] using c1
    · rw [List.foldl_cons]
      exact c2

theorem chartFrom_length : ∀ (l : List Process) (ct : Int), (chartFrom ct l).length = l.length
  | [], _ => rfl
  | p :: rest, ct => by simp [chartFrom, chartFrom_length rest]

theorem chartFrom_ids : ∀ (l : List Process) (ct : Int),
    (chartFrom ct l).map Prod.snd = l.map (fun p => p.id)
  | [], _ => rfl
  | p :: rest, ct => by simp [chartFrom, chartFrom_ids rest]

theorem chartFrom_get : ∀ (l : List Process) (ct : Int) (i : Nat) (e : Int × Int),
    (chartFrom ct l)[i]? = some e →
    ∃ p, l[i]? = some p ∧ e.2 = p.id ∧ p.arrival_time ≤ e.1 ∧
      (i = 0 → e.1 = max ct p.arrival_time) ∧
      ∀ e2, (chartFrom ct l)[i + 1]? = some e2 →
        ∃ q, l[i + 1]? = some q ∧ e2 = (max (e.1 + p.burst_time) q.arrival_time, q.id)
  | [], _, _, _, h => by simp [chartFrom] at h
  | p :: rest, ct, 0, e, h => by
    simp [chartFrom] at h
    subst h
    refine ⟨p, by simp, rfl, le_max_right _ _, fun _ => rfl, ?_⟩
    intro e2 h2
    cases rest with
    | nil => simp [chartFrom] at h2
    | cons q rest2 =>
      simp [chartFrom] at h2
      exact ⟨q, by simp, h2.symm⟩
  | p :: rest, ct, i + 1, e, h => by
    have h1 : (chartFrom (max ct p.arrival_time + p.burst_time) rest)[i]? = some e := by
      simpa [chartFrom] using h
    obtain ⟨q, a1, a2, a3, _, a6⟩ := chartFrom_get rest _ i e h1
    refine ⟨q, by simpa using a1, a2, a3, by omega, ?_⟩
    · intro e2 h2
      obtain ⟨r, b1, b2⟩ := a6 e2 (by simpa [chartFrom] using h2)
      exact ⟨r, by simpa using b1, b2⟩

/-! ## Insertion sort meets the contract of `std::sort` -/

theorem insertSorted_perm (cmp : Process → Process → Bool) (x : Process) :
    ∀ l : List Process, (insertSorted cmp x l).Perm (x :: l)
  | [] => List.Perm.refl _
  | y :: ys => by
    unfold insertSorted
    split
    · exact List.Perm.refl _
    · exact ((insertSorted_perm cmp x ys).cons y).trans (List.Perm.swap x y ys)

theorem insertSorted_pairwise (x : Process) :
    ∀ l : List Process, l.Pairwise (fun a b => arrivalLess b a = false) →
      (insertSorted arrivalLess x l).Pairwise (fun a b => arrivalLess b a = false)
  | [], _ => by simp [insertSorted]
  | y :: ys, h => by
    obtain ⟨h1, h2⟩ := List.pairwise_cons.1 h
    unfold insertSorted
    split
    · rename_i hxy
      refine List.pairwise_cons.2 ⟨?_, h⟩
      intro z hz
      simp only [arrivalLess, decide_eq_true_eq, decide_eq_false_iff_not, not_lt] at hxy h1 ⊢
      rcases List.mem_cons.1 hz with rfl | hz
      · omega
      · have := h1 z hz
        omega
    · rename_i hxy
      refine List.pairwise_cons.2 ⟨?_, insertSorted_pairwise x ys h2⟩
      intro z hz
      rcases List.mem_cons.1 ((insertSorted_perm arrivalLess x ys).mem_iff.1 hz) with rfl | hz
      · simpa using hxy
      · exact h1 z hz

theorem insertion_fold : ∀ (l acc : List Process),
    acc.Pairwise (fun a b => arrivalLess b a = false) →
    (l.foldl (fun acc x => insertSorted arrivalLess x acc) acc).Perm (acc ++ l) ∧
    (l.foldl (fun acc x => insertSorted arrivalLess x acc) acc).Pairwise
      (fun a b => arrivalLess b a = false)
  | [], acc, h => by simpa using h
  | x :: rest, acc, h => by
    obtain ⟨p1, p2⟩ := insertion_fold rest (insertSorted arrivalLess x acc)
      (insertSorted_pairwise x acc h)
    refine ⟨?_, p2⟩
    rw [List.foldl_cons]
    refine p1.trans ?_
    have e : acc ++ x :: rest = (acc ++ [x]) ++ rest := by simp
    rw [e]
    refine List.Perm.append_right rest ?_
    exact (insertSorted_perm arrivalLess x acc).trans (List.perm_append_singleton x acc).symm

theorem insertionSort_contract : StdSortContract insertionSort := by
  intro l
  have := insertion_fold l [] List.Pairwise.nil
  simpa [insertionSort] using this

/-- A list with the contract's ordering and pairwise distinct arrival times has
only one sorted rearrangement. -/
theorem sorted_unique : ∀ (l m : List Process),
    l.Pairwise (fun a b => a.arrival_time < b.arrival_time) →
    m.Perm l → m.Pairwise (fun a b => arrivalLess b a = false) → m = l
  | [], m, _, hp, _ => hp.eq_nil
  | x :: xs, [], _, hp, _ => by simpa using hp.symm.eq_nil
  | x :: xs, y :: ys, hl, hp, hm => by
    obtain ⟨l1, l2⟩ := List.pairwise_cons.1 hl
    obtain ⟨m1, m2⟩ := List.pairwise_cons.1 hm
    have hy : y ∈ x :: xs := hp.mem_iff.1 (List.mem_cons_self _ _)
    have hx : x ∈ y :: ys := hp.mem_iff.2 (List.mem_cons_self _ _)
    have hxy : y = x := by
      rcases List.mem_cons.1 hy with h | h
      · exact h
      · rcases List.mem_cons.1 hx with h2 | h2
        · exact h2.symm
        · have a1 := l1 y h
          have a2 := m1 x h2
          simp only [arrivalLess, decide_eq_false_iff_not, not_lt] at a2
          omega
    subst hxy
    rw [sorted_unique xs ys l2 (List.Perm.cons_inv hp) m2]

theorem sort_scenario1 (sort : (Process → Process → Bool) → List Process → List Process)
    (hs : StdSortContract sort) : sort arrivalLess scenario1 = scenario1 := by
  obtain ⟨h1, h2⟩ := hs scenario1
  refine sorted_unique scenario1 _ ?_ h1 h2
  simp [scenario1, Process.new]

/-! ## FCFS: results for a valid input -/

theorem validFrom_ids : ∀ (ps : List Process) (k : Nat), ValidFrom k ps →
    ps.map (fun p => p.id) = (List.range' (k + 1) ps.length).map (fun n : Nat => (n : Int))
  | [], _, _ => rfl
  | p :: rest, k, hv => by
    have := validFrom_ids rest (k + 1) hv.2
    simp [List.range', this, hv.1.1]

theorem valid_ids_nodup {ps : List Process} (hv : Valid ps) : (ps.map (fun p => p.id)).Nodup := by
  rw [validFrom_ids ps 0 hv]
  exact (List.nodup_range' _ _).map (fun a b h => by simpa using h)

theorem calculateMetrics_get (l : List Process) (j : Nat) :
    (calculateMetrics l)[j]? = (l[j]?).map (fun p =>
      { p with turnaround_time := p.finish_time - p.arrival_time,
               waiting_time := (p.finish_time - p.arrival_time) - p.burst_time }) := by
  simp [calculateMetrics]

theorem sorted_pairwise_index {ps temp : List Process} (hv : Valid ps) (hp : temp.Perm ps) :
    temp.Pairwise (fun a b => (a.id - 1).toNat ≠ (b.id - 1).toNat) := by
  have h1 : (temp.map (fun p => p.id)).Nodup := (hp.map _).nodup_iff.2 (valid_ids_nodup hv)
  have h2 : temp.Pairwise (fun a b => a.id ≠ b.id) := by
    simpa [List.Nodup, List.pairwise_map] using h1
  refine h2.imp_of_mem ?_
  intro a b ha hb hab
  have := (valid_mem hv (hp.mem_iff.1 ha)).1
  have := (valid_mem hv (hp.mem_iff.1 hb)).1
  omega

/-- Entry `i` of the FCFS chart and the finish time written for its process. -/
theorem fcfs_entry {ps temp : List Process} (hv : Valid ps) (hp : temp.Perm ps) {i : Nat}
    {e : Int × Int} (h : (fcfsLoop ps temp).gantt_chart[i]? = some e) :
    ∃ p, temp[i]? = some p ∧ p ∈ ps ∧ e.2 = p.id ∧ p.arrival_time ≤ e.1 ∧
      (fcfsLoop ps temp).processes[(p.id - 1).toNat]? =
        some { p with finish_time := e.1 + p.burst_time } := by
  have hg : (fcfsLoop ps temp).gantt_chart = chartFrom 0 temp := by
    simp [fcfsLoop, fcfs_fold_gantt]
  rw [hg] at h
  obtain ⟨p, a1, a2, a3, _, _⟩ := chartFrom_get temp 0 i e h
  have hmem : p ∈ ps := hp.mem_iff.1 (List.getElem?_mem a1)
  obtain ⟨st, c1, c2⟩ := fcfs_fold_finish temp
    { processes := ps, gantt_chart := [], current_time := 0 } i p p
    (sorted_pairwise_index hv hp) a1 (valid_lookup hv hmem)
  have hst : e.1 = st := by
    have := h.symm.trans c1
    simp only [Option.some.injEq] at this
    rw [this]
  refine ⟨p, a1, hmem, a2, a3, ?_⟩
  rw [hst]
  exact c2

/-- Every canonical record after the FCFS loop: unchanged except for the finish
time, which is the start of its chart entry plus its burst. -/
theorem fcfs_record {ps temp : List Process} (hv : Valid ps) (hp : temp.Perm ps) {j : Nat}
    {p : Process} (h : ps[j]? = some p) :
    ∃ (i : Nat) (st : Int), (fcfsLoop ps temp).gantt_chart[i]? = some (st, p.id) ∧ p.arrival_time ≤ st ∧
      (fcfsLoop ps temp).processes[j]? = some { p with finish_time := st + p.burst_time } := by
  have hmem : p ∈ temp := hp.mem_iff.2 (List.getElem?_mem h)
  obtain ⟨i, hi⟩ := List.getElem?_of_mem hmem
  have hg : (fcfsLoop ps temp).gantt_chart = chartFrom 0 temp := by
    simp [fcfsLoop, fcfs_fold_gantt]
  have hlen : i < (chartFrom 0 temp).length := by
    rw [chartFrom_length]
    exact (List.getElem?_eq_some.1 hi).1
  obtain ⟨e, he⟩ : ∃ e, (fcfsLoop ps temp).gantt_chart[i]? = some e := by
    rw [hg]
    exact ⟨_, List.getElem?_eq_getElem hlen⟩
  obtain ⟨q, b1, b2, b3, b4, b5⟩ := fcfs_entry hv hp he
  have hq : q = p := Option.some.inj (b1.symm.trans hi)
  subst hq
  have hj : (q.id - 1).toNat = j := by
    have := (valid_get hv h).1
    omega
  rw [hj] at b5
  refine ⟨i, e.1, ?_, b4, b5⟩
  rw [he, ← b3]

/-! ## FCFS: the slices, with exact integers -/

/-- Exact model: under any `std::sort` meeting the library contract and for a valid list,
the FCFS chart `(s_1,p_1),...,(s_N,p_N)` satisfies `s_1 = arrival(p_1)`,
`s_{i+1} = max(s_i + burst(p_i), arrival(p_{i+1}))`, hence `s_i >= arrival(p_i)`
and `s_{i+1} >= s_i + burst(p_i)`, and the finish time recorded for `p_i` is
`s_i + burst(p_i)`.  On `[(0,5),(1,3),(2,8)]` the order is P1,P2,P3 with
finishes 5,8,16 and waits 0,4,6. -/
theorem fcfs_slices
    (sort : (Process → Process → Bool) → List Process → List Process)
    (hs : StdSortContract sort) (ps : List Process) (hv : Valid ps)
    (g : List (Int × Int)) (q : Int) :
    let r := runFCFS sort { processes := ps, gantt_chart := g, quantum := q }
    let w := runFCFS sort { processes := scenario1, gantt_chart := g, quantum := q }
    r.gantt_chart.length = ps.length ∧
    (∀ e : Int × Int, r.gantt_chart[0]? = some e → e.1 = arrivalOf ps e.2) ∧
    (∀ (i : Nat) (e e2 : Int × Int), r.gantt_chart[i]? = some e → r.gantt_chart[i + 1]? = some e2 →
      e2.1 = max (e.1 + burstOf ps e.2) (arrivalOf ps e2.2) ∧ e.1 + burstOf ps e.2 ≤ e2.1) ∧
    (∀ (i : Nat) (e : Int × Int), r.gantt_chart[i]? = some e →
      arrivalOf ps e.2 ≤ e.1 ∧ finishOf r.processes e.2 = e.1 + burstOf ps e.2) ∧
    w.gantt_chart = [(0, 1), (5, 2), (8, 3)] ∧
    w.processes.map (fun p => p.finish_time) = [5, 8, 16] ∧
    w.processes.map (fun p => p.waiting_time) = [0, 4, 6] := by
  obtain ⟨hp, -⟩ := hs ps
  have hg : (runFCFS sort { processes := ps, gantt_chart := g, quantum := q }).gantt_chart
      = chartFrom 0 (sort arrivalLess ps) := by
    simp [runFCFS, fcfsLoop, fcfs_fold_gantt]
  have hg2 : (fcfsLoop ps (sort arrivalLess ps)).gantt_chart = chartFrom 0 (sort arrivalLess ps) := by
    simp [fcfsLoop, fcfs_fold_gantt]
  have hmem : ∀ {i : Nat} {p : Process}, (sort arrivalLess ps)[i]? = some p → p ∈ ps :=
    fun h => hp.mem_iff.1 (List.getElem?_mem h)
  simp only [hg]
  refine ⟨by rw [chartFrom_length, hp.length_eq], ?_, ?_, ?_, ?_⟩
  · intro e he
    obtain ⟨p, a1, a2, a3, a4, _⟩ := chartFrom_get _ 0 0 e he
    have h0 := (valid_mem hv (hmem a1)).2.1
    rw [a2, arrivalOf_mem hv (hmem a1), a4 rfl]
    exact max_eq_right h0
  · intro i e e2 he he2
    obtain ⟨p, a1, a2, a3, _, a5⟩ := chartFrom_get _ 0 i e he
    obtain ⟨p2, b1, b2⟩ := a5 e2 he2
    have e1 : e2.1 = max (e.1 + burstOf ps e.2) (arrivalOf ps e2.2) := by
      rw [a2, burstOf_mem hv (hmem a1), b2, arrivalOf_mem hv (hmem b1)]
    exact ⟨e1, by rw [e1]; exact le_max_left _ _⟩
  · intro i e he
    have he2 : (fcfsLoop ps (sort arrivalLess ps)).gantt_chart[i]? = some e := by
      rw [hg2]
      exact he
    obtain ⟨p, a1, a2, a3, a4, a5⟩ := fcfs_entry hv hp he2
    refine ⟨by rw [a3, arrivalOf_mem hv a2]; exact a4, ?_⟩
    rw [a3, burstOf_mem hv a2]
    simp only [runFCFS, finishOf, calculateMetrics_get, a5]
    rfl
  · simp only [runFCFS, sort_scenario1 sort hs]
    exact ⟨by decide, by decide, by decide⟩

/-! ## Scans and the priority queue -/

theorem mem_scan {temp : List Process} {cond : Process → Bool} {i : Nat} :
    i ∈ scan temp cond ↔ ∃ p, temp[i]? = some p ∧ cond p = true := by
  unfold scan
  rw [List.mem_filter, List.mem_range]
  constructor
  · rintro ⟨hi, h⟩
    rw [List.getElem?_eq_getElem hi] at h
    exact ⟨temp[i], List.getElem?_eq_getElem hi, h⟩
  · rintro ⟨p, hp, hc⟩
    refine ⟨(List.getElem?_eq_some.1 hp).1, ?_⟩
    rw [hp]
    exact hc

theorem scan_nodup (temp : List Process) (cond : Process → Bool) : (scan temp cond).Nodup :=
  (List.nodup_range _).filter _

theorem scan_increasing (temp : List Process) (cond : Process → Bool) :
    (scan temp cond).Pairwise (fun a b => a < b) :=
  (List.pairwise_lt_range _).filter _

theorem pqTop_none {l : List (Int × Nat)} : pqTop l = none ↔ l = [] := by
  cases l with
  | nil => simp [pqTop]
  | cons x xs =>
    simp only [pqTop]
    split
    · simp
    · split <;> simp

/-- Method `top()` returns an element of the queue that no element is less than. -/
theorem pqTop_least : ∀ (l : List (Int × Nat)) (m : Int × Nat), pqTop l = some m →
    m ∈ l ∧ ∀ x ∈ l, m.1 < x.1 ∨ (m.1 = x.1 ∧ m.2 ≤ x.2)
  | [], m, h => by simp [pqTop] at h
  | x :: xs, m, h => by
    simp only [pqTop] at h
    split at h
    · rename_i hn
      simp only [Option.some.injEq] at h
      subst h
      rw [pqTop_none.1 hn]
      simp
    · rename_i m2 hm2
      obtain ⟨i1, i2⟩ := pqTop_least xs m2 hm2
      split at h
      · rename_i hlt
        simp only [Option.some.injEq] at h
        subst h
        refine ⟨List.mem_cons_of_mem _ i1, ?_⟩
        intro y hy
        rcases List.mem_cons.1 hy with rfl | hy
        · simp only [pairLess, Bool.or_eq_true, Bool.and_eq_true, decide_eq_true_eq,
            Bool.not_eq_true', decide_eq_false_iff_not] at hlt
          omega
        · exact i2 y hy
      · rename_i hlt
        simp only [Option.some.injEq] at h
        subst h
        refine ⟨List.mem_cons_self _ _, ?_⟩
        intro y hy
        rcases List.mem_cons.1 hy with rfl | hy
        · right
          exact ⟨rfl, le_refl _⟩
        · have := i2 y hy
          simp only [pairLess, Bool.or_eq_true, Bool.and_eq_true, decide_eq_true_eq,
            Bool.not_eq_true', decide_eq_false_iff_not] at hlt
          omega

/-! ## SRT: one iteration -/

theorem srtAdmit_mem {ps : List Process} {s : SRTState} (h : SRTCore ps s) (k : Int) (i : Nat) :
    (k, i) ∈ srtAdmit s ↔
      ∃ p, s.temp[i]? = some p ∧ p.arrival_time ≤ s.current_time ∧ 0 < p.remaining_time ∧
        k = p.remaining_time := by
  unfold srtAdmit
  rw [List.mem_append, h.pq_sync, List.mem_filterMap]
  constructor
  · rintro (⟨p, h1, h2, h3, h4⟩ | ⟨j, hj, hm⟩)
    · exact ⟨p, h1, by omega, h3, h4⟩
    · obtain ⟨p, hp, hc⟩ := mem_scan.1 hj
      rw [hp] at hm
      simp only [Option.map_some', Option.some.injEq, Prod.mk.injEq] at hm
      obtain ⟨hm1, hm2⟩ := hm
      subst hm2
      simp only [Bool.and_eq_true, beq_iff_eq, decide_eq_true_eq] at hc
      exact ⟨p, hp, by omega, hc.2, hm1.symm⟩
  · rintro ⟨p, h1, h2, h3, h4⟩
    by_cases hlt : p.arrival_time < s.current_time
    · exact Or.inl ⟨p, h1, hlt, h3, h4⟩
    · right
      refine ⟨i, mem_scan.2 ⟨p, h1, ?_⟩, ?_⟩
      · simp only [Bool.and_eq_true, beq_iff_eq, decide_eq_true_eq]
        exact ⟨by omega, h3⟩
      · rw [h1, h4]
        rfl

theorem srtAdmit_nodup {ps : List Process} {s : SRTState} (h : SRTCore ps s) :
    (srtAdmit s).Nodup := by
  unfold srtAdmit
  refine List.Nodup.append h.pq_nodup ?_ ?_
  · refine List.Nodup.filterMap ?_ (scan_nodup _ _)
    intro a a2 b hb hb2
    cases ha : s.temp[a]? with
    | none => simp [ha] at hb
    | some p =>
      cases ha2 : s.temp[a2]? with
      | none => simp [ha2] at hb2
      | some p2 =>
        simp [ha] at hb
        simp [ha2] at hb2
        rw [← hb] at hb2
        simp only [Prod.mk.injEq] at hb2
        exact hb2.2.symm
  · intro x hx hx2
    obtain ⟨k, i⟩ := x
    obtain ⟨p, h1, h2, -, -⟩ := (h.pq_sync k i).1 hx
    obtain ⟨j, hj, hm⟩ := List.mem_filterMap.1 hx2
    obtain ⟨p2, hp2, hc⟩ := mem_scan.1 hj
    rw [hp2] at hm
    simp only [Option.map_some', Option.some.injEq, Prod.mk.injEq] at hm
    obtain ⟨-, hm2⟩ := hm
    subst hm2
    rw [h1] at hp2
    simp only [Option.some.injEq] at hp2
    subst hp2
    simp only [Bool.and_eq_true, beq_iff_eq, decide_eq_true_eq] at hc
    omega

/-- Shape of one iteration of `runSRT`: either nothing is ready and only the
clock moves, or the ready process that is least in `(remaining_time, position)`
runs for one unit. -/
theorem srt_step_cases {ps : List Process} {s : SRTState} (h : SRTCore ps s) :
    ((∀ (i : Nat) (p : Process), s.temp[i]? = some p → p.arrival_time ≤ s.current_time →
        ¬ 0 < p.remaining_time) ∧
      srtStep s = { s with pq := [], current_time := s.current_time + 1 }) ∨
    (∃ (i : Nat) (p : Process), s.temp[i]? = some p ∧ p.arrival_time ≤ s.current_time ∧
      0 < p.remaining_time ∧
      (∀ (j : Nat) (q : Process), s.temp[j]? = some q → q.arrival_time ≤ s.current_time →
        0 < q.remaining_time →
        p.remaining_time < q.remaining_time ∨ (p.remaining_time = q.remaining_time ∧ i ≤ j)) ∧
      srtStep s =
        if p.remaining_time - 1 = 0 then
          { processes := setFinish s.processes (p.id - 1).toNat (s.current_time + 1),
            temp := s.temp.set i { p with remaining_time := p.remaining_time - 1 },
            pq := (srtAdmit s).erase (p.remaining_time, i),
            current_time := s.current_time + 1,
            completed := s.completed + 1,
            gantt_chart := s.gantt_chart ++ [(s.current_time, p.id)] }
        else
          { processes := s.processes,
            temp := s.temp.set i { p with remaining_time := p.remaining_time - 1 },
            pq := (srtAdmit s).erase (p.remaining_time, i) ++ [(p.remaining_time - 1, i)],
            current_time := s.current_time + 1,
            completed := s.completed,
            gantt_chart := s.gantt_chart ++ [(s.current_time, p.id)] }) := by
  cases htop : pqTop (srtAdmit s) with
  | none =>
    left
    have hnil := pqTop_none.1 htop
    refine ⟨?_, ?_⟩
    · intro i p hp ha hr
      have : (p.remaining_time, i) ∈ srtAdmit s := (srtAdmit_mem h _ _).2 ⟨p, hp, ha, hr, rfl⟩
      rw [hnil] at this
      simp at this
    · simp only [srtStep, htop]
      rw [hnil]
  | some cur =>
    right
    obtain ⟨k, i⟩ := cur
    obtain ⟨hmem, hleast⟩ := pqTop_least _ _ htop
    obtain ⟨p, hp, ha, hr, hk⟩ := (srtAdmit_mem h k i).1 hmem
    subst hk
    refine ⟨i, p, hp, ha, hr, ?_, ?_⟩
    · intro j q hq haq hrq
      have := hleast (q.remaining_time, j) ((srtAdmit_mem h _ _).2 ⟨q, hq, haq, hrq, rfl⟩)
      simpa using this
    · simp only [srtStep, htop, hp]

/-! ## SRT: the scheduling invariant holds throughout -/

theorem get_set_cases {l : List Process} {i j : Nat} {a x : Process}
    (h : (l.set i a)[j]? = some x) : (j = i ∧ x = a) ∨ (j ≠ i ∧ l[j]? = some x) := by
  rw [List.getElem?_set] at h
  by_cases hij : i = j
  · rw [if_pos hij] at h
    split at h
    · exact Or.inl ⟨hij.symm, (Option.some.inj h).symm⟩
    · cases h
  · rw [if_neg hij] at h
    exact Or.inr ⟨fun e => hij e.symm, h⟩

theorem get_set_self {l : List Process} {i : Nat} {a p : Process} (h : l[i]? = some p) :
    (l.set i a)[i]? = some a := by
  rw [List.getElem?_set, if_pos rfl, if_pos (List.getElem?_eq_some.1 h).1]

theorem get_set_other {l : List Process} {i j : Nat} (a : Process) (h : j ≠ i) :
    (l.set i a)[j]? = l[j]? := by
  rw [List.getElem?_set, if_neg (fun e => h e.symm)]

theorem srtCore_init {ps : List Process} (hv : Valid ps) : SRTCore ps (srtInit ps) where
  len_temp := rfl
  len_procs := rfl
  static := fun i p hp => ⟨p, hp, rfl⟩
  rem_range := fun i p hp => by
    have := valid_get hv hp
    omega
  fresh := fun i p hp _ => (valid_get hv hp).2.2.2
  pq_nodup := List.nodup_nil
  pq_sync := fun k i => by
    simp only [srtInit, List.not_mem_nil, false_iff, not_exists, not_and]
    intro p hp hlt
    have := valid_get hv hp
    omega
  completed_eq := by
    simp only [srtInit]
    symm
    rw [List.countP_eq_zero]
    intro p hp
    have := valid_mem hv hp
    simp only [decide_eq_true_eq]
    omega

theorem srtCore_step {ps : List Process} {s : SRTState} (h : SRTCore ps s) :
    SRTCore ps (srtStep s) := by
  rcases srt_step_cases h with ⟨hidle, hstep⟩ | ⟨i, p, hp, ha, hr, -, hstep⟩
  · rw [hstep]
    exact
      { len_temp := h.len_temp
        len_procs := h.len_procs
        static := h.static
        rem_range := h.rem_range
        fresh := fun j q hq hle => h.fresh j q hq (by simp only at hle; omega)
        pq_nodup := List.nodup_nil
        pq_sync := fun k j => by
          simp only [List.not_mem_nil, false_iff, not_exists, not_and]
          intro q hq hlt hpos
          exact absurd hpos (hidle j q hq (by omega))
        completed_eq := h.completed_eq }
  · have hi : i < s.temp.length := (List.getElem?_eq_some.1 hp).1
    have hpi : s.temp[i] = p := (List.getElem?_eq_some.1 hp).2
    have hstatic : ∀ (j : Nat) (x : Process),
        (s.temp.set i { p with remaining_time := p.remaining_time - 1 })[j]? = some x →
        ∃ p0, ps[j]? = some p0 ∧ x = { p0 with remaining_time := x.remaining_time } := by
      intro j x hx
      rcases get_set_cases hx with ⟨rfl, rfl⟩ | ⟨-, hx2⟩
      · obtain ⟨p0, h0, e0⟩ := h.static _ p hp
        refine ⟨p0, h0, ?_⟩
        rw [e0]
      · exact h.static j x hx2
    have hrange : ∀ (j : Nat) (x : Process),
        (s.temp.set i { p with remaining_time := p.remaining_time - 1 })[j]? = some x →
        0 ≤ x.remaining_time ∧ x.remaining_time ≤ x.burst_time := by
      intro j x hx
      rcases get_set_cases hx with ⟨rfl, rfl⟩ | ⟨-, hx2⟩
      · have := h.rem_range _ p hp
        simp only
        omega
      · exact h.rem_range j x hx2
    have hfresh : ∀ (j : Nat) (x : Process),
        (s.temp.set i { p with remaining_time := p.remaining_time - 1 })[j]? = some x →
        s.current_time + 1 ≤ x.arrival_time → x.remaining_time = x.burst_time := by
      intro j x hx hle
      rcases get_set_cases hx with ⟨rfl, rfl⟩ | ⟨-, hx2⟩
      · simp only at hle
        omega
      · exact h.fresh j x hx2 (by omega)
    have hcount : (s.temp.set i { p with remaining_time := p.remaining_time - 1 }).countP
        (fun p => decide (p.remaining_time = 0)) =
        s.temp.countP (fun p => decide (p.remaining_time = 0)) +
          (if p.remaining_time - 1 = 0 then 1 else 0) := by
      rw [List.countP_set _ _ _ _ hi, hpi]
      have : ¬ p.remaining_time = 0 := by omega
      simp [this]
    have hnd := srtAdmit_nodup h
    have hsync : ∀ (k : Int) (j : Nat), (k, j) ∈ (srtAdmit s).erase (p.remaining_time, i) ↔
        (j ≠ i ∧ ∃ x, s.temp[j]? = some x ∧ x.arrival_time < s.current_time + 1 ∧
          0 < x.remaining_time ∧ k = x.remaining_time) := by
      intro k j
      rw [List.Nodup.mem_erase_iff hnd, srtAdmit_mem h]
      constructor
      · rintro ⟨hne, x, hx, h1, h2, h3⟩
        refine ⟨?_, x, hx, by omega, h2, h3⟩
        rintro rfl
        rw [hp] at hx
        simp only [Option.some.injEq] at hx
        subst hx
        exact hne (by rw [h3])
      · rintro ⟨hne, x, hx, h1, h2, h3⟩
        refine ⟨?_, x, hx, by omega, h2, h3⟩
        intro e
        simp only [Prod.mk.injEq] at e
        exact hne e.2
    by_cases hz : p.remaining_time - 1 = 0
    · rw [if_pos hz] at hstep
      rw [hstep]
      exact
        { len_temp := by simpa using h.len_temp
          len_procs := by simpa [setFinish_length] using h.len_procs
          static := hstatic
          rem_range := hrange
          fresh := hfresh
          pq_nodup := hnd.erase _
          pq_sync := fun k j => by
            simp only
            rw [hsync]
            constructor
            · rintro ⟨hne, x, hx, hrest⟩
              exact ⟨x, by rw [get_set_other _ hne]; exact hx, hrest⟩
            · rintro ⟨x, hx, h1, h2, h3⟩
              rcases get_set_cases hx with ⟨rfl, rfl⟩ | ⟨hne, hx2⟩
              · simp only at h2
                omega
              · exact ⟨hne, x, hx2, h1, h2, h3⟩
          completed_eq := by
            simp only
            rw [hcount, if_pos hz, h.completed_eq] }
    · rw [if_neg hz] at hstep
      rw [hstep]
      exact
        { len_temp := by simpa using h.len_temp
          len_procs := h.len_procs
          static := hstatic
          rem_range := hrange
          fresh := hfresh
          pq_nodup := by
            simp only
            refine List.Nodup.append (hnd.erase _) (List.nodup_singleton _) ?_
            intro x hx hx2
            simp only [List.mem_singleton] at hx2
            subst hx2
            exact ((hsync _ _).1 hx).1 rfl
          pq_sync := fun k j => by
            simp only
            rw [List.mem_append, hsync, List.mem_singleton, Prod.mk.injEq]
            constructor
            · rintro (⟨hne, x, hx, hrest⟩ | ⟨rfl, rfl⟩)
              · exact ⟨x, by rw [get_set_other _ hne]; exact hx, hrest⟩
              · exact ⟨_, get_set_self hp, by simp only; omega, by simp only; omega, rfl⟩
            · rintro ⟨x, hx, h1, h2, h3⟩
              rcases get_set_cases hx with ⟨rfl, rfl⟩ | ⟨hne, hx2⟩
              · exact Or.inr ⟨h3, rfl⟩
              · exact Or.inl ⟨hne, x, hx2, h1, h2, h3⟩
          completed_eq := by
            simp only
            rw [hcount, if_neg hz, h.completed_eq, Nat.add_zero] }

/-! ## SRT: termination -/

theorem sumRemaining_set : ∀ (l : List Process) (i : Nat) (p a : Process), l[i]? = some p →
    sumRemaining (l.set i a) = sumRemaining l - p.remaining_time + a.remaining_time
  | [], _, _, _, h => by simp at h
  | x :: xs, 0, p, a, h => by
    simp at h
    subst h
    simp [sumRemaining]
    omega
  | x :: xs, i + 1, p, a, h => by
    have := sumRemaining_set xs i p a (by simpa using h)
    simp only [sumRemaining] at this
    simp only [sumRemaining, List.set_cons_succ, List.map_cons, List.sum_cons, this]
    omega

theorem sumRemaining_nonneg : ∀ (l : List Process),
    (∀ p ∈ l, 0 ≤ p.remaining_time) → 0 ≤ sumRemaining l
  | [], _ => by simp [sumRemaining]
  | x :: xs, h => by
    have h1 := sumRemaining_nonneg xs (fun p hp => h p (List.mem_cons_of_mem _ hp))
    have h2 := h x (List.mem_cons_self _ _)
    simp only [sumRemaining] at h1
    simp [sumRemaining]
    omega

theorem sumRemaining_zero : ∀ (l : List Process),
    (∀ p ∈ l, p.remaining_time = 0) → sumRemaining l = 0
  | [], _ => by simp [sumRemaining]
  | x :: xs, h => by
    have h1 := sumRemaining_zero xs (fun p hp => h p (List.mem_cons_of_mem _ hp))
    have h2 := h x (List.mem_cons_self _ _)
    simp only [sumRemaining] at h1
    simp [sumRemaining, h1, h2]

theorem le_maxArrival : ∀ (l : List Process) (p : Process), p ∈ l →
    p.arrival_time ≤ maxArrival l
  | [], _, h => by simp at h
  | x :: xs, p, h => by
    simp only [maxArrival, List.foldr_cons]
    rcases List.mem_cons.1 h with rfl | h
    · exact le_max_left _ _
    · exact le_trans (le_maxArrival xs p h) (le_max_right _ _)

theorem maxArrival_nonneg (l : List Process) : 0 ≤ maxArrival l := by
  cases l with
  | nil => simp [maxArrival]
  | cons x xs =>
    simp only [maxArrival, List.foldr_cons]
    exact le_trans (by
      induction xs with
      | nil => simp
      | cons y ys ih => simp only [List.foldr_cons]; exact le_trans ih (le_max_right _ _))
      (le_max_right _ _)

/-- The loop guard of `runSRT` holds exactly while some process is unfinished. -/
theorem srt_guard_iff {ps : List Process} {s : SRTState} (h : SRTCore ps s) :
    s.completed < s.processes.length ↔ ∃ p ∈ s.temp, p.remaining_time ≠ 0 := by
  rw [h.completed_eq, h.len_procs, ← h.len_temp]
  have hle : s.temp.countP (fun p : Process => decide (p.remaining_time = 0)) ≤ s.temp.length :=
    List.countP_le_length _
  constructor
  · intro hlt
    by_contra hall
    push_neg at hall
    have : s.temp.countP (fun p => decide (p.remaining_time = 0)) = s.temp.length :=
      List.countP_eq_length.2 (fun p hp => by simpa using hall p hp)
    omega
  · rintro ⟨p, hp, hne⟩
    by_contra hge
    have : s.temp.countP (fun p => decide (p.remaining_time = 0)) = s.temp.length := by omega
    have := List.countP_eq_length.1 this p hp
    simp at this
    exact hne this

theorem srt_mem_ps {ps : List Process} {s : SRTState} (h : SRTCore ps s) {i : Nat} {p : Process}
    (hp : s.temp[i]? = some p) : ∃ p0 ∈ ps, ps[i]? = some p0 ∧ p.id = p0.id ∧
      p.arrival_time = p0.arrival_time ∧ p.burst_time = p0.burst_time := by
  obtain ⟨p0, h0, e0⟩ := h.static i p hp
  refine ⟨p0, List.getElem?_mem h0, h0, ?_, ?_, ?_⟩ <;> rw [e0]

theorem srt_measure_decreases {ps : List Process} {s : SRTState} (h : SRTCore ps s)
    (hg : s.completed < s.processes.length) : srtMeasure ps (srtStep s) < srtMeasure ps s := by
  have hnn : 0 ≤ sumRemaining s.temp :=
    sumRemaining_nonneg _ (fun p hp => by
      obtain ⟨i, hi⟩ := List.getElem?_of_mem hp
      exact (h.rem_range i p hi).1)
  rcases srt_step_cases h with ⟨hidle, hstep⟩ | ⟨i, p, hp, ha, hr, -, hstep⟩
  · obtain ⟨q, hq, hne⟩ := (srt_guard_iff h).1 hg
    obtain ⟨j, hj⟩ := List.getElem?_of_mem hq
    have hpos : 0 < q.remaining_time := by
      have := (h.rem_range j q hj).1
      omega
    have hlate : s.current_time < q.arrival_time := by
      by_contra hc
      exact hidle j q hj (by omega) hpos
    obtain ⟨q0, hq0, -, -, hq2, -⟩ := srt_mem_ps h hj
    have := le_maxArrival ps q0 hq0
    rw [hstep]
    simp only [srtMeasure]
    omega
  · have hsum := sumRemaining_set s.temp i p { p with remaining_time := p.remaining_time - 1 } hp
    have hnn2 : 0 ≤ sumRemaining (s.temp.set i { p with remaining_time := p.remaining_time - 1 }) := by
      refine sumRemaining_nonneg _ (fun x hx => ?_)
      obtain ⟨j, hj⟩ := List.getElem?_of_mem hx
      rcases get_set_cases hj with ⟨rfl, rfl⟩ | ⟨-, hx2⟩
      · simp only
        omega
      · exact (h.rem_range j x hx2).1
    simp only at hsum
    have hm : srtMeasure ps (srtStep s) =
        (sumRemaining (s.temp.set i { p with remaining_time := p.remaining_time - 1 })).toNat +
          (maxArrival ps - (s.current_time + 1)).toNat := by
      rw [hstep]
      split <;> rfl
    rw [hm]
    simp only [srtMeasure]
    omega

theorem srtTick_of_done {s : SRTState} (h : ¬ s.completed < s.processes.length) :
    srtTick s = s := by
  simp [srtTick, h]

theorem srtTick_iterate_done {s : SRTState} (h : ¬ s.completed < s.processes.length) (n : Nat) :
    srtTick^[n] s = s :=
  Function.iterate_fixed (srtTick_of_done h) n

theorem srtCore_tick {ps : List Process} {s : SRTState} (h : SRTCore ps s) :
    SRTCore ps (srtTick s) := by
  unfold srtTick
  split
  · exact srtCore_step h
  · exact h

theorem srtCore_iterate {ps : List Process} : ∀ (n : Nat) {s : SRTState}, SRTCore ps s →
    SRTCore ps (srtTick^[n] s)
  | 0, _, h => h
  | n + 1, s, h => by
    rw [Function.iterate_succ_apply]
    exact srtCore_iterate n (srtCore_tick h)

theorem srtCore_at {ps : List Process} (hv : Valid ps) (n : Nat) : SRTCore ps (srtAt ps n) :=
  srtCore_iterate n (srtCore_init hv)

theorem srt_done_after : ∀ (n : Nat) {ps : List Process} {s : SRTState}, SRTCore ps s →
    srtMeasure ps s ≤ n → ¬ (srtTick^[n] s).completed < (srtTick^[n] s).processes.length
  | 0, ps, s, h, hm => by
    intro hg
    have := srt_measure_decreases h hg
    omega
  | n + 1, ps, s, h, hm => by
    rw [Function.iterate_succ_apply]
    by_cases hg : s.completed < s.processes.length
    · have hd := srt_measure_decreases h hg
      have e : srtTick s = srtStep s := by simp [srtTick, hg]
      rw [e]
      exact srt_done_after n (srtCore_step h) (by omega)
    · rw [srtTick_of_done hg, srtTick_iterate_done hg]
      exact hg

theorem srtLoop_eq : ∀ (n : Nat) (s : SRTState),
    ¬ (srtTick^[n] s).completed < (srtTick^[n] s).processes.length →
    srtLoop n s = some (srtTick^[n] s)
  | 0, s, h => by
    simp only [Function.iterate_zero, id_eq] at h
    simp [srtLoop, h]
  | n + 1, s, h => by
    rw [Function.iterate_succ_apply] at h ⊢
    by_cases hg : s.completed < s.processes.length
    · have e : srtTick s = srtStep s := by simp [srtTick, hg]
      rw [e] at h ⊢
      simp only [srtLoop, hg, if_true]
      exact srtLoop_eq n _ h
    · rw [srtTick_of_done hg, srtTick_iterate_done hg]
      simp [srtLoop, hg]

theorem srtMeasure_init {ps : List Process} (hv : Valid ps) :
    srtMeasure ps (srtInit ps) = srtFuel ps := by
  have e : sumRemaining ps = sumBurst ps := by
    simp only [sumRemaining, sumBurst]
    congr 1
    refine List.map_congr_left (fun p hp => (valid_mem hv hp).2.2.2)
  simp [srtMeasure, srtFuel, srtInit, e]

/-- The loop of `runSRT` stops within `srtFuel ps` iterations. -/
theorem srtLoop_terminates {ps : List Process} (hv : Valid ps) :
    srtLoop (srtFuel ps) (srtInit ps) = some (srtAt ps (srtFuel ps)) ∧
    ¬ (srtAt ps (srtFuel ps)).completed < (srtAt ps (srtFuel ps)).processes.length := by
  have hd := srt_done_after (srtFuel ps) (srtCore_init hv) (le_of_eq (srtMeasure_init hv))
  exact ⟨srtLoop_eq _ _ hd, hd⟩

/-! ## SRT: the chart invariant holds throughout -/

theorem setFinish_cases {l : List Process} {k j : Nat} {t : Int} {x : Process}
    (h : (setFinish l k t)[j]? = some x) :
    (j = k ∧ ∃ f0, l[k]? = some f0 ∧ x = { f0 with finish_time := t }) ∨
      (j ≠ k ∧ l[j]? = some x) := by
  by_cases hjk : j = k
  · subst hjk
    left
    refine ⟨rfl, ?_⟩
    cases hl : l[j]? with
    | none =>
      simp only [setFinish, hl] at h
      cases h
    | some f0 =>
      rw [setFinish_get_eq l t hl] at h
      exact ⟨f0, rfl, (Option.some.inj h).symm⟩
  · right
    rw [setFinish_get_ne l t (fun e => hjk e.symm)] at h
    exact ⟨hjk, h⟩

theorem srt_temp_fields {ps : List Process} {s : SRTState} (h : SRTCore ps s) (hv : Valid ps)
    {i : Nat} {p : Process} (hp : s.temp[i]? = some p) :
    p.id = (i : Int) + 1 ∧ 0 ≤ p.arrival_time ∧ 0 < p.burst_time := by
  obtain ⟨p0, -, h0, e1, e2, e3⟩ := srt_mem_ps h hp
  have := valid_get hv h0
  omega

theorem srtChart_init {ps : List Process} (hv : Valid ps) : SRTChart ps (srtInit ps) where
  time_nonneg := le_refl _
  gantt_times := fun e he => by simp [srtInit] at he
  gantt_count := fun i p hp => by
    have := (valid_get hv hp).2.2.2
    simp only [srtInit, List.countP_nil, Nat.cast_zero]
    omega
  gantt_ids := fun e he => by simp [srtInit] at he
  progress := fun i p hp => Or.inl (valid_get hv hp).2.2.2
  finish := fun i p hp hz => by
    have := valid_get hv hp
    omega
  procs_static := fun i f hf => ⟨f, hf, rfl⟩
  gantt_len := by
    have e : sumRemaining ps = sumBurst ps := by
      simp only [sumRemaining, sumBurst]
      congr 1
      refine List.map_congr_left (fun p hp => (valid_mem hv hp).2.2.2)
    simp [srtInit, e]

theorem srtChart_step {ps : List Process} {s : SRTState} (hv : Valid ps) (h : SRTCore ps s)
    (c : SRTChart ps s) : SRTChart ps (srtStep s) := by
  rcases srt_step_cases h with ⟨hidle, hstep⟩ | ⟨i, p, hp, ha, hr, -, hstep⟩
  · rw [hstep]
    exact
      { time_nonneg := by have := c.time_nonneg; simp only; omega
        gantt_times := fun e he => by have := c.gantt_times e he; simp only; omega
        gantt_count := c.gantt_count
        gantt_ids := c.gantt_ids
        progress := fun j q hq => by
          have := c.progress j q hq
          simp only
          omega
        finish := c.finish
        procs_static := c.procs_static
        gantt_len := c.gantt_len }
  · have hT : (srtStep s).temp = s.temp.set i { p with remaining_time := p.remaining_time - 1 } := by
      rw [hstep]; split <;> rfl
    have hG : (srtStep s).gantt_chart = s.gantt_chart ++ [(s.current_time, p.id)] := by
      rw [hstep]; split <;> rfl
    have hC : (srtStep s).current_time = s.current_time + 1 := by
      rw [hstep]; split <;> rfl
    have hP : (srtStep s).processes =
        if p.remaining_time - 1 = 0 then
          setFinish s.processes (p.id - 1).toNat (s.current_time + 1)
        else s.processes := by
      rw [hstep]; split <;> rfl
    have hid := srt_temp_fields h hv hp
    have hidx : (p.id - 1).toNat = i := by omega
    have hne : ∀ {j : Nat} {x : Process}, j ≠ i → s.temp[j]? = some x → x.id ≠ p.id := by
      intro j x hj hx
      have := srt_temp_fields h hv hx
      omega
    have ht := c.time_nonneg
    exact
      { time_nonneg := by rw [hC]; omega
        gantt_times := fun e he => by
          rw [hG] at he
          rw [hC]
          rcases List.mem_append.1 he with he | he
          · have := c.gantt_times e he
            omega
          · simp only [List.mem_singleton] at he
            subst he
            simp only
            omega
        gantt_count := fun j x hx => by
          rw [hT] at hx
          rw [hG, List.countP_append]
          rcases get_set_cases hx with ⟨rfl, rfl⟩ | ⟨hj, hx2⟩
          · have := c.gantt_count _ p hp
            simp only [List.countP_cons, List.countP_nil, decide_True, if_true] at this ⊢
            push_cast
            omega
          · have := c.gantt_count j x hx2
            have hn : ¬ p.id = x.id := fun e => hne hj hx2 e.symm
            simp only [List.countP_cons, List.countP_nil, hn, decide_False] at this ⊢
            simpa using this
        gantt_ids := fun e he => by
          rw [hG] at he
          rcases List.mem_append.1 he with he | he
          · exact c.gantt_ids e he
          · simp only [List.mem_singleton] at he
            subst he
            obtain ⟨p0, hm, -, e1, -, -⟩ := srt_mem_ps h hp
            exact ⟨p0, hm, e1⟩
        progress := fun j x hx => by
          rw [hT] at hx
          rw [hC]
          rcases get_set_cases hx with ⟨rfl, rfl⟩ | ⟨hj, hx2⟩
          · have := c.progress _ p hp
            simp only
            omega
          · have := c.progress j x hx2
            omega
        finish := fun j x hx hz => by
          rw [hT] at hx
          rw [hG, hP]
          rcases get_set_cases hx with ⟨rfl, rfl⟩ | ⟨hj, hx2⟩
          · simp only at hz
            rw [if_pos hz, hidx]
            have hlt : j < s.processes.length := by
              rw [h.len_procs, ← h.len_temp]
              exact (List.getElem?_eq_some.1 hp).1
            refine ⟨{ s.processes[j] with finish_time := s.current_time + 1 },
              setFinish_get_eq _ _ (List.getElem?_eq_getElem hlt), ?_, ?_, ?_⟩
            · simp
            · intro e he _
              rcases List.mem_append.1 he with he | he
              · have := c.gantt_times e he
                simp only
                omega
              · simp only [List.mem_singleton] at he
                subst he
                simp only
                omega
            · have := c.progress _ p hp
              simp only
              omega
          · obtain ⟨f, f1, f2, f3, f4⟩ := c.finish j x hx2 hz
            refine ⟨f, ?_, List.mem_append_left _ f2, ?_, f4⟩
            · split
              · rw [hidx, setFinish_get_ne _ _ (fun e => hj e.symm)]
                exact f1
              · exact f1
            · intro e he hid2
              rcases List.mem_append.1 he with he | he
              · exact f3 e he hid2
              · simp only [List.mem_singleton] at he
                subst he
                exact absurd hid2.symm (hne hj hx2)
        procs_static := fun j f hf => by
          rw [hP] at hf
          split at hf
          · rcases setFinish_cases hf with ⟨rfl, f0, hf0, rfl⟩ | ⟨-, hf2⟩
            · obtain ⟨p0, h0, e0⟩ := c.procs_static _ f0 hf0
              refine ⟨p0, h0, ?_⟩
              rw [e0]
            · exact c.procs_static j f hf2
          · exact c.procs_static j f hf
        gantt_len := by
          rw [hG, hT, sumRemaining_set _ _ _ _ hp]
          have := c.gantt_len
          simp only [List.length_append, List.length_singleton]
          push_cast
          omega }

theorem srtChart_iterate {ps : List Process} (hv : Valid ps) : ∀ (n : Nat) {s : SRTState},
    SRTCore ps s → SRTChart ps s → SRTChart ps (srtTick^[n] s)
  | 0, _, _, c => c
  | n + 1, s, h, c => by
    rw [Function.iterate_succ_apply]
    by_cases hg : s.completed < s.processes.length
    · have e : srtTick s = srtStep s := by simp [srtTick, hg]
      rw [e]
      exact srtChart_iterate hv n (srtCore_step h) (srtChart_step hv h c)
    · rw [srtTick_of_done hg]
      exact srtChart_iterate hv n h c

theorem srtChart_at {ps : List Process} (hv : Valid ps) (n : Nat) : SRTChart ps (srtAt ps n) :=
  srtChart_iterate hv n (srtCore_init hv) (srtChart_init hv)

/-! ## SRT: the run tick by tick -/

theorem srtAt_succ (ps : List Process) (n : Nat) : srtAt ps (n + 1) = srtTick (srtAt ps n) :=
  Function.iterate_succ_apply' _ _ _

theorem srt_step_clock {ps : List Process} {s : SRTState} (h : SRTCore ps s) :
    (srtStep s).current_time = s.current_time + 1 := by
  rcases srt_step_cases h with ⟨-, hstep⟩ | ⟨i, p, -, -, -, -, hstep⟩
  · rw [hstep]
  · rw [hstep]; split <;> rfl

/-- While the loop of `runSRT` is running, the clock equals the number of
iterations made. -/
theorem srt_clock {ps : List Process} (hv : Valid ps) : ∀ n : Nat,
    (srtAt ps n).completed < (srtAt ps n).processes.length → (srtAt ps n).current_time = n
  | 0, _ => rfl
  | n + 1, hg => by
    rw [srtAt_succ] at hg ⊢
    by_cases hn : (srtAt ps n).completed < (srtAt ps n).processes.length
    · have e : srtTick (srtAt ps n) = srtStep (srtAt ps n) := by simp [srtTick, hn]
      rw [e, srt_step_clock (srtCore_at hv n), srt_clock hv n hn]
      push_cast
      rfl
    · rw [srtTick_of_done hn] at hg
      exact absurd hg hn

/-- One tick of `runSRT`, from the state at the start of tick `t` to the state
at the start of tick `t + 1`. -/
theorem srt_tick_shape {ps : List Process} (hv : Valid ps) (t : Nat) :
    ((∀ (i : Nat) (p : Process), (srtAt ps t).temp[i]? = some p → p.arrival_time ≤ t →
        ¬ 0 < p.remaining_time) ∧
      (srtAt ps (t + 1)).gantt_chart = (srtAt ps t).gantt_chart ∧
      (srtAt ps (t + 1)).temp = (srtAt ps t).temp) ∨
    (∃ (i : Nat) (p : Process), (srtAt ps t).temp[i]? = some p ∧ p.arrival_time ≤ t ∧
      0 < p.remaining_time ∧
      (∀ (j : Nat) (q : Process), (srtAt ps t).temp[j]? = some q → q.arrival_time ≤ t →
        0 < q.remaining_time →
        p.remaining_time < q.remaining_time ∨ (p.remaining_time = q.remaining_time ∧ i ≤ j)) ∧
      (srtAt ps (t + 1)).gantt_chart = (srtAt ps t).gantt_chart ++ [((t : Int), p.id)] ∧
      (srtAt ps (t + 1)).temp =
        (srtAt ps t).temp.set i { p with remaining_time := p.remaining_time - 1 }) := by
  have h := srtCore_at hv t
  rw [srtAt_succ]
  by_cases hg : (srtAt ps t).completed < (srtAt ps t).processes.length
  · have e : srtTick (srtAt ps t) = srtStep (srtAt ps t) := by simp [srtTick, hg]
    have hc := srt_clock hv t hg
    rw [e]
    rcases srt_step_cases h with ⟨hidle, hstep⟩ | ⟨i, p, hp, ha, hr, hleast, hstep⟩
    · left
      rw [hc] at hidle
      refine ⟨hidle, ?_, ?_⟩ <;> rw [hstep]
    · right
      rw [hc] at ha hleast hstep
      refine ⟨i, p, hp, ha, hr, hleast, ?_, ?_⟩ <;> rw [hstep] <;> split <;> rfl
  · left
    rw [srtTick_of_done hg]
    refine ⟨?_, rfl, rfl⟩
    intro i p hp _ hpos
    have hall : ¬ ∃ p ∈ (srtAt ps t).temp, p.remaining_time ≠ 0 :=
      fun hex => hg ((srt_guard_iff h).2 hex)
    exact hall ⟨p, List.getElem?_mem hp, by omega⟩

theorem srt_clock_le {ps : List Process} (hv : Valid ps) : ∀ n : Nat,
    (srtAt ps n).current_time ≤ n
  | 0 => le_refl _
  | n + 1 => by
    rw [srtAt_succ]
    have ih := srt_clock_le hv n
    by_cases hn : (srtAt ps n).completed < (srtAt ps n).processes.length
    · have e : srtTick (srtAt ps n) = srtStep (srtAt ps n) := by simp [srtTick, hn]
      rw [e, srt_step_clock (srtCore_at hv n)]
      push_cast
      omega
    · rw [srtTick_of_done hn]
      push_cast
      omega

theorem srt_gantt_before {ps : List Process} (hv : Valid ps) {n : Nat} {e : Int × Int}
    (he : e ∈ (srtAt ps n).gantt_chart) : e.1 < n := by
  have := ((srtChart_at hv n).gantt_times e he).2
  have := srt_clock_le hv n
  omega

theorem srt_gantt_mono {ps : List Process} (hv : Valid ps) (n : Nat) {e : Int × Int}
    (he : e ∈ (srtAt ps n).gantt_chart) : ∀ k : Nat, e ∈ (srtAt ps (n + k)).gantt_chart
  | 0 => he
  | k + 1 => by
    have ih := srt_gantt_mono hv n he k
    rcases srt_tick_shape hv (n + k) with ⟨-, hgc, -⟩ | ⟨i, p, -, -, -, -, hgc, -⟩
    · rw [← Nat.add_assoc, hgc]
      exact ih
    · rw [← Nat.add_assoc, hgc]
      exact List.mem_append_left _ ih

theorem srt_gantt_old {ps : List Process} (hv : Valid ps) (n : Nat) {e : Int × Int}
    (hlt : e.1 < n) : ∀ k : Nat, e ∈ (srtAt ps (n + k)).gantt_chart →
      e ∈ (srtAt ps n).gantt_chart
  | 0, he => he
  | k + 1, he => by
    rw [← Nat.add_assoc] at he
    rcases srt_tick_shape hv (n + k) with ⟨-, hgc, -⟩ | ⟨i, p, -, -, -, -, hgc, -⟩
    · rw [hgc] at he
      exact srt_gantt_old hv n hlt k he
    · rw [hgc] at he
      rcases List.mem_append.1 he with he | he
      · exact srt_gantt_old hv n hlt k he
      · simp only [List.mem_singleton] at he
        subst he
        simp only at hlt
        push_cast at hlt
        omega

theorem srt_final_stable {ps : List Process} (hv : Valid ps) (k : Nat) :
    srtAt ps (k + srtFuel ps) = srtAt ps (srtFuel ps) := by
  unfold srtAt
  rw [Function.iterate_add_apply]
  exact srtTick_iterate_done (srtLoop_terminates hv).2 k

/-- A chart entry at time `t` in the final chart is exactly the entry appended
by the iteration of tick `t`. -/
theorem srt_entry_iff {ps : List Process} (hv : Valid ps) (t : Nat) (pid : Int) :
    ((t : Int), pid) ∈ (srtAt ps (srtFuel ps)).gantt_chart ↔
      (srtAt ps (t + 1)).gantt_chart = (srtAt ps t).gantt_chart ++ [((t : Int), pid)] := by
  constructor
  · intro he
    rw [← srt_final_stable hv (t + 1)] at he
    have he1 : ((t : Int), pid) ∈ (srtAt ps (t + 1)).gantt_chart :=
      srt_gantt_old hv (t + 1) (by push_cast; simp) (srtFuel ps) he
    have hnot : ((t : Int), pid) ∉ (srtAt ps t).gantt_chart := by
      intro hin
      have := srt_gantt_before hv hin
      simp at this
    rcases srt_tick_shape hv t with ⟨-, hgc, -⟩ | ⟨i, p, -, -, -, -, hgc, -⟩
    · rw [hgc] at he1
      exact absurd he1 hnot
    · rw [hgc] at he1
      rcases List.mem_append.1 he1 with he1 | he1
      · exact absurd he1 hnot
      · simp only [List.mem_singleton, Prod.mk.injEq, true_and] at he1
        rw [hgc, he1]
  · intro hgc
    have he1 : ((t : Int), pid) ∈ (srtAt ps (t + 1)).gantt_chart := by
      rw [hgc]
      simp
    have := srt_gantt_mono hv (t + 1) he1 (srtFuel ps)
    rw [srt_final_stable hv] at this
    exact this

/-! ## SRT: the result of `runSRT` -/

/-- Method `runSRT` returns, and with any fuel from `srtFuel ps` on it returns
the state reached after `srtFuel ps` ticks. -/
theorem srtLoop_result {ps : List Process} (hv : Valid ps) (fuel : Nat)
    (hf : srtFuel ps ≤ fuel) : srtLoop fuel (srtInit ps) = some (srtAt ps (srtFuel ps)) := by
  obtain ⟨k, rfl⟩ : ∃ k, fuel = k + srtFuel ps := ⟨fuel - srtFuel ps, by omega⟩
  have hst := srt_final_stable hv k
  have hd := (srtLoop_terminates hv).2
  have := srtLoop_eq (k + srtFuel ps) (srtInit ps) (by
    show ¬ (srtAt ps (k + srtFuel ps)).completed < (srtAt ps (k + srtFuel ps)).processes.length
    rw [hst]
    exact hd)
  rw [this]
  exact congrArg some hst

theorem runSRT_result {ps : List Process} (hv : Valid ps) (g : List (Int × Int)) (q : Int) :
    runSRT (srtFuel ps) { processes := ps, gantt_chart := g, quantum := q } =
      some { processes := calculateMetrics (srtAt ps (srtFuel ps)).processes,
             gantt_chart := (srtAt ps (srtFuel ps)).gantt_chart, quantum := q } := by
  simp only [runSRT, srtLoop_result hv (srtFuel ps) (le_refl _), Option.map_some']

theorem srt_final_done {ps : List Process} (hv : Valid ps) :
    ∀ p ∈ (srtAt ps (srtFuel ps)).temp, p.remaining_time = 0 := by
  intro p hp
  by_contra hne
  exact (srtLoop_terminates hv).2
    ((srt_guard_iff (srtCore_at hv _)).2 ⟨p, hp, hne⟩)

/-- The process dispatched at tick `t`, read off the final chart. -/
theorem srt_dispatch_at {ps : List Process} (hv : Valid ps) {t : Nat} {pid : Int}
    (he : ((t : Int), pid) ∈ (srtAt ps (srtFuel ps)).gantt_chart) :
    ∃ (i : Nat) (p : Process), (srtAt ps t).temp[i]? = some p ∧ p.id = pid ∧
      p.arrival_time ≤ t ∧ 0 < p.remaining_time ∧
      (∀ (j : Nat) (x : Process), (srtAt ps t).temp[j]? = some x → x.arrival_time ≤ t →
        0 < x.remaining_time →
        p.remaining_time < x.remaining_time ∨ (p.remaining_time = x.remaining_time ∧ i ≤ j)) ∧
      (srtAt ps (t + 1)).temp =
        (srtAt ps t).temp.set i { p with remaining_time := p.remaining_time - 1 } := by
  have hgc := (srt_entry_iff hv t pid).1 he
  rcases srt_tick_shape hv t with ⟨-, hgc2, -⟩ | ⟨i, p, hp, ha, hr, hleast, hgc2, hT⟩
  · rw [hgc2] at hgc
    have := congrArg List.length hgc
    simp at this
  · rw [hgc2] at hgc
    have hid : p.id = pid := by
      have := List.append_cancel_left hgc
      simpa using this
    exact ⟨i, p, hp, hid, ha, hr, hleast, hT⟩

/-- Whenever some arrived process is unfinished at tick `t`, the final chart
has an entry at `t`. -/
theorem srt_ready_runs {ps : List Process} (hv : Valid ps) {t : Nat} {p : Process}
    (hp : p ∈ (srtAt ps t).temp) (ha : p.arrival_time ≤ t) (hr : 0 < p.remaining_time) :
    ∃ pid, ((t : Int), pid) ∈ (srtAt ps (srtFuel ps)).gantt_chart := by
  obtain ⟨j, hj⟩ := List.getElem?_of_mem hp
  rcases srt_tick_shape hv t with ⟨hidle, -, -⟩ | ⟨i, x, -, -, -, -, hgc2, -⟩
  · exact absurd hr (hidle j p hj ha)
  · exact ⟨x.id, (srt_entry_iff hv t x.id).2 hgc2⟩

/-! ## SRT: selection, termination and tie-break -/

/-- Exact model: for a valid list `runSRT` returns, and for every time `t` its Gantt
chart has an entry `(t, id)` iff at the start of tick `t` some process has
`arrival_time <= t` and `remaining_time > 0`; the process of that entry then
has the least `remaining_time` among those processes, and the tick lowers its
`remaining_time` by exactly 1 and changes no other process. -/
theorem srt_selection_rule (ps : List Process) (hv : Valid ps) (g : List (Int × Int))
    (q : Int) (t : Nat) :
    ∃ r, runSRT (srtFuel ps) { processes := ps, gantt_chart := g, quantum := q } = some r ∧
      ((∃ pid, ((t : Int), pid) ∈ r.gantt_chart) ↔
        ∃ p ∈ (srtAt ps t).temp, p.arrival_time ≤ t ∧ 0 < p.remaining_time) ∧
      ∀ pid, ((t : Int), pid) ∈ r.gantt_chart →
        ∃ (i : Nat) (p : Process), (srtAt ps t).temp[i]? = some p ∧ p.id = pid ∧
          p.arrival_time ≤ t ∧ 0 < p.remaining_time ∧
          (∀ x ∈ (srtAt ps t).temp, x.arrival_time ≤ t → 0 < x.remaining_time →
            p.remaining_time ≤ x.remaining_time) ∧
          (srtAt ps (t + 1)).temp =
            (srtAt ps t).temp.set i { p with remaining_time := p.remaining_time - 1 } := by
  refine ⟨_, runSRT_result hv g q, ⟨?_, ?_⟩, ?_⟩
  · rintro ⟨pid, he⟩
    obtain ⟨i, p, hp, -, ha, hr, -, -⟩ := srt_dispatch_at hv he
    exact ⟨p, List.getElem?_mem hp, ha, hr⟩
  · rintro ⟨p, hp, ha, hr⟩
    exact srt_ready_runs hv hp ha hr
  · intro pid he
    obtain ⟨i, p, hp, hid, ha, hr, hleast, hT⟩ := srt_dispatch_at hv he
    refine ⟨i, p, hp, hid, ha, hr, ?_, hT⟩
    intro x hx hax hrx
    obtain ⟨j, hj⟩ := List.getElem?_of_mem hx
    have := hleast j x hj hax hrx
    omega

/-- Exact model: for a valid list the loop of `runSRT` stops (within `srtFuel ps`
iterations, and any larger fuel gives the same state); its guard holds exactly
while some process is unfinished; on exit every process of the working copy
has `remaining_time == 0`, each id occurs in the chart exactly `burst_time`
times, the chart has `sum(burst_time)` entries, and every recorded
`finish_time` is one more than the time of that process's last chart entry. -/
theorem srt_terminates_when_done (ps : List Process) (hv : Valid ps)
    (g : List (Int × Int)) (q : Int) :
    ∃ fin, (∀ fuel, srtFuel ps ≤ fuel → srtLoop fuel (srtInit ps) = some fin) ∧
      runSRT (srtFuel ps) { processes := ps, gantt_chart := g, quantum := q } =
        some { processes := calculateMetrics fin.processes, gantt_chart := fin.gantt_chart,
               quantum := q } ∧
      (∀ n : Nat, (srtAt ps n).completed < (srtAt ps n).processes.length ↔
        ∃ p ∈ (srtAt ps n).temp, p.remaining_time ≠ 0) ∧
      fin.temp.length = ps.length ∧
      (∀ p ∈ fin.temp, p.remaining_time = 0) ∧
      (∀ p ∈ ps, ((fin.gantt_chart.countP (fun e => decide (e.2 = p.id)) : Nat) : Int)
        = p.burst_time) ∧
      (fin.gantt_chart.length : Int) = sumBurst ps ∧
      (calculateMetrics fin.processes).length = ps.length ∧
      (∀ f ∈ calculateMetrics fin.processes,
        (f.finish_time - 1, f.id) ∈ fin.gantt_chart ∧
        ∀ e ∈ fin.gantt_chart, e.2 = f.id → e.1 ≤ f.finish_time - 1) := by
  have hcore := srtCore_at hv (srtFuel ps)
  have hchart := srtChart_at hv (srtFuel ps)
  have hdone := srt_final_done hv
  refine ⟨srtAt ps (srtFuel ps), fun fuel hf => srtLoop_result hv fuel hf, runSRT_result hv g q,
    fun n => srt_guard_iff (srtCore_at hv n), hcore.len_temp, hdone, ?_, ?_, ?_, ?_⟩
  · intro p hp
    obtain ⟨i, hi⟩ := List.getElem?_of_mem hp
    have hlt : i < (srtAt ps (srtFuel ps)).temp.length := by
      rw [hcore.len_temp]
      exact (List.getElem?_eq_some.1 hi).1
    have hx := List.getElem?_eq_getElem hlt
    obtain ⟨p0, -, h0, e1, -, e3⟩ := srt_mem_ps hcore hx
    have hpp : p0 = p := Option.some.inj (h0.symm.trans hi)
    subst hpp
    have := hchart.gantt_count i _ hx
    rw [e1] at this
    rw [this, hdone _ (List.getElem?_mem hx), e3]
    omega
  · have := hchart.gantt_len
    rw [sumRemaining_zero _ hdone] at this
    omega
  · simp [calculateMetrics, hcore.len_procs]
  · intro f hf
    obtain ⟨j, hj⟩ := List.getElem?_of_mem hf
    rw [calculateMetrics_get] at hj
    cases hf0 : (srtAt ps (srtFuel ps)).processes[j]? with
    | none => simp [hf0] at hj
    | some f0 =>
      rw [hf0] at hj
      simp only [Option.map_some', Option.some.injEq] at hj
      subst hj
      have hlt : j < (srtAt ps (srtFuel ps)).temp.length := by
        rw [hcore.len_temp, ← hcore.len_procs]
        exact (List.getElem?_eq_some.1 hf0).1
      have hx := List.getElem?_eq_getElem hlt
      obtain ⟨f1, a1, a2, a3, -⟩ := hchart.finish j _ hx (hdone _ (List.getElem?_mem hx))
      have hff : f1 = f0 := Option.some.inj (a1.symm.trans hf0)
      subst hff
      obtain ⟨p0, -, h0, e1, -, -⟩ := srt_mem_ps hcore hx
      obtain ⟨p1, h1, e2⟩ := hchart.procs_static j f1 hf0
      have hpp : p1 = p0 := Option.some.inj (h1.symm.trans h0)
      subst hpp
      have hid : f1.id = ((srtAt ps (srtFuel ps)).temp[j]).id := by
        rw [e1, e2]
      simp only
      rw [hid]
      refine ⟨a2, fun e he heid => ?_⟩
      have := a3 e he heid
      omega

/-- Exact model: for a valid list, after `runFCFS` (under any `std::sort` meeting the
library contract) and after `runSRT` (which returns), every process has
`finish_time >= arrival_time + burst_time`, `turnaround_time >= burst_time`
and `waiting_time >= 0`. -/
theorem waiting_nonneg_fcfs_srt
    (sort : (Process → Process → Bool) → List Process → List Process)
    (hs : StdSortContract sort) (ps : List Process) (hv : Valid ps)
    (g : List (Int × Int)) (q : Int) :
    ((runFCFS sort { processes := ps, gantt_chart := g, quantum := q }).processes.length
        = ps.length ∧
      ∀ f ∈ (runFCFS sort { processes := ps, gantt_chart := g, quantum := q }).processes,
        f.arrival_time + f.burst_time ≤ f.finish_time ∧ f.burst_time ≤ f.turnaround_time ∧
          0 ≤ f.waiting_time) ∧
    ∃ r, runSRT (srtFuel ps) { processes := ps, gantt_chart := g, quantum := q } = some r ∧
      r.processes.length = ps.length ∧
      ∀ f ∈ r.processes,
        f.arrival_time + f.burst_time ≤ f.finish_time ∧ f.burst_time ≤ f.turnaround_time ∧
          0 ≤ f.waiting_time := by
  constructor
  · obtain ⟨hp, -⟩ := hs ps
    have hlen : (fcfsLoop ps (sort arrivalLess ps)).processes.length = ps.length :=
      fcfs_fold_length _ _
    refine ⟨by simp [runFCFS, calculateMetrics, hlen], ?_⟩
    intro f hf
    obtain ⟨j, hj⟩ := List.getElem?_of_mem hf
    simp only [runFCFS] at hj
    rw [calculateMetrics_get] at hj
    have hlt : j < ps.length := by
      by_contra hc
      rw [List.getElem?_eq_none (by rw [hlen]; omega)] at hj
      cases hj
    obtain ⟨i, st, -, hst, hrec⟩ := fcfs_record hv hp (List.getElem?_eq_getElem hlt)
    rw [hrec] at hj
    simp only [Option.map_some', Option.some.injEq] at hj
    subst hj
    simp only
    omega
  · have hcore := srtCore_at hv (srtFuel ps)
    have hchart := srtChart_at hv (srtFuel ps)
    refine ⟨_, runSRT_result hv g q, by simp [calculateMetrics, hcore.len_procs], ?_⟩
    intro f hf
    obtain ⟨j, hj⟩ := List.getElem?_of_mem hf
    simp only at hj
    rw [calculateMetrics_get] at hj
    cases hf0 : (srtAt ps (srtFuel ps)).processes[j]? with
    | none => simp [hf0] at hj
    | some f0 =>
      rw [hf0] at hj
      simp only [Option.map_some', Option.some.injEq] at hj
      subst hj
      have hlt : j < (srtAt ps (srtFuel ps)).temp.length := by
        rw [hcore.len_temp, ← hcore.len_procs]
        exact (List.getElem?_eq_some.1 hf0).1
      have hx := List.getElem?_eq_getElem hlt
      obtain ⟨f1, a1, -, -, a4⟩ := hchart.finish j _ hx (srt_final_done hv _ (List.getElem?_mem hx))
      have hff : f1 = f0 := Option.some.inj (a1.symm.trans hf0)
      subst hff
      obtain ⟨p0, -, h0, -, e2, e3⟩ := srt_mem_ps hcore hx
      obtain ⟨p1, h1, e4⟩ := hchart.procs_static j f1 hf0
      have hpp : p1 = p0 := Option.some.inj (h1.symm.trans h0)
      subst hpp
      have ha : f1.arrival_time = p1.arrival_time := by rw [e4]
      have hb : f1.burst_time = p1.burst_time := by rw [e4]
      simp only
      omega

theorem rrAdmit_mem {ps : List Process} {s : RRState} (h : RRCore ps s) {i : Nat}
    (hi : i ∈ rrAdmit s) : ∃ p, s.temp[i]? = some p ∧ p.arrival_time ≤ s.current_time := by
  unfold rrAdmit at hi
  rcases List.mem_append.1 hi with hi | hi
  · exact h.queued i hi
  · obtain ⟨p, hp, hc⟩ := mem_scan.1 hi
    simp only [Bool.and_eq_true, beq_iff_eq, decide_eq_true_eq] at hc
    exact ⟨p, hp, by omega⟩

/-- Shape of one iteration of `runRR`: the queue is empty after the arrival
scan and only the clock moves, or the front process is dispatched. -/
theorem rr_step_cases {ps : List Process} {s : RRState} (q : Int) (h : RRCore ps s) :
    (rrAdmit s = [] ∧ rrStep q s = { s with rq := [], current_time := s.current_time + 1 }) ∨
    (∃ (cur : Nat) (rest : List Nat) (p : Process), rrAdmit s = cur :: rest ∧
      s.temp[cur]? = some p ∧ p.arrival_time ≤ s.current_time ∧
      rrStep q s =
        if p.remaining_time - min q p.remaining_time = 0 then
          { processes := setFinish s.processes (p.id - 1).toNat
              (s.current_time + min q p.remaining_time),
            temp := s.temp.set cur
              { p with remaining_time := p.remaining_time - min q p.remaining_time },
            rq := rest,
            current_time := s.current_time + min q p.remaining_time,
            completed := s.completed + 1,
            gantt_chart := s.gantt_chart ++ [(s.current_time, p.id)] }
        else
          { processes := s.processes,
            temp := s.temp.set cur
              { p with remaining_time := p.remaining_time - min q p.remaining_time },
            rq := rest ++ rrSliceArrivals
                (s.temp.set cur
                  { p with remaining_time := p.remaining_time - min q p.remaining_time })
                (s.current_time + min q p.remaining_time) (min q p.remaining_time) ++ [cur],
            current_time := s.current_time + min q p.remaining_time,
            completed := s.completed,
            gantt_chart := s.gantt_chart ++ [(s.current_time, p.id)] }) := by
  cases hadm : rrAdmit s with
  | nil =>
    left
    refine ⟨rfl, ?_⟩
    simp only [rrStep, hadm]
  | cons cur rest =>
    right
    obtain ⟨p, hp, ha⟩ := rrAdmit_mem h (by rw [hadm]; exact List.mem_cons_self _ _)
    refine ⟨cur, rest, p, rfl, hp, ha, ?_⟩
    simp only [rrStep, hadm, hp]

theorem rrCore_init {ps : List Process} (hv : Valid ps) : RRCore ps (rrInit ps) where
  len_temp := rfl
  static := fun i p hp => ⟨p, hp, rfl⟩
  rem_nonneg := fun i p hp => by
    have := valid_get hv hp
    omega
  fresh := fun i p hp _ => by
    have := valid_get hv hp
    omega
  queued := fun i hi => by simp [rrInit] at hi

theorem rrCore_step {ps : List Process} {s : RRState} {q : Int} (hq : 0 < q)
    (h : RRCore ps s) : RRCore ps (rrStep q s) := by
  rcases rr_step_cases q h with ⟨-, hstep⟩ | ⟨cur, rest, p, hadm, hp, ha, hstep⟩
  · rw [hstep]
    exact
      { len_temp := h.len_temp
        static := h.static
        rem_nonneg := h.rem_nonneg
        fresh := fun j x hx hlt => h.fresh j x hx (by simp only at hlt; omega)
        queued := fun i hi => by simp at hi }
  · have hrem := h.rem_nonneg cur p hp
    have hexec : 0 ≤ min q p.remaining_time := le_min (le_of_lt hq) hrem
    have hexec2 : min q p.remaining_time ≤ p.remaining_time := min_le_right _ _
    have hT : (rrStep q s).temp = s.temp.set cur
        { p with remaining_time := p.remaining_time - min q p.remaining_time } := by
      rw [hstep]; split <;> rfl
    have hC : (rrStep q s).current_time = s.current_time + min q p.remaining_time := by
      rw [hstep]; split <;> rfl
    have hrest : ∀ i ∈ rest, ∃ x, s.temp[i]? = some x ∧ x.arrival_time ≤ s.current_time :=
      fun i hi => rrAdmit_mem h (by rw [hadm]; exact List.mem_cons_of_mem _ hi)
    have hkeep : ∀ (i : Nat) (x : Process), s.temp[i]? = some x →
        x.arrival_time ≤ s.current_time →
        ∃ y, (s.temp.set cur
          { p with remaining_time := p.remaining_time - min q p.remaining_time })[i]? = some y ∧
          y.arrival_time ≤ s.current_time + min q p.remaining_time := by
      intro i x hx hxa
      by_cases hic : i = cur
      · subst hic
        exact ⟨_, get_set_self hp, by simp only; omega⟩
      · exact ⟨x, by rw [get_set_other _ hic]; exact hx, by omega⟩
    refine
      { len_temp := by rw [hT]; simpa using h.len_temp
        static := fun j x hx => ?_
        rem_nonneg := fun j x hx => ?_
        fresh := fun j x hx hlt => ?_
        queued := fun i hi => ?_ }
    · rw [hT] at hx
      rcases get_set_cases hx with ⟨rfl, rfl⟩ | ⟨-, hx2⟩
      · obtain ⟨p0, h0, e0⟩ := h.static _ p hp
        refine ⟨p0, h0, ?_⟩
        rw [e0]
      · exact h.static j x hx2
    · rw [hT] at hx
      rcases get_set_cases hx with ⟨rfl, rfl⟩ | ⟨-, hx2⟩
      · simp only
        omega
      · exact h.rem_nonneg j x hx2
    · rw [hT] at hx
      rw [hC] at hlt
      rcases get_set_cases hx with ⟨rfl, rfl⟩ | ⟨-, hx2⟩
      · simp only at hlt
        omega
      · exact h.fresh j x hx2 (by omega)
    · rw [hT, hC]
      rw [hstep] at hi
      split at hi
      · simp only at hi
        obtain ⟨x, hx, hxa⟩ := hrest i hi
        exact hkeep i x hx hxa
      · simp only [List.mem_append, List.mem_singleton] at hi
        rcases hi with (hi | hi) | hi
        · obtain ⟨x, hx, hxa⟩ := hrest i hi
          exact hkeep i x hx hxa
        · obtain ⟨y, hy, hc⟩ := mem_scan.1 hi
          simp only [Bool.and_eq_true, decide_eq_true_eq] at hc
          exact ⟨y, hy, hc.1.2⟩
        · subst hi
          exact hkeep _ p hp ha

theorem rrAt_succ (q : Int) (ps : List Process) (n : Nat) :
    rrAt q ps (n + 1) = rrTick q (rrAt q ps n) :=
  Function.iterate_succ_apply' _ _ _

theorem rrCore_at {ps : List Process} (hv : Valid ps) {q : Int} (hq : 0 < q) :
    ∀ n : Nat, RRCore ps (rrAt q ps n)
  | 0 => rrCore_init hv
  | n + 1 => by
    rw [rrAt_succ]
    unfold rrTick
    split
    · exact rrCore_step hq (rrCore_at hv hq n)
    · exact rrCore_at hv hq n

/-! ## Round-Robin: the ready queue after a dispatch -/

/-- C5 fails on the code: with quantum 2 on `[(0,3),(2,1),(10,1)]` the loop of
`runRR` exits after four dispatches with `completed == 3` although P3 never ran
(`remaining_time` 1): P2 was enqueued twice and its second, empty dispatch was
counted as a completion.  P3 keeps `finish_time` 0, so its turnaround is -10
and its waiting time -11, and P2's finish time is overwritten with 4. -/
theorem rr_exits_unfinished :
    Valid rrDouble ∧
    (rrLoop 2 4 (rrInit rrDouble)).map
        (fun s => (s.completed, s.temp.map (fun p => p.remaining_time), s.gantt_chart))
      = some (3, [0, 0, 1], [(0, 1), (2, 2), (3, 1), (4, 2)]) ∧
    (runRR 4 { processes := rrDouble, gantt_chart := [], quantum := 2 }).map
        (fun r => r.processes.map
          (fun p => (p.id, p.finish_time, p.turnaround_time, p.waiting_time)))
      = some [(1, 4, 4, 1), (2, 4, 2, 1), (3, 0, -10, -11)] :=
  ⟨by decide, by decide, by decide⟩

/-- The ready queue after an iteration of `runRR` that dispatches `cur` without
finishing it. -/
theorem rr_preempt_shape {ps : List Process} {q : Int} (n : Nat)
    {cur : Nat} {rest : List Nat} {p : Process}
    (hg : (rrAt q ps n).completed < (rrAt q ps n).processes.length)
    (hadm : rrAdmit (rrAt q ps n) = cur :: rest)
    (hp : (rrAt q ps n).temp[cur]? = some p)
    (hnf : p.remaining_time - min q p.remaining_time ≠ 0) :
    (rrAt q ps (n + 1)).rq =
      rest ++ rrSliceArrivals
        ((rrAt q ps n).temp.set cur
          { p with remaining_time := p.remaining_time - min q p.remaining_time })
        ((rrAt q ps n).current_time + min q p.remaining_time) (min q p.remaining_time)
        ++ [cur] ∧
    (rrAt q ps (n + 1)).current_time = (rrAt q ps n).current_time + min q p.remaining_time ∧
    (rrAt q ps (n + 1)).gantt_chart =
      (rrAt q ps n).gantt_chart ++ [((rrAt q ps n).current_time, p.id)] := by
  have e : rrAt q ps (n + 1) = rrStep q (rrAt q ps n) := by
    rw [rrAt_succ]
    simp [rrTick, hg]
  rw [e]
  simp only [rrStep, hadm, hp, if_neg hnf]
  exact ⟨trivial, trivial, trivial⟩

/-- The inner scan of `runRR` pushes exactly the processes whose arrival lies in
the slice just run. -/
theorem rrSliceArrivals_mem {ps : List Process} {s : RRState} (h : RRCore ps s) (q : Int)
    {cur : Nat} {rest : List Nat} {p : Process} (hadm : rrAdmit s = cur :: rest)
    (hp : s.temp[cur]? = some p) (j : Nat) :
    j ∈ rrSliceArrivals
        (s.temp.set cur { p with remaining_time := p.remaining_time - min q p.remaining_time })
        (s.current_time + min q p.remaining_time) (min q p.remaining_time) ↔
      j ≠ cur ∧ ∃ x, s.temp[j]? = some x ∧ s.current_time < x.arrival_time ∧
        x.arrival_time ≤ s.current_time + min q p.remaining_time := by
  obtain ⟨p2, hp2, ha⟩ := rrAdmit_mem h (show cur ∈ rrAdmit s by
    rw [hadm]; exact List.mem_cons_self _ _)
  have hpp : p2 = p := Option.some.inj (hp2.symm.trans hp)
  subst hpp
  unfold rrSliceArrivals
  rw [mem_scan]
  constructor
  · rintro ⟨y, hy, hc⟩
    simp only [Bool.and_eq_true, decide_eq_true_eq] at hc
    rcases get_set_cases hy with ⟨rfl, rfl⟩ | ⟨hne, hy2⟩
    · simp only at hc
      omega
    · exact ⟨hne, y, hy2, by omega, hc.1.2⟩
  · rintro ⟨hne, x, hx, h1, h2⟩
    refine ⟨x, by rw [get_set_other _ hne]; exact hx, ?_⟩
    have := h.fresh j x hx h1
    simp only [Bool.and_eq_true, decide_eq_true_eq]
    exact ⟨⟨by omega, h2⟩, this⟩

/-- Exact model: for a valid list and quantum > 0, whenever an iteration of `runRR`
dispatches a process over the slice `(start, end]` and that process does not
finish, the ready queue right after the iteration ends with the preempted
process and every process whose arrival lies in `(start, end]` stands before
it. -/
theorem rr_requeue_position (ps : List Process) (hv : Valid ps) (q : Int) (hq : 0 < q)
    (n cur : Nat) (rest : List Nat) (p : Process)
    (hg : (rrAt q ps n).completed < (rrAt q ps n).processes.length)
    (hadm : rrAdmit (rrAt q ps n) = cur :: rest)
    (hp : (rrAt q ps n).temp[cur]? = some p)
    (hnf : p.remaining_time - min q p.remaining_time ≠ 0) :
    ∃ pre, (rrAt q ps (n + 1)).rq = pre ++ [cur] ∧
      (rrAt q ps (n + 1)).current_time = (rrAt q ps n).current_time + min q p.remaining_time ∧
      ∀ (j : Nat) (x : Process), (rrAt q ps n).temp[j]? = some x →
        (rrAt q ps n).current_time < x.arrival_time →
        x.arrival_time ≤ (rrAt q ps n).current_time + min q p.remaining_time →
        j ≠ cur ∧ j ∈ pre := by
  obtain ⟨h1, h2, -⟩ := rr_preempt_shape n hg hadm hp hnf
  refine ⟨_, h1, h2, ?_⟩
  intro j x hx hlo hhi
  have hm := (rrSliceArrivals_mem (rrCore_at hv hq n) q hadm hp j).2
  have hne : j ≠ cur := by
    rintro rfl
    obtain ⟨p2, hp2, ha⟩ := rrAdmit_mem (rrCore_at hv hq n) (show j ∈ rrAdmit (rrAt q ps n) by
      rw [hadm]; exact List.mem_cons_self _ _)
    have hpp : p2 = x := Option.some.inj (hp2.symm.trans hx)
    subst hpp
    omega
  exact ⟨hne, List.mem_append_right _ (hm ⟨hne, x, hx, hlo, hhi⟩)⟩

/-- Exact model: for a valid list and quantum > 0, when an iteration of
`runRR` dispatches a process over `(start, end]` without finishing it, the
processes whose arrival lies in `(start, end]`, and only those, are appended to
the ready queue (after the processes already waiting, before the preempted
one) in increasing position in the process list, i.e. in increasing id. -/
theorem rr_slice_arrivals_by_position (ps : List Process) (hv : Valid ps) (q : Int)
    (hq : 0 < q) (n cur : Nat) (rest : List Nat) (p : Process)
    (hg : (rrAt q ps n).completed < (rrAt q ps n).processes.length)
    (hadm : rrAdmit (rrAt q ps n) = cur :: rest)
    (hp : (rrAt q ps n).temp[cur]? = some p)
    (hnf : p.remaining_time - min q p.remaining_time ≠ 0) :
    ∃ block, (rrAt q ps (n + 1)).rq = rest ++ block ++ [cur] ∧
      block.Pairwise (fun a b => a < b) ∧
      ∀ j : Nat, j ∈ block ↔
        ∃ x, (rrAt q ps n).temp[j]? = some x ∧ x.id = (j : Int) + 1 ∧
          (rrAt q ps n).current_time < x.arrival_time ∧
          x.arrival_time ≤ (rrAt q ps n).current_time + min q p.remaining_time := by
  obtain ⟨h1, -, -⟩ := rr_preempt_shape n hg hadm hp hnf
  have hcore := rrCore_at hv hq n
  refine ⟨_, h1, scan_increasing _ _, ?_⟩
  intro j
  rw [rrSliceArrivals_mem hcore q hadm hp j]
  constructor
  · rintro ⟨-, x, hx, hlo, hhi⟩
    obtain ⟨p0, h0, e0⟩ := hcore.static j x hx
    have hid : x.id = p0.id := by rw [e0]
    exact ⟨x, hx, by rw [hid]; exact (valid_get hv h0).1, hlo, hhi⟩
  · rintro ⟨x, hx, -, hlo, hhi⟩
    refine ⟨?_, x, hx, hlo, hhi⟩
    rintro rfl
    obtain ⟨p2, hp2, ha⟩ := rrAdmit_mem hcore (show j ∈ rrAdmit (rrAt q ps n) by
      rw [hadm]; exact List.mem_cons_self _ _)
    have hpp : p2 = x := Option.some.inj (hp2.symm.trans hx)
    subst hpp
    omega

/-! ## Scenarios and failing runs of Round-Robin -/

/-- C17: on `[(0,8),(1,4),(2,9),(3,5)]` `runSRT` returns with finish times
P1=17, P2=5, P3=26, P4=10 and waiting times P1=9, P2=0, P3=15, P4=2, which sum
to 26; twice the sum is 13 times the number of processes (average 6.5). -/
theorem srt_scenario2 :
    ∃ r, runSRT (srtFuel scenario2) { processes := scenario2, gantt_chart := [], quantum := 4 }
        = some r ∧
      r.processes.map (fun p => (p.id, p.finish_time)) = [(1, 17), (2, 5), (3, 26), (4, 10)] ∧
      r.processes.map (fun p => (p.id, p.waiting_time)) = [(1, 9), (2, 0), (3, 15), (4, 2)] ∧
      (r.processes.map (fun p => p.waiting_time)).sum = 26 ∧
      2 * (r.processes.map (fun p => p.waiting_time)).sum = 13 * (r.processes.length : Int) := by
  refine ⟨_, runSRT_result (by decide) [] 4, ?_, ?_, ?_, ?_⟩ <;> decide

/-- C18: on `[(0,5),(1,3),(2,8)]` with quantum 4 `runRR` returns with the chart
`[(0,P1),(4,P2),(7,P3),(11,P1),(12,P3)]` and finish times P1=12, P2=7, P3=16. -/
theorem rr_scenario3 :
    (runRR 5 { processes := scenario1, gantt_chart := [], quantum := 4 }).map
        (fun r => (r.gantt_chart, r.processes.map (fun p => (p.id, p.finish_time))))
      = some ([(0, 1), (4, 2), (7, 3), (11, 1), (12, 3)], [(1, 12), (2, 7), (3, 16)]) := by
  decide

/-- C11 fails on the code: with quantum 1 on `[(0,2),(1,1),(1,1),(9,1),(9,1)]`
the loop of `runRR` exits with the chart
`[(0,P1),(1,P2),(2,P3),(3,P1),(4,P2),(4,P3)]`: the last two entries share the
start time 4.  P2 and P3 were enqueued twice and their second dispatches, with
`remaining_time` 0, last 0 time units. -/
theorem rr_shared_start_time :
    Valid rrShared ∧
    (runRR 6 { processes := rrShared, gantt_chart := [], quantum := 1 }).map
        (fun r => r.gantt_chart)
      = some [(0, 1), (1, 2), (2, 3), (3, 1), (4, 2), (4, 3)] ∧
    (rrAt 1 rrShared 4).temp.map (fun p => p.remaining_time) = [0, 0, 0, 1, 1] ∧
    (rrAt 1 rrShared 4).rq = [1, 2] := by
  refine ⟨?_, ?_, ?_, ?_⟩ <;> decide

/-- C13 fails on the code: with quantum 2 on `[(0,3),(2,1),(10,1)]` the result
of `runRR` depends on the `finish_time` an earlier run left behind.  Started
from the freshly loaded vector, P3 ends with finish 0, turnaround -10, waiting
-11; started from the vector as `runSRT` leaves it (same id, arrival, burst and
remaining time), P3 ends with the SRT values finish 11, turnaround 1, waiting 0.
The loop exits without ever running P3, so its `finish_time` is not written. -/
theorem rr_leaks_stale_finish :
    (runSRT (srtFuel rrDouble) { processes := rrDouble, gantt_chart := [], quantum := 2 }).map
        (fun r => r.processes) = some rrDoubleAfterSRT ∧
    rrDoubleAfterSRT.map (fun p => (p.id, p.arrival_time, p.burst_time, p.remaining_time))
      = rrDouble.map (fun p => (p.id, p.arrival_time, p.burst_time, p.remaining_time)) ∧
    (runRR 4 { processes := rrDouble, gantt_chart := [], quantum := 2 }).map
        (fun r => r.processes.map
          (fun p => (p.id, p.finish_time, p.turnaround_time, p.waiting_time)))
      = some [(1, 4, 4, 1), (2, 4, 2, 1), (3, 0, -10, -11)] ∧
    (runRR 4 { processes := rrDoubleAfterSRT, gantt_chart := [], quantum := 2 }).map
        (fun r => r.processes.map
          (fun p => (p.id, p.finish_time, p.turnaround_time, p.waiting_time)))
      = some [(1, 4, 4, 1), (2, 4, 2, 1), (3, 11, 1, 0)] := by
  refine ⟨?_, ?_, ?_, ?_⟩ <;> decide

/-- C19 fails on the code: with quantum 5 on `[(0,5),(1,3),(2,8)]` the first
dispatch runs P1 over `(0, 5]` and finishes it; P2 and P3 arrive at 1 and 2,
inside the slice, with `remaining_time > 0`, yet the ready queue is empty right
after the dispatch and still empty after the arrival scan of the next
iteration. -/
theorem rr_slice_arrivals_dropped :
    Valid scenario1 ∧
    (rrAt 5 scenario1 1).current_time = 5 ∧
    (rrAt 5 scenario1 1).gantt_chart = [(0, 1)] ∧
    (rrAt 5 scenario1 1).temp.map (fun p => (p.id, p.arrival_time, p.remaining_time))
      = [(1, 0, 0), (2, 1, 3), (3, 2, 8)] ∧
    (rrAt 5 scenario1 1).rq = [] ∧
    rrAdmit (rrAt 5 scenario1 1) = [] := by
  refine ⟨?_, ?_, ?_, ?_, ?_, ?_⟩ <;> decide

/-- C20 fails on the code: with quantum 2 on `[(0,3),(2,1),(10,1)]`, P2 arrives
exactly at the end of P1's preempted first slice; it is pushed by the inner
scan and again by the arrival scan of the next iteration, so the queue holds P2
twice.  After two more dispatches the queue holds P2 with `remaining_time` 0,
and its empty dispatch raises `completed` to 3 while only two processes have
`remaining_time` 0. -/
theorem rr_double_enqueue :
    Valid rrDouble ∧
    (rrAt 2 rrDouble 1).rq = [1, 0] ∧
    rrAdmit (rrAt 2 rrDouble 1) = [1, 0, 1] ∧
    (rrAt 2 rrDouble 3).rq = [1] ∧
    (rrAt 2 rrDouble 3).temp.map (fun p => p.remaining_time) = [0, 0, 1] ∧
    (rrAt 2 rrDouble 3).completed = 2 ∧
    (rrAt 2 rrDouble 4).completed = 3 ∧
    (rrAt 2 rrDouble 4).current_time = (rrAt 2 rrDouble 3).current_time ∧
    (rrAt 2 rrDouble 4).temp.countP (fun p => decide (p.remaining_time = 0)) = 2 := by
  refine ⟨?_, ?_, ?_, ?_, ?_, ?_, ?_, ?_, ?_⟩ <;> decide

/-! ## Metrics -/

theorem setFinish_inputFields (l : List Process) (k : Nat) (t : Int) :
    (setFinish l k t).map Process.inputFields = l.map Process.inputFields := by
  apply List.ext_getElem?
  intro j
  rw [List.getElem?_map, List.getElem?_map]
  by_cases hjk : k = j
  · subst hjk
    cases hl : l[k]? with
    | none => simp only [setFinish, hl]
    | some p =>
      rw [setFinish_get_eq l t hl]
      rfl
  · rw [setFinish_get_ne l t hjk]

theorem calculateMetrics_inputFields (l : List Process) :
    (calculateMetrics l).map Process.inputFields = l.map Process.inputFields := by
  simp only [calculateMetrics, List.map_map]
  rfl

theorem calculateMetrics_spec (l : List Process) :
    ∀ p ∈ calculateMetrics l, p.turnaround_time = p.finish_time - p.arrival_time ∧
      p.waiting_time = p.turnaround_time - p.burst_time := by
  intro p hp
  simp only [calculateMetrics, List.mem_map] at hp
  obtain ⟨x, -, rfl⟩ := hp
  exact ⟨rfl, rfl⟩

theorem sum_accounting : ∀ l : List Process,
    (∀ p ∈ l, p.waiting_time = p.turnaround_time - p.burst_time) →
    (l.map (fun p => p.waiting_time)).sum + (l.map (fun p => p.burst_time)).sum
      = (l.map (fun p => p.turnaround_time)).sum
  | [], _ => by simp
  | x :: xs, h => by
    have ih := sum_accounting xs (fun p hp => h p (List.mem_cons_of_mem _ hp))
    have hx := h x (List.mem_cons_self _ _)
    simp only [List.map_cons, List.sum_cons]
    omega

theorem metricsOk_calculate {before l : List Process}
    (h : l.map Process.inputFields = before.map Process.inputFields) :
    MetricsOk before (calculateMetrics l) :=
  ⟨calculateMetrics_spec l,
    sum_accounting _ (fun p hp => (calculateMetrics_spec l p hp).2),
    (calculateMetrics_inputFields l).trans h⟩

theorem fcfs_fold_inputFields : ∀ (l : List Process) (s : FCFSState),
    (l.foldl fcfsStep s).processes.map Process.inputFields
      = s.processes.map Process.inputFields
  | [], _ => rfl
  | p :: rest, s => by
    rw [List.foldl_cons, fcfs_fold_inputFields rest (fcfsStep s p), fcfsStep_start]
    exact setFinish_inputFields _ _ _

theorem srtStep_inputFields (s : SRTState) :
    (srtStep s).processes.map Process.inputFields = s.processes.map Process.inputFields := by
  simp only [srtStep]
  split
  · rfl
  · split
    · rfl
    · split
      · exact setFinish_inputFields _ _ _
      · rfl

theorem srtLoop_inputFields : ∀ (fuel : Nat) (s r : SRTState), srtLoop fuel s = some r →
    r.processes.map Process.inputFields = s.processes.map Process.inputFields
  | 0, s, r, h => by
    simp only [srtLoop] at h
    split at h
    · cases h
    · rw [← Option.some.inj h]
  | fuel + 1, s, r, h => by
    simp only [srtLoop] at h
    split at h
    · rw [srtLoop_inputFields fuel _ r h, srtStep_inputFields]
    · rw [← Option.some.inj h]

theorem rrStep_inputFields (q : Int) (s : RRState) :
    (rrStep q s).processes.map Process.inputFields = s.processes.map Process.inputFields := by
  simp only [rrStep]
  split
  · rfl
  · split
    · rfl
    · split
      · exact setFinish_inputFields _ _ _
      · rfl

theorem rrLoop_inputFields (q : Int) : ∀ (fuel : Nat) (s r : RRState),
    rrLoop q fuel s = some r →
    r.processes.map Process.inputFields = s.processes.map Process.inputFields
  | 0, s, r, h => by
    simp only [rrLoop] at h
    split at h
    · cases h
    · rw [← Option.some.inj h]
  | fuel + 1, s, r, h => by
    simp only [rrLoop] at h
    split at h
    · rw [rrLoop_inputFields q fuel _ r h, rrStep_inputFields]
    · rw [← Option.some.inj h]

/-- Exact model: after `runFCFS` (under any sort function), and after `runSRT` or
`runRR` whenever they return, every record has
`turnaround_time = finish_time - arrival_time` and
`waiting_time = turnaround_time - burst_time`, so that
`sum(waiting) + sum(burst) = sum(turnaround)`, and id, arrival time, burst time
and the canonical remaining time of every process are unchanged. -/
theorem metrics_accounting
    (sort : (Process → Process → Bool) → List Process → List Process)
    (s : Scheduler) (fuel : Nat) :
    MetricsOk s.processes (runFCFS sort s).processes ∧
    (∀ r, runSRT fuel s = some r → MetricsOk s.processes r.processes) ∧
    (∀ r, runRR fuel s = some r → MetricsOk s.processes r.processes) := by
  refine ⟨?_, ?_, ?_⟩
  · exact metricsOk_calculate (fcfs_fold_inputFields _ _)
  · intro r hr
    simp only [runSRT] at hr
    cases hl : srtLoop fuel (srtInit s.processes) with
    | none => simp [hl] at hr
    | some fin =>
      rw [hl] at hr
      simp only [Option.map_some', Option.some.injEq] at hr
      subst hr
      exact metricsOk_calculate (srtLoop_inputFields fuel _ fin hl)
  · intro r hr
    simp only [runRR] at hr
    cases hl : rrLoop s.quantum fuel (rrInit s.processes) with
    | none => simp [hl] at hr
    | some fin =>
      rw [hl] at hr
      simp only [Option.map_some', Option.some.injEq] at hr
      subst hr
      exact metricsOk_calculate (rrLoop_inputFields s.quantum fuel _ fin hl)

/-! ## One process -/

theorem srtLoop_done (fuel : Nat) {s : SRTState} (h : ¬ s.completed < s.processes.length) :
    srtLoop fuel s = some s := by
  cases fuel <;> simp [srtLoop, h]

theorem rrLoop_done (q : Int) (fuel : Nat) {s : RRState}
    (h : ¬ s.completed < s.processes.length) : rrLoop q fuel s = some s := by
  cases fuel <;> simp [rrLoop, h]

theorem srt_single_loop (b : Int) (f0 : Process) : ∀ (fuel : Nat) (r t : Int)
    (pq : List (Int × Nat)) (g : List (Int × Int)), 0 < r → r ≤ fuel → 0 ≤ t →
    srtAdmit { processes := [f0], temp := [singleAt b r], pq := pq, current_time := t,
               completed := 0, gantt_chart := g } = [(r, 0)] →
    ∃ fin, srtLoop fuel { processes := [f0], temp := [singleAt b r], pq := pq,
                          current_time := t, completed := 0, gantt_chart := g } = some fin ∧
      fin.processes = [{ f0 with finish_time := t + r }]
  | 0, r, t, pq, g, hr, hf, _, _ => by
    simp only [Nat.cast_zero] at hf
    omega
  | fuel + 1, r, t, pq, g, hr, hf, ht, hadm => by
    have hstep : srtStep
        { processes := [f0], temp := [singleAt b r], pq := pq,
          current_time := t, completed := 0, gantt_chart := g } =
        if r - 1 = 0 then
          { processes := [{ f0 with finish_time := t + 1 }], temp := [singleAt b (r - 1)],
            pq := [], current_time := t + 1, completed := 1,
            gantt_chart := g ++ [(t, 1)] }
        else
          { processes := [f0], temp := [singleAt b (r - 1)], pq := [(r - 1, 0)],
            current_time := t + 1, completed := 0, gantt_chart := g ++ [(t, 1)] } := by
      simp only [srtStep, hadm, pqTop]
      simp [singleAt, Process.new, setFinish]
    simp only [srtLoop, List.length_singleton, Nat.lt_one_iff, if_true, hstep]
    by_cases hz : r - 1 = 0
    · rw [if_pos hz]
      refine ⟨_, srtLoop_done fuel (by simp), ?_⟩
      have : r = 1 := by omega
      rw [this]
    · rw [if_neg hz]
      have hadm2 : srtAdmit
          { processes := [f0], temp := [singleAt b (r - 1)],
            pq := [(r - 1, 0)], current_time := t + 1, completed := 0,
            gantt_chart := g ++ [(t, 1)] } = [(r - 1, 0)] := by
        have hne : ¬ (0 : Int) = t + 1 := by omega
        simp [srtAdmit, scan, singleAt, Process.new, hne]
      obtain ⟨fin, h1, h2⟩ := srt_single_loop b f0 fuel (r - 1) (t + 1) [(r - 1, 0)]
        (g ++ [(t, 1)]) (by omega) (by push_cast at hf; omega) (by omega) hadm2
      refine ⟨fin, h1, ?_⟩
      rw [h2]
      congr 2
      omega

theorem rr_single_loop (b q : Int) (hq : 0 < q) (f0 : Process) : ∀ (fuel : Nat) (r t : Int)
    (rq : List Nat) (g : List (Int × Int)), 0 < r → r ≤ fuel → 0 ≤ t →
    rrAdmit { processes := [f0], temp := [singleAt b r], rq := rq, current_time := t,
              completed := 0, gantt_chart := g } = [0] →
    ∃ fin, rrLoop q fuel { processes := [f0], temp := [singleAt b r], rq := rq,
                           current_time := t, completed := 0, gantt_chart := g } = some fin ∧
      fin.processes = [{ f0 with finish_time := t + r }]
  | 0, r, t, rq, g, hr, hf, _, _ => by
    simp only [Nat.cast_zero] at hf
    omega
  | fuel + 1, r, t, rq, g, hr, hf, ht, hadm => by
    have hstep : rrStep q
        { processes := [f0], temp := [singleAt b r], rq := rq,
          current_time := t, completed := 0, gantt_chart := g } =
        if r - min q r = 0 then
          { processes := [{ f0 with finish_time := t + min q r }],
            temp := [singleAt b (r - min q r)],
            rq := [], current_time := t + min q r, completed := 1,
            gantt_chart := g ++ [(t, 1)] }
        else
          { processes := [f0], temp := [singleAt b (r - min q r)], rq := [0],
            current_time := t + min q r, completed := 0, gantt_chart := g ++ [(t, 1)] } := by
      have hno : ¬ t < 0 := by omega
      simp only [rrStep, hadm]
      simp [singleAt, Process.new, setFinish, rrSliceArrivals, scan, hno, List.range_succ,
        List.filter_cons]
    simp only [rrLoop, List.length_singleton, Nat.lt_one_iff, if_true, hstep]
    by_cases hz : r - min q r = 0
    · rw [if_pos hz]
      refine ⟨_, rrLoop_done q fuel (by simp), ?_⟩
      have : min q r = r := by omega
      rw [this]
    · rw [if_neg hz]
      have hmin : min q r = q := by
        rcases le_total q r with h | h
        · exact min_eq_left h
        · have := min_eq_right h
          omega
      rw [hmin] at hz ⊢
      have hadm2 : rrAdmit
          { processes := [f0], temp := [singleAt b (r - q)],
            rq := [0], current_time := t + q, completed := 0,
            gantt_chart := g ++ [(t, 1)] } = [0] := by
        have hne : ¬ (0 : Int) = t + q := by omega
        simp [rrAdmit, scan, singleAt, Process.new, hne]
      obtain ⟨fin, h1, h2⟩ := rr_single_loop b q hq f0 fuel (r - q) (t + q) [0]
        (g ++ [(t, 1)]) (by omega) (by push_cast at hf; omega) (by omega) hadm2
      refine ⟨fin, h1, ?_⟩
      rw [h2]
      congr 2
      omega

/-- C16: for every burst `b > 0` and quantum `Q > 0`, on the one-process input
`[(0, b)]` `runFCFS` (under any `std::sort` meeting the library contract),
`runSRT` and `runRR` all return (the last two within `b` iterations) and leave
the same record: finish `b`, turnaround `b`, waiting 0; the makespan is `b`,
which is the total burst, so `100 * sum(burst) = 100 * makespan`. -/
theorem single_process_boundary
    (sort : (Process → Process → Bool) → List Process → List Process)
    (hs : StdSortContract sort) (b q : Int) (hb : 0 < b) (hq : 0 < q)
    (g : List (Int × Int)) :
    (runFCFS sort { processes := [Process.new 1 0 b], gantt_chart := g, quantum := q }).processes
      = [singleDone b] ∧
    (∃ r, runSRT b.toNat { processes := [Process.new 1 0 b], gantt_chart := g, quantum := q }
        = some r ∧ r.processes = [singleDone b]) ∧
    (∃ r, runRR b.toNat { processes := [Process.new 1 0 b], gantt_chart := g, quantum := q }
        = some r ∧ r.processes = [singleDone b]) ∧
    completionTime [singleDone b] = b ∧ sumBurst [singleDone b] = b ∧
    100 * sumBurst [singleDone b] = 100 * completionTime [singleDone b] := by
  have hfuel : b ≤ (b.toNat : Int) := by
    rw [Int.toNat_of_nonneg (le_of_lt hb)]
  have hdone : calculateMetrics [{ Process.new 1 0 b with finish_time := 0 + b }]
      = [singleDone b] := by
    simp [calculateMetrics, Process.new, singleDone]
  refine ⟨?_, ?_, ?_, ?_, ?_, ?_⟩
  · have hsort : sort arrivalLess [Process.new 1 0 b] = [Process.new 1 0 b] :=
      List.perm_singleton.1 (hs [Process.new 1 0 b]).1
    simp only [runFCFS, hsort]
    rw [← hdone]
    simp [fcfsLoop, fcfsStep, setFinish, Process.new]
  · have hadm : srtAdmit
        { processes := [Process.new 1 0 b], temp := [singleAt b b], pq := [],
          current_time := 0, completed := 0, gantt_chart := [] } = [(b, 0)] := by
      simp [srtAdmit, scan, singleAt, Process.new, hb, List.range_succ, List.filter_cons]
    obtain ⟨fin, h1, h2⟩ := srt_single_loop b (Process.new 1 0 b) b.toNat b 0 [] [] hb hfuel
      (le_refl _) hadm
    have h1b : srtLoop b.toNat (srtInit [Process.new 1 0 b]) = some fin := h1
    refine ⟨{ processes := calculateMetrics fin.processes, gantt_chart := fin.gantt_chart,
              quantum := q }, by simp only [runSRT, h1b, Option.map_some'], ?_⟩
    show calculateMetrics fin.processes = [singleDone b]
    rw [h2]
    exact hdone
  · have hadm : rrAdmit
        { processes := [Process.new 1 0 b], temp := [singleAt b b], rq := [],
          current_time := 0, completed := 0, gantt_chart := [] } = [0] := by
      simp [rrAdmit, scan, singleAt, Process.new, hb, List.range_succ, List.filter_cons]
    obtain ⟨fin, h1, h2⟩ := rr_single_loop b q hq (Process.new 1 0 b) b.toNat b 0 [] [] hb
      hfuel (le_refl _) hadm
    have h1b : rrLoop q b.toNat (rrInit [Process.new 1 0 b]) = some fin := h1
    refine ⟨{ processes := calculateMetrics fin.processes, gantt_chart := fin.gantt_chart,
              quantum := q }, by simp only [runRR, h1b, Option.map_some'], ?_⟩
    show calculateMetrics fin.processes = [singleDone b]
    rw [h2]
    exact hdone
  · simp [completionTime, singleDone]
  · simp [sumBurst, singleDone]
  · simp [completionTime, sumBurst, singleDone]

/-- Witness for `single_process_boundary`: burst 7, quantum 3, insertion sort. -/
theorem single_process_boundary_witness :
    StdSortContract insertionSort ∧ (0 : Int) < 7 ∧ (0 : Int) < 3 ∧
    (runFCFS insertionSort
      { processes := [Process.new 1 0 7], gantt_chart := [], quantum := 3 }).processes
      = [singleDone 7] ∧
    (∃ r, runSRT (7 : Int).toNat
        { processes := [Process.new 1 0 7], gantt_chart := [], quantum := 3 }
        = some r ∧ r.processes = [singleDone 7]) ∧
    (∃ r, runRR (7 : Int).toNat
        { processes := [Process.new 1 0 7], gantt_chart := [], quantum := 3 }
        = some r ∧ r.processes = [singleDone 7]) ∧
    completionTime [singleDone 7] = 7 ∧ sumBurst [singleDone 7] = 7 ∧
    100 * sumBurst [singleDone 7] = 100 * completionTime [singleDone 7] :=
  ⟨insertionSort_contract, by decide, by decide,
    single_process_boundary insertionSort insertionSort_contract 7 3 (by decide) (by decide) []⟩

/-! ## Makespan and idle time -/

theorem completionTime_eq : ∀ (l : List Process) (m : Int), l ≠ [] →
    (∀ f ∈ l, f.finish_time ≤ m) → (∃ f ∈ l, f.finish_time = m) → completionTime l = m := by
  have key : ∀ (l : List Process) (a m : Int), a ≤ m → (∀ f ∈ l, f.finish_time ≤ m) →
      (a = m ∨ ∃ f ∈ l, f.finish_time = m) →
      l.foldl (fun m x => max m x.finish_time) a = m := by
    intro l
    induction l with
    | nil =>
      intro a m _ _ h
      rcases h with h | ⟨f, hf, -⟩
      · exact h
      · simp at hf
    | cons x xs ih =>
      intro a m ham hall hex
      rw [List.foldl_cons]
      have hx := hall x (List.mem_cons_self _ _)
      refine ih (max a x.finish_time) m (max_le ham hx)
        (fun f hf => hall f (List.mem_cons_of_mem _ hf)) ?_
      rcases hex with h | ⟨f, hf, hfm⟩
      · left
        rw [h]
        exact max_eq_left hx
      · rcases List.mem_cons.1 hf with rfl | hf
        · left
          rw [hfm]
          exact max_eq_right ham
        · exact Or.inr ⟨f, hf, hfm⟩
  intro l m hne hall hex
  cases l with
  | nil => exact absurd rfl hne
  | cons x xs =>
    simp only [completionTime]
    exact key (x :: xs) x.finish_time m (hall x (List.mem_cons_self _ _)) hall (Or.inr hex)

theorem fcfs_fold_clock : ∀ (l : List Process) (s : FCFSState),
    (l.foldl fcfsStep s).current_time = clockFrom s.current_time l
  | [], _ => rfl
  | p :: rest, s => by
    rw [List.foldl_cons, fcfs_fold_clock rest (fcfsStep s p), fcfsStep_start]
    rfl

theorem clockFrom_eq : ∀ (l : List Process) (ct : Int),
    clockFrom ct l = ct + sumBurst l + fcfsIdle ct l
  | [], ct => by simp [clockFrom, sumBurst, fcfsIdle]
  | p :: rest, ct => by
    have ih := clockFrom_eq rest (max ct p.arrival_time + p.burst_time)
    simp only [sumBurst] at ih
    simp only [clockFrom, sumBurst, fcfsIdle, List.map_cons, List.sum_cons, ih]
    omega

theorem fcfsIdle_nonneg : ∀ (l : List Process) (ct : Int), 0 ≤ fcfsIdle ct l
  | [], _ => le_refl _
  | p :: rest, ct => by
    have ih := fcfsIdle_nonneg rest (max ct p.arrival_time + p.burst_time)
    have := le_max_left ct p.arrival_time
    simp only [fcfsIdle]
    omega

theorem clockFrom_mono : ∀ (l : List Process) (ct : Int), (∀ x ∈ l, 0 ≤ x.burst_time) →
    ct ≤ clockFrom ct l
  | [], _, _ => le_refl _
  | p :: rest, ct, h => by
    have ih := clockFrom_mono rest (max ct p.arrival_time + p.burst_time)
      (fun x hx => h x (List.mem_cons_of_mem _ hx))
    have := le_max_left ct p.arrival_time
    have := h p (List.mem_cons_self _ _)
    simp only [clockFrom]
    omega

theorem chart_finish_le : ∀ (l : List Process) (ct : Int) (i : Nat) (e : Int × Int)
    (p : Process), (∀ x ∈ l, 0 ≤ x.burst_time) → (chartFrom ct l)[i]? = some e →
    l[i]? = some p → e.1 + p.burst_time ≤ clockFrom ct l
  | [], _, _, _, _, _, _, h => by simp at h
  | a :: rest, ct, 0, e, p, hb, he, hp => by
    simp [chartFrom] at he
    simp at hp
    subst he
    subst hp
    exact clockFrom_mono rest _ (fun x hx => hb x (List.mem_cons_of_mem _ hx))
  | a :: rest, ct, i + 1, e, p, hb, he, hp => by
    simp only [clockFrom]
    exact chart_finish_le rest _ i e p (fun x hx => hb x (List.mem_cons_of_mem _ hx))
      (by simpa [chartFrom] using he) (by simpa using hp)

theorem chart_last : ∀ (l : List Process) (ct : Int), l ≠ [] →
    ∃ (i : Nat) (e : Int × Int) (p : Process), (chartFrom ct l)[i]? = some e ∧
      l[i]? = some p ∧ e.1 + p.burst_time = clockFrom ct l
  | [], _, h => absurd rfl h
  | [a], ct, _ => ⟨0, (max ct a.arrival_time, a.id), a, by simp [chartFrom], by simp,
      by simp [clockFrom]⟩
  | a :: b :: rest, ct, _ => by
    obtain ⟨i, e, p, h1, h2, h3⟩ :=
      chart_last (b :: rest) (max ct a.arrival_time + a.burst_time) (by simp)
    refine ⟨i + 1, e, p, ?_, ?_, ?_⟩
    · simpa [chartFrom] using h1
    · simpa using h2
    · rw [h3]
      rfl

/-- The makespan after `runFCFS` is the final value of the clock. -/
theorem fcfs_makespan {ps temp : List Process} (hv : Valid ps) (hne : ps ≠ [])
    (hp : temp.Perm ps) :
    completionTime (calculateMetrics (fcfsLoop ps temp).processes) = clockFrom 0 temp := by
  have hg : (fcfsLoop ps temp).gantt_chart = chartFrom 0 temp := by
    simp [fcfsLoop, fcfs_fold_gantt]
  have hlen : (fcfsLoop ps temp).processes.length = ps.length := fcfs_fold_length _ _
  have hb : ∀ x ∈ temp, 0 ≤ x.burst_time := fun x hx =>
    le_of_lt (valid_mem hv (hp.mem_iff.1 hx)).2.2.1
  have htne : temp ≠ [] := fun h => hne (by rw [h] at hp; exact hp.symm.eq_nil)
  refine completionTime_eq _ _ ?_ ?_ ?_
  · intro h
    have := congrArg List.length h
    simp only [calculateMetrics, List.length_map, hlen, List.length_nil] at this
    exact hne (List.length_eq_zero.1 this)
  · intro f hf
    obtain ⟨j, hj⟩ := List.getElem?_of_mem hf
    rw [calculateMetrics_get] at hj
    have hlt : j < ps.length := by
      by_contra hc
      rw [List.getElem?_eq_none (by rw [hlen]; omega)] at hj
      cases hj
    obtain ⟨i, st, hch, -, hrec⟩ := fcfs_record hv hp
      (List.getElem?_eq_getElem hlt)
    rw [hrec] at hj
    simp only [Option.map_some', Option.some.injEq] at hj
    subst hj
    rw [hg] at hch
    obtain ⟨p2, a1, a2, -, -, -⟩ := chartFrom_get temp 0 i _ hch
    have hmem2 : p2 ∈ ps := hp.mem_iff.1 (List.getElem?_mem a1)
    have hpp : p2 = ps[j] :=
      valid_ids_inj hv hmem2 (List.getElem_mem _) a2.symm
    have := chart_finish_le temp 0 i _ p2 hb hch a1
    rw [hpp] at this
    exact this
  · obtain ⟨i, e, p, h1, h2, h3⟩ := chart_last temp 0 htne
    have he : (fcfsLoop ps temp).gantt_chart[i]? = some e := by
      rw [hg]
      exact h1
    obtain ⟨p2, b1, b2, -, -, b5⟩ := fcfs_entry hv hp he
    have hpp : p2 = p := Option.some.inj (b1.symm.trans h2)
    subst hpp
    refine ⟨_, List.mem_map.2 ⟨_, List.getElem?_mem b5, rfl⟩, ?_⟩
    exact h3

theorem srtIdleUpto_succ (ps : List Process) (n : Nat) :
    srtIdleUpto ps (n + 1) = srtIdleUpto ps n + (if srtIdleAt ps n = true then 1 else 0) := by
  simp only [srtIdleUpto, List.range_succ, List.filter_append, List.length_append]
  congr 1
  by_cases h : srtIdleAt ps n = true
  · simp [h]
  · simp [h]

/-- One iteration of `runSRT` in numbers: an idle iteration moves the clock
only, a dispatch moves the clock and adds one Gantt entry, and after the loop
has stopped nothing moves. -/
theorem srt_tick_account {ps : List Process} (hv : Valid ps) (n : Nat) :
    ((srtAt ps (n + 1)).current_time : Int) - (srtAt ps (n + 1)).gantt_chart.length
      = (srtAt ps n).current_time - (srtAt ps n).gantt_chart.length
        + (if srtIdleAt ps n = true then 1 else 0) := by
  have h := srtCore_at hv n
  rw [srtAt_succ]
  by_cases hg : (srtAt ps n).completed < (srtAt ps n).processes.length
  · have e : srtTick (srtAt ps n) = srtStep (srtAt ps n) := by simp [srtTick, hg]
    rw [e, srt_step_clock h]
    rcases srt_step_cases h with ⟨hidle, hstep⟩ | ⟨i, p, hp, ha, hr, -, hstep⟩
    · have hnil : srtAdmit (srtAt ps n) = [] := by
        rw [List.eq_nil_iff_forall_not_mem]
        rintro ⟨k, j⟩ hm
        obtain ⟨x, hx, hxa, hxr, -⟩ := (srtAdmit_mem h k j).1 hm
        exact hidle j x hx hxa hxr
      have hi : srtIdleAt ps n = true := by simp [srtIdleAt, hg, hnil]
      have hG : (srtStep (srtAt ps n)).gantt_chart = (srtAt ps n).gantt_chart := by
        rw [hstep]
      rw [hG, if_pos hi]
      omega
    · have hmem : (p.remaining_time, i) ∈ srtAdmit (srtAt ps n) :=
        (srtAdmit_mem h _ _).2 ⟨p, hp, ha, hr, rfl⟩
      have hi : ¬ srtIdleAt ps n = true := by
        intro hc
        simp only [srtIdleAt, Bool.and_eq_true, List.isEmpty_iff] at hc
        rw [hc.2] at hmem
        simp at hmem
      have hG : (srtStep (srtAt ps n)).gantt_chart =
          (srtAt ps n).gantt_chart ++ [((srtAt ps n).current_time, p.id)] := by
        rw [hstep]; split <;> rfl
      rw [hG, if_neg hi]
      simp only [List.length_append, List.length_singleton]
      push_cast
      omega
  · have hi : ¬ srtIdleAt ps n = true := by
      simp [srtIdleAt, hg]
    rw [srtTick_of_done hg, if_neg hi]
    omega

/-- The clock of `runSRT` is the number of Gantt entries plus the number of idle
iterations so far. -/
theorem srt_clock_account {ps : List Process} (hv : Valid ps) : ∀ n : Nat,
    ((srtAt ps n).current_time : Int) =
      (srtAt ps n).gantt_chart.length + (srtIdleUpto ps n : Int)
  | 0 => by simp [srtAt, srtInit, srtIdleUpto]
  | n + 1 => by
    have ih := srt_clock_account hv n
    have h := srt_tick_account hv n
    rw [srtIdleUpto_succ]
    by_cases hi : srtIdleAt ps n = true
    · rw [if_pos hi] at h ⊢
      push_cast
      omega
    · rw [if_neg hi] at h ⊢
      push_cast
      omega

/-- When the loop of `runSRT` has stopped on a non-empty input, some process
finished exactly at the final clock value. -/
theorem srt_last_finish {ps : List Process} (hv : Valid ps) (hne : ps ≠ []) : ∀ n : Nat,
    ¬ (srtAt ps n).completed < (srtAt ps n).processes.length →
    ∃ f ∈ (srtAt ps n).processes, f.finish_time = (srtAt ps n).current_time
  | 0, hd => by
    exfalso
    apply hd
    simp only [srtAt, Function.iterate_zero, id_eq, srtInit]
    exact List.length_pos.2 hne
  | n + 1, hd => by
    have h := srtCore_at hv n
    rw [srtAt_succ] at hd ⊢
    by_cases hg : (srtAt ps n).completed < (srtAt ps n).processes.length
    · have e : srtTick (srtAt ps n) = srtStep (srtAt ps n) := by simp [srtTick, hg]
      rw [e] at hd ⊢
      rcases srt_step_cases h with ⟨-, hstep⟩ | ⟨i, p, hp, ha, hr, -, hstep⟩
      · rw [hstep] at hd
        exact absurd hg hd
      · by_cases hz : p.remaining_time - 1 = 0
        · rw [if_pos hz] at hstep
          rw [hstep]
          have hidx : (p.id - 1).toNat = i := by
            have := (srt_temp_fields h hv hp).1
            omega
          have hlt : i < (srtAt ps n).processes.length := by
            rw [h.len_procs, ← h.len_temp]
            exact (List.getElem?_eq_some.1 hp).1
          show ∃ f ∈ setFinish (srtAt ps n).processes (p.id - 1).toNat
            ((srtAt ps n).current_time + 1), f.finish_time = (srtAt ps n).current_time + 1
          rw [hidx]
          exact ⟨_, List.getElem?_mem
            (setFinish_get_eq _ _ (List.getElem?_eq_getElem hlt)), rfl⟩
        · rw [if_neg hz] at hstep
          rw [hstep] at hd
          exact absurd hg hd
    · rw [srtTick_of_done hg]
      exact srt_last_finish hv hne n hg

/-- The makespan after `runSRT` is the final value of the clock. -/
theorem srt_makespan {ps : List Process} (hv : Valid ps) (hne : ps ≠ []) :
    completionTime (calculateMetrics (srtAt ps (srtFuel ps)).processes)
      = (srtAt ps (srtFuel ps)).current_time := by
  have hcore := srtCore_at hv (srtFuel ps)
  have hchart := srtChart_at hv (srtFuel ps)
  have hd := (srtLoop_terminates hv).2
  refine completionTime_eq _ _ ?_ ?_ ?_
  · intro h
    have := congrArg List.length h
    simp only [calculateMetrics, List.length_map, hcore.len_procs, List.length_nil] at this
    exact hne (List.length_eq_zero.1 this)
  · intro f hf
    obtain ⟨j, hj⟩ := List.getElem?_of_mem hf
    rw [calculateMetrics_get] at hj
    cases hf0 : (srtAt ps (srtFuel ps)).processes[j]? with
    | none => simp [hf0] at hj
    | some f0 =>
      rw [hf0] at hj
      simp only [Option.map_some', Option.some.injEq] at hj
      subst hj
      have hlt : j < (srtAt ps (srtFuel ps)).temp.length := by
        rw [hcore.len_temp, ← hcore.len_procs]
        exact (List.getElem?_eq_some.1 hf0).1
      have hx := List.getElem?_eq_getElem hlt
      obtain ⟨f1, a1, a2, -, -⟩ :=
        hchart.finish j _ hx (srt_final_done hv _ (List.getElem?_mem hx))
      have hff : f1 = f0 := Option.some.inj (a1.symm.trans hf0)
      subst hff
      have := (hchart.gantt_times _ a2).2
      simp only at this ⊢
      omega
  · obtain ⟨f, hf, hfe⟩ := srt_last_finish hv hne (srtFuel ps) hd
    exact ⟨_, List.mem_map.2 ⟨f, hf, rfl⟩, hfe⟩

/-- Exact model: for a valid, non-empty list, after `runFCFS` (under any `std::sort`
meeting the library contract) and after `runSRT` (which returns), the makespan
`max(finish_time)` equals `sum(burst_time)` plus the total idle time (FCFS: the
sum of the clock advances to an arrival time; SRT: the number of loop
iterations that find the ready set empty); hence `sum(burst) <= makespan`, and
`100 * sum(burst) = 100 * makespan` iff the idle time is 0. -/
theorem idle_time_accounting
    (sort : (Process → Process → Bool) → List Process → List Process)
    (hs : StdSortContract sort) (ps : List Process) (hv : Valid ps) (hne : ps ≠ [])
    (g : List (Int × Int)) (q : Int) :
    (completionTime (runFCFS sort { processes := ps, gantt_chart := g, quantum := q }).processes
        = sumBurst ps + fcfsIdle 0 (sort arrivalLess ps) ∧
      0 ≤ fcfsIdle 0 (sort arrivalLess ps) ∧
      sumBurst ps ≤
        completionTime (runFCFS sort { processes := ps, gantt_chart := g, quantum := q }).processes ∧
      (100 * sumBurst ps = 100 *
        completionTime (runFCFS sort { processes := ps, gantt_chart := g, quantum := q }).processes
        ↔ fcfsIdle 0 (sort arrivalLess ps) = 0)) ∧
    ∃ r, runSRT (srtFuel ps) { processes := ps, gantt_chart := g, quantum := q } = some r ∧
      completionTime r.processes = sumBurst ps + (srtIdleUpto ps (srtFuel ps) : Int) ∧
      sumBurst ps ≤ completionTime r.processes ∧
      (100 * sumBurst ps = 100 * completionTime r.processes
        ↔ srtIdleUpto ps (srtFuel ps) = 0) := by
  constructor
  · obtain ⟨hp, -⟩ := hs ps
    have hm : completionTime
        (runFCFS sort { processes := ps, gantt_chart := g, quantum := q }).processes
        = sumBurst ps + fcfsIdle 0 (sort arrivalLess ps) := by
      simp only [runFCFS]
      rw [fcfs_makespan hv hne hp, clockFrom_eq]
      have : sumBurst (sort arrivalLess ps) = sumBurst ps := (hp.map _).sum_eq
      rw [this]
      omega
    have hi := fcfsIdle_nonneg (sort arrivalLess ps) 0
    refine ⟨hm, hi, by rw [hm]; omega, ?_⟩
    rw [hm]
    constructor <;> intro h <;> omega
  · have hchart := srtChart_at hv (srtFuel ps)
    have hlen : ((srtAt ps (srtFuel ps)).gantt_chart.length : Int) = sumBurst ps := by
      have := hchart.gantt_len
      rw [sumRemaining_zero _ (srt_final_done hv)] at this
      omega
    have hm : completionTime (calculateMetrics (srtAt ps (srtFuel ps)).processes)
        = sumBurst ps + (srtIdleUpto ps (srtFuel ps) : Int) := by
      rw [srt_makespan hv hne, srt_clock_account hv, hlen]
    refine ⟨_, runSRT_result hv g q, hm, by rw [hm]; omega, ?_⟩
    rw [hm]
    constructor <;> intro h <;> omega

/-! ## Machine arithmetic -/

theorem wrap32_of_range {x : Int} (h1 : -2147483648 ≤ x) (h2 : x ≤ 2147483647) :
    wrap32 x = x := by
  unfold wrap32
  omega

theorem wrap32_of_nonneg {x : Int} (h1 : 0 ≤ x) (h2 : x ≤ INT_MAX) : wrap32 x = x :=
  wrap32_of_range (by omega) (by unfold INT_MAX at h2; omega)

theorem wrap32_bounds (x : Int) : -2147483648 ≤ wrap32 x ∧ wrap32 x ≤ 2147483647 := by
  unfold wrap32
  omega

/-! ## FCFS: the machine run equals the exact run while nothing overflows -/

theorem maxArrival_le : ∀ (l : List Process) (m : Int), 0 ≤ m →
    (∀ p ∈ l, p.arrival_time ≤ m) → maxArrival l ≤ m
  | [], m, h0, _ => h0
  | x :: xs, m, h0, h => by
    simp only [maxArrival, List.foldr_cons]
    exact max_le (h x (List.mem_cons_self _ _))
      (maxArrival_le xs m h0 (fun p hp => h p (List.mem_cons_of_mem _ hp)))

theorem maxArrival_perm {l m : List Process} (hp : l.Perm m) : maxArrival l = maxArrival m :=
  le_antisymm
    (maxArrival_le l _ (maxArrival_nonneg m)
      (fun p h => le_maxArrival m p (hp.mem_iff.1 h)))
    (maxArrival_le m _ (maxArrival_nonneg l)
      (fun p h => le_maxArrival l p (hp.mem_iff.2 h)))

theorem sumBurst_perm {l m : List Process} (hp : l.Perm m) : sumBurst l = sumBurst m :=
  (hp.map _).sum_eq

theorem clockFrom_le : ∀ (l : List Process) (ct : Int), (∀ x ∈ l, 0 ≤ x.burst_time) →
    clockFrom ct l ≤ max ct (maxArrival l) + sumBurst l
  | [], ct, _ => by
    have := le_max_left ct (maxArrival [])
    simp only [clockFrom, sumBurst, List.map_nil, List.sum_nil]
    omega
  | p :: rest, ct, h => by
    have ih := clockFrom_le rest (max ct p.arrival_time + p.burst_time)
      (fun x hx => h x (List.mem_cons_of_mem _ hx))
    have hb := h p (List.mem_cons_self _ _)
    have hm : maxArrival (p :: rest) = max p.arrival_time (maxArrival rest) := rfl
    simp only [sumBurst] at ih
    simp only [clockFrom, sumBurst, List.map_cons, List.sum_cons, hm]
    rcases le_total ct p.arrival_time with h1 | h1 <;>
      rcases le_total p.arrival_time (maxArrival rest) with h2 | h2 <;>
      rcases le_total ct (maxArrival rest) with h3 | h3 <;>
      rcases le_total (max ct p.arrival_time + p.burst_time) (maxArrival rest) with h4 | h4 <;>
      simp only [max_eq_left, max_eq_right, h1, h2, h3, h4] at ih ⊢ <;> omega

theorem sumBurst_ge_length : ∀ (l : List Process), (∀ p ∈ l, 0 < p.burst_time) →
    (l.length : Int) ≤ sumBurst l
  | [], _ => by simp [sumBurst]
  | x :: xs, h => by
    have ih := sumBurst_ge_length xs (fun p hp => h p (List.mem_cons_of_mem _ hp))
    have hx := h x (List.mem_cons_self _ _)
    simp only [sumBurst] at ih
    simp only [sumBurst, List.map_cons, List.sum_cons, List.length_cons]
    push_cast
    omega

theorem sumBurst_nonneg : ∀ (l : List Process), (∀ p ∈ l, 0 ≤ p.burst_time) → 0 ≤ sumBurst l
  | [], _ => by simp [sumBurst]
  | x :: xs, h => by
    have ih := sumBurst_nonneg xs (fun p hp => h p (List.mem_cons_of_mem _ hp))
    have hx := h x (List.mem_cons_self _ _)
    simp only [sumBurst] at ih
    simp only [sumBurst, List.map_cons, List.sum_cons]
    omega

/-- What `NoOverflow` gives for a valid list: the ids and the whole schedule
fit an `int`. -/
theorem noOverflow_facts {ps : List Process} (hv : Valid ps) (hno : NoOverflow ps) :
    (ps.length : Int) ≤ 2147483647 ∧ 0 ≤ sumBurst ps ∧ 0 ≤ maxArrival ps ∧
      maxArrival ps + sumBurst ps ≤ 2147483647 ∧
      ∀ p ∈ ps, 1 ≤ p.id ∧ p.id ≤ 2147483647 := by
  have h1 := sumBurst_ge_length ps (fun p hp => (valid_mem hv hp).2.2.1)
  have h2 := maxArrival_nonneg ps
  have h3 : maxArrival ps + sumBurst ps ≤ 2147483647 := hno
  refine ⟨by omega, by omega, h2, h3, ?_⟩
  intro p hp
  obtain ⟨i, hi⟩ := List.getElem?_of_mem hp
  have := (valid_get hv hi).1
  have := (List.getElem?_eq_some.1 hi).1
  omega

theorem machine_fcfs_fold (l : List Process) : ∀ (s : FCFSState),
    (∀ p ∈ l, 1 ≤ p.id ∧ p.id ≤ 2147483647 ∧ 0 ≤ p.arrival_time ∧ 0 ≤ p.burst_time) →
    0 ≤ s.current_time → clockFrom s.current_time l ≤ 2147483647 →
    l.foldl Machine.fcfsStep s = l.foldl fcfsStep s := by
  induction l with
  | nil => intro s _ _ _; simp only [List.foldl_nil]
  | cons p rest ih =>
    intro s h h0 hc
    obtain ⟨i1, i2, i3, i4⟩ := h p (List.mem_cons_self _ _)
    have hrest : ∀ x ∈ rest, 0 ≤ x.burst_time :=
      fun x hx => (h x (List.mem_cons_of_mem _ hx)).2.2.2
    have hmono := clockFrom_mono rest (max s.current_time p.arrival_time + p.burst_time) hrest
    have hmax := le_max_left s.current_time p.arrival_time
    have hstart : (if s.current_time < p.arrival_time then p.arrival_time else s.current_time)
        = max s.current_time p.arrival_time := by
      split
      · exact (max_eq_right (by omega)).symm
      · exact (max_eq_left (by omega)).symm
    have hc2 : clockFrom (max s.current_time p.arrival_time + p.burst_time) rest
        ≤ 2147483647 := by
      simp only [clockFrom] at hc
      exact hc
    clear hc
    have e1 : wrap32 (p.id - 1) = p.id - 1 := wrap32_of_range (by omega) (by omega)
    have e2 : wrap32 (max s.current_time p.arrival_time + p.burst_time)
        = max s.current_time p.arrival_time + p.burst_time :=
      wrap32_of_range (by omega) (by omega)
    have hstep : Machine.fcfsStep s p = fcfsStep s p := by
      simp only [Machine.fcfsStep, fcfsStep, hstart, e1, e2]
    rw [List.foldl_cons, List.foldl_cons, hstep]
    refine ih (fcfsStep s p) (fun x hx => h x (List.mem_cons_of_mem _ hx)) ?_ ?_
    · rw [fcfsStep_start]
      simp only
      omega
    · rw [fcfsStep_start]
      exact hc2

theorem machine_metrics_eq (l : List Process)
    (h : ∀ f ∈ l, -2147483648 ≤ f.finish_time - f.arrival_time ∧
      f.finish_time - f.arrival_time ≤ 2147483647 ∧
      -2147483648 ≤ f.finish_time - f.arrival_time - f.burst_time ∧
      f.finish_time - f.arrival_time - f.burst_time ≤ 2147483647) :
    Machine.calculateMetrics l = calculateMetrics l := by
  unfold Machine.calculateMetrics calculateMetrics
  refine List.map_congr_left (fun f hf => ?_)
  obtain ⟨h1, h2, h3, h4⟩ := h f hf
  have e1 : wrap32 (f.finish_time - f.arrival_time) = f.finish_time - f.arrival_time :=
    wrap32_of_range h1 h2
  have e2 : wrap32 (f.finish_time - f.arrival_time - f.burst_time)
      = f.finish_time - f.arrival_time - f.burst_time := wrap32_of_range h3 h4
  simp only [e1, e2]

/-- Every canonical record after the exact FCFS loop: finish time between
`arrival + burst` and the final clock. -/
theorem fcfs_records_range {ps temp : List Process} (hv : Valid ps) (hp : temp.Perm ps) :
    ∀ f ∈ (fcfsLoop ps temp).processes, 0 ≤ f.arrival_time ∧ 0 < f.burst_time ∧
      f.arrival_time + f.burst_time ≤ f.finish_time ∧ f.finish_time ≤ clockFrom 0 temp := by
  have hg : (fcfsLoop ps temp).gantt_chart = chartFrom 0 temp := by
    simp [fcfsLoop, fcfs_fold_gantt]
  have hlen : (fcfsLoop ps temp).processes.length = ps.length := fcfs_fold_length _ _
  have hb : ∀ x ∈ temp, 0 ≤ x.burst_time := fun x hx =>
    le_of_lt (valid_mem hv (hp.mem_iff.1 hx)).2.2.1
  intro f hf
  obtain ⟨j, hj⟩ := List.getElem?_of_mem hf
  have hlt : j < ps.length := by
    rw [← hlen]
    exact (List.getElem?_eq_some.1 hj).1
  obtain ⟨i, st, hch, hst, hrec⟩ := fcfs_record hv hp (List.getElem?_eq_getElem hlt)
  rw [hrec] at hj
  simp only [Option.some.injEq] at hj
  subst hj
  rw [hg] at hch
  obtain ⟨p2, a1, a2, -, -, -⟩ := chartFrom_get temp 0 i _ hch
  have hmem2 : p2 ∈ ps := hp.mem_iff.1 (List.getElem?_mem a1)
  have hpp : p2 = ps[j] := valid_ids_inj hv hmem2 (List.getElem_mem _) a2.symm
  have hfin := chart_finish_le temp 0 i _ p2 hb hch a1
  rw [hpp] at hfin
  have hvm := valid_mem hv (show ps[j] ∈ ps from List.getElem_mem _)
  simp only at hfin ⊢
  omega

/-- On a valid list with `NoOverflow`, the machine `runFCFS` computes what the
exact one computes. -/
theorem machine_runFCFS_eq
    (sort : (Process → Process → Bool) → List Process → List Process)
    (hs : StdSortContract sort) {ps : List Process} (hv : Valid ps) (hno : NoOverflow ps)
    (g : List (Int × Int)) (q : Int) :
    Machine.runFCFS sort { processes := ps, gantt_chart := g, quantum := q }
      = runFCFS sort { processes := ps, gantt_chart := g, quantum := q } := by
  obtain ⟨hp, -⟩ := hs ps
  obtain ⟨n1, n2, n3, n4, n5⟩ := noOverflow_facts hv hno
  have hb : ∀ x ∈ sort arrivalLess ps, 0 ≤ x.burst_time := fun x hx =>
    le_of_lt (valid_mem hv (hp.mem_iff.1 hx)).2.2.1
  have hclock : clockFrom 0 (sort arrivalLess ps) ≤ 2147483647 := by
    have h1 := clockFrom_le (sort arrivalLess ps) 0 hb
    rw [maxArrival_perm hp, sumBurst_perm hp, max_eq_right n3] at h1
    omega
  have hloop : Machine.fcfsLoop ps (sort arrivalLess ps) = fcfsLoop ps (sort arrivalLess ps) := by
    unfold Machine.fcfsLoop fcfsLoop
    refine machine_fcfs_fold _ _ ?_ (le_refl _) hclock
    intro p hpm
    have hm := hp.mem_iff.1 hpm
    have := valid_mem hv hm
    have := n5 p hm
    omega
  simp only [Machine.runFCFS, runFCFS, hloop]
  rw [machine_metrics_eq]
  intro f hf
  have := fcfs_records_range hv hp f hf
  omega

/-! ## SRT: the machine run equals the exact run while nothing overflows -/

theorem srtFuel_cast {ps : List Process} (hv : Valid ps) :
    ((srtFuel ps : Nat) : Int) = sumBurst ps + maxArrival ps := by
  have h1 := sumBurst_nonneg ps (fun p hp => le_of_lt (valid_mem hv hp).2.2.1)
  have h2 := maxArrival_nonneg ps
  simp only [srtFuel]
  push_cast
  rw [Int.toNat_of_nonneg h1, Int.toNat_of_nonneg h2]

/-- While the loop of the exact `runSRT` is running it has made fewer than
`srtFuel ps` iterations. -/
theorem srt_running_lt {ps : List Process} (hv : Valid ps) {n : Nat}
    (hg : (srtAt ps n).completed < (srtAt ps n).processes.length) : n < srtFuel ps := by
  by_contra hc
  obtain ⟨k, rfl⟩ : ∃ k, n = k + srtFuel ps := ⟨n - srtFuel ps, by omega⟩
  rw [srt_final_stable hv] at hg
  exact (srtLoop_terminates hv).2 hg

theorem machine_srtStep_eq {ps : List Process} {s : SRTState} (hv : Valid ps)
    (hr : InRange ps) (h : SRTCore ps s) (h0 : 0 ≤ s.current_time)
    (h1 : s.current_time + 1 ≤ 2147483647) : Machine.srtStep s = srtStep s := by
  have e1 : wrap32 (s.current_time + 1) = s.current_time + 1 :=
    wrap32_of_range (by omega) h1
  cases htop : pqTop (srtAdmit s) with
  | none => simp only [Machine.srtStep, srtStep, htop, e1]
  | some cur =>
    cases hp : s.temp[cur.2]? with
    | none => simp only [Machine.srtStep, srtStep, htop, hp]
    | some p =>
      obtain ⟨hmem, -⟩ := pqTop_least _ _ htop
      obtain ⟨p2, hp2, -, hpos, -⟩ := (srtAdmit_mem h cur.1 cur.2).1 hmem
      have hpp : p2 = p := Option.some.inj (hp2.symm.trans hp)
      subst hpp
      have hrng := h.rem_range _ _ hp
      obtain ⟨p0, hm0, h0i, e1i, -, e3i⟩ := srt_mem_ps h hp
      have hb := (hr.2 p0 hm0).2
      have hid := (valid_get hv h0i).1
      have hlt := (List.getElem?_eq_some.1 h0i).1
      have hlen := hr.1
      unfold INT_MAX at hb hlen
      have e2 : wrap32 (p2.remaining_time - 1) = p2.remaining_time - 1 :=
        wrap32_of_range (by omega) (by omega)
      have e3 : wrap32 (p2.id - 1) = p2.id - 1 :=
        wrap32_of_range (by omega) (by omega)
      simp only [Machine.srtStep, srtStep, htop, hp, e1, e2, e3]

theorem inRange_of_noOverflow {ps : List Process} (hv : Valid ps) (hno : NoOverflow ps) :
    InRange ps := by
  obtain ⟨n1, n2, n3, n4, -⟩ := noOverflow_facts hv hno
  refine ⟨n1, fun p hp => ?_⟩
  have h1 := le_maxArrival ps p hp
  have h2 : p.burst_time ≤ sumBurst ps := by
    have key : ∀ (l : List Process), (∀ x ∈ l, 0 ≤ x.burst_time) → ∀ x ∈ l,
        x.burst_time ≤ sumBurst l := by
      intro l
      induction l with
      | nil => intro _ x hx; simp at hx
      | cons y ys ih =>
        intro hnn x hx
        have hy := hnn y (List.mem_cons_self _ _)
        have hs := sumBurst_nonneg ys (fun z hz => hnn z (List.mem_cons_of_mem _ hz))
        simp only [sumBurst] at hs
        simp only [sumBurst, List.map_cons, List.sum_cons]
        rcases List.mem_cons.1 hx with rfl | hx
        · omega
        · have := ih (fun z hz => hnn z (List.mem_cons_of_mem _ hz)) x hx
          simp only [sumBurst] at this
          omega
    exact key ps (fun x hx => le_of_lt (valid_mem hv hx).2.2.1) p hp
  unfold INT_MAX
  omega

/-- On a valid list with `NoOverflow`, the machine `runSRT` goes through the
same states as the exact one. -/
theorem machine_srtAt_eq {ps : List Process} (hv : Valid ps) (hno : NoOverflow ps) :
    ∀ n : Nat, Machine.srtAt ps n = srtAt ps n
  | 0 => by simp only [Machine.srtAt, srtAt, Function.iterate_zero]
  | n + 1 => by
    have ih := machine_srtAt_eq hv hno n
    have e : Machine.srtAt ps (n + 1) = Machine.srtTick (Machine.srtAt ps n) :=
      Function.iterate_succ_apply' _ _ _
    rw [e, ih, srtAt_succ]
    unfold Machine.srtTick srtTick
    split
    · rename_i hg
      have hclk := srt_clock hv n hg
      have hlt := srt_running_lt hv hg
      have hf := srtFuel_cast hv
      have hb : maxArrival ps + sumBurst ps ≤ 2147483647 := hno
      exact machine_srtStep_eq hv (inRange_of_noOverflow hv hno) (srtCore_at hv n)
        (by rw [hclk]; omega) (by rw [hclk]; omega)
    · simp only

theorem machine_srtLoop_eq : ∀ (n : Nat) (s : SRTState),
    ¬ (Machine.srtTick^[n] s).completed < (Machine.srtTick^[n] s).processes.length →
    Machine.srtLoop n s = some (Machine.srtTick^[n] s)
  | 0, s, h => by
    simp only [Function.iterate_zero, id_eq] at h
    simp [Machine.srtLoop, h]
  | n + 1, s, h => by
    rw [Function.iterate_succ_apply] at h ⊢
    by_cases hg : s.completed < s.processes.length
    · have e : Machine.srtTick s = Machine.srtStep s := by simp [Machine.srtTick, hg]
      rw [e] at h ⊢
      simp only [Machine.srtLoop, hg, if_true]
      exact machine_srtLoop_eq n _ h
    · have e : Machine.srtTick s = s := by simp [Machine.srtTick, hg]
      rw [e, Function.iterate_fixed e n]
      simp [Machine.srtLoop, hg]

/-- On a valid list with `NoOverflow`, the machine `runSRT` returns what the
exact one returns. -/
theorem machine_runSRT_eq {ps : List Process} (hv : Valid ps) (hno : NoOverflow ps)
    (g : List (Int × Int)) (q : Int) :
    Machine.runSRT (srtFuel ps) { processes := ps, gantt_chart := g, quantum := q }
      = runSRT (srtFuel ps) { processes := ps, gantt_chart := g, quantum := q } := by
  have hd := (srtLoop_terminates hv).2
  have hloop : Machine.srtLoop (srtFuel ps) (srtInit ps) = some (srtAt ps (srtFuel ps)) := by
    have := machine_srtLoop_eq (srtFuel ps) (srtInit ps) (by
      show ¬ (Machine.srtAt ps (srtFuel ps)).completed
        < (Machine.srtAt ps (srtFuel ps)).processes.length
      rw [machine_srtAt_eq hv hno]
      exact hd)
    rw [this]
    exact congrArg some (machine_srtAt_eq hv hno _)
  rw [runSRT_result hv g q]
  simp only [Machine.runSRT, hloop, Option.map_some']
  rw [machine_metrics_eq]
  intro f hf
  have hcore := srtCore_at hv (srtFuel ps)
  have hchart := srtChart_at hv (srtFuel ps)
  obtain ⟨j, hj⟩ := List.getElem?_of_mem hf
  have hlt : j < (srtAt ps (srtFuel ps)).temp.length := by
    rw [hcore.len_temp, ← hcore.len_procs]
    exact (List.getElem?_eq_some.1 hj).1
  have hx := List.getElem?_eq_getElem hlt
  obtain ⟨f1, a1, a2, -, a4⟩ := hchart.finish j _ hx (srt_final_done hv _ (List.getElem?_mem hx))
  have hff : f1 = f := Option.some.inj (a1.symm.trans hj)
  subst hff
  obtain ⟨p0, hm0, h0, -, e2, e3⟩ := srt_mem_ps hcore hx
  obtain ⟨p1, h1, e4⟩ := hchart.procs_static j f1 hj
  have hpp : p1 = p0 := Option.some.inj (h1.symm.trans h0)
  subst hpp
  have ha : f1.arrival_time = p1.arrival_time := by rw [e4]
  have hb : f1.burst_time = p1.burst_time := by rw [e4]
  have hvm := valid_mem hv hm0
  have ht := (hchart.gantt_times _ a2).2
  have hcl := srt_clock_le hv (srtFuel ps)
  have hf := srtFuel_cast hv
  have hbnd : maxArrival ps + sumBurst ps ≤ 2147483647 := hno
  simp only at ht
  omega

/-! ## FCFS and SRT: the machine run equals the exact run while the clock does not
overflow -/

theorem machine_srtAt_succ (ps : List Process) (n : Nat) :
    Machine.srtAt ps (n + 1) = Machine.srtTick (Machine.srtAt ps n) :=
  Function.iterate_succ_apply' _ _ _

theorem machine_fcfsIdle_eq (l : List Process) : ∀ (ct : Int), 0 ≤ ct →
    (∀ p ∈ l, 0 ≤ p.burst_time) → clockFrom ct l ≤ 2147483647 →
    Machine.fcfsIdle ct l = fcfsIdle ct l := by
  induction l with
  | nil => intro ct _ _ _; simp only [Machine.fcfsIdle, fcfsIdle]
  | cons p rest ih =>
    intro ct h0 hb hc
    have hrest : ∀ x ∈ rest, 0 ≤ x.burst_time := fun x hx => hb x (List.mem_cons_of_mem _ hx)
    have hp := hb p (List.mem_cons_self _ _)
    have hmono := clockFrom_mono rest (max ct p.arrival_time + p.burst_time) hrest
    have hmax := le_max_left ct p.arrival_time
    simp only [clockFrom] at hc
    have e : wrap32 (max ct p.arrival_time + p.burst_time) = max ct p.arrival_time + p.burst_time :=
      wrap32_of_range (by omega) (by omega)
    simp only [Machine.fcfsIdle, fcfsIdle, e]
    rw [ih _ (by omega) hrest hc]

/-- What validity and `InRange` say of every record of the input. -/
theorem inRange_facts {ps : List Process} (hv : Valid ps) (hr : InRange ps) :
    ∀ p ∈ ps, 1 ≤ p.id ∧ p.id ≤ 2147483647 ∧ 0 ≤ p.arrival_time ∧
      p.arrival_time ≤ 2147483647 ∧ 0 < p.burst_time ∧ p.burst_time ≤ 2147483647 := by
  intro p hp
  obtain ⟨i, hi⟩ := List.getElem?_of_mem hp
  obtain ⟨v1, v2, v3, -⟩ := valid_get hv hi
  have hlt := (List.getElem?_eq_some.1 hi).1
  obtain ⟨r1, r2⟩ := hr
  obtain ⟨r3, r4⟩ := r2 p hp
  unfold INT_MAX at r1 r3 r4
  omega

theorem machine_fcfsStep_clock (s : FCFSState) (p : Process) :
    (Machine.fcfsStep s p).current_time
      = wrap32 (max s.current_time p.arrival_time + p.burst_time) := by
  have hstart : (if s.current_time < p.arrival_time then p.arrival_time else s.current_time)
      = max s.current_time p.arrival_time := by
    split
    · exact (max_eq_right (by omega)).symm
    · exact (max_eq_left (by omega)).symm
  simp only [Machine.fcfsStep, hstart]

/-- If no iteration of the machine `runFCFS` lowers the clock, the time at which
the schedule ends fits an `int`. -/
theorem clockFrom_le_of_noWrap (l : List Process) : ∀ (s : FCFSState),
    (∀ p ∈ l, 0 ≤ p.arrival_time ∧ p.arrival_time ≤ 2147483647 ∧ 0 ≤ p.burst_time ∧
      p.burst_time ≤ 2147483647) →
    0 ≤ s.current_time → s.current_time ≤ 2147483647 →
    Machine.fcfsNoWrapFrom s l → clockFrom s.current_time l ≤ 2147483647 := by
  induction l with
  | nil =>
    intro s _ _ hhi _
    simp only [clockFrom]
    exact hhi
  | cons p rest ih =>
    intro s h h0 hhi hw
    obtain ⟨i1, i2, i3, i4⟩ := h p (List.mem_cons_self _ _)
    simp only [Machine.fcfsNoWrapFrom] at hw
    obtain ⟨hstep, hrest⟩ := hw
    have hC := machine_fcfsStep_clock s p
    have hmax1 := le_max_left s.current_time p.arrival_time
    have hmax2 : max s.current_time p.arrival_time ≤ 2147483647 := max_le hhi i2
    rw [hC] at hstep
    have hfit : max s.current_time p.arrival_time + p.burst_time ≤ 2147483647 := by
      unfold wrap32 at hstep
      omega
    have e2 : wrap32 (max s.current_time p.arrival_time + p.burst_time)
        = max s.current_time p.arrival_time + p.burst_time :=
      wrap32_of_range (by omega) hfit
    have := ih (Machine.fcfsStep s p) (fun x hx => h x (List.mem_cons_of_mem _ hx))
      (by rw [hC, e2]; omega) (by rw [hC, e2]; exact hfit) hrest
    rw [hC, e2] at this
    simp only [clockFrom]
    exact this

/-- If the time at which the schedule ends fits an `int`, no iteration of the
machine `runFCFS` lowers the clock. -/
theorem machine_fcfs_noWrap_of_fit (l : List Process) : ∀ (s : FCFSState),
    (∀ p ∈ l, 0 ≤ p.burst_time) → 0 ≤ s.current_time →
    clockFrom s.current_time l ≤ 2147483647 → Machine.fcfsNoWrapFrom s l := by
  induction l with
  | nil =>
    intro s _ _ _
    simp only [Machine.fcfsNoWrapFrom]
  | cons p rest ih =>
    intro s h h0 hc
    have hp := h p (List.mem_cons_self _ _)
    have hrest : ∀ x ∈ rest, 0 ≤ x.burst_time := fun x hx => h x (List.mem_cons_of_mem _ hx)
    have hmono := clockFrom_mono rest (max s.current_time p.arrival_time + p.burst_time) hrest
    have hmax1 := le_max_left s.current_time p.arrival_time
    have hC := machine_fcfsStep_clock s p
    simp only [clockFrom] at hc
    have e2 : wrap32 (max s.current_time p.arrival_time + p.burst_time)
        = max s.current_time p.arrival_time + p.burst_time :=
      wrap32_of_range (by omega) (by omega)
    simp only [Machine.fcfsNoWrapFrom]
    refine ⟨by rw [hC, e2]; omega, ?_⟩
    exact ih (Machine.fcfsStep s p) hrest (by rw [hC, e2]; omega) (by rw [hC, e2]; exact hc)

/-- The end of the FCFS schedule fits an `int` when the clock of the machine
`runFCFS` does not overflow. -/
theorem fcfs_fit_of_noWrap
    (sort : (Process → Process → Bool) → List Process → List Process) {ps : List Process}
    (hp : (sort arrivalLess ps).Perm ps) (hv : Valid ps) (hr : InRange ps)
    (hw : Machine.fcfsNoWrap sort ps) : clockFrom 0 (sort arrivalLess ps) ≤ 2147483647 := by
  have hf := inRange_facts hv hr
  have h0 : (0 : Int) ≤ 2147483647 := by decide
  refine clockFrom_le_of_noWrap (sort arrivalLess ps)
    { processes := ps, gantt_chart := [], current_time := 0 } ?_ (le_refl _) h0 hw
  intro p hpm
  have := hf p (hp.mem_iff.1 hpm)
  omega

/-- While its clock does not overflow, the machine `runFCFS` on a valid list of
`int` values computes what the exact one computes. -/
theorem machine_runFCFS_eq_of_noWrap
    (sort : (Process → Process → Bool) → List Process → List Process) {ps : List Process}
    (hp : (sort arrivalLess ps).Perm ps) (hv : Valid ps) (hr : InRange ps)
    (hw : Machine.fcfsNoWrap sort ps) (g : List (Int × Int)) (q : Int) :
    Machine.runFCFS sort { processes := ps, gantt_chart := g, quantum := q }
      = runFCFS sort { processes := ps, gantt_chart := g, quantum := q } := by
  have hf := inRange_facts hv hr
  have hclock := fcfs_fit_of_noWrap sort hp hv hr hw
  have hloop : Machine.fcfsLoop ps (sort arrivalLess ps) = fcfsLoop ps (sort arrivalLess ps) := by
    unfold Machine.fcfsLoop fcfsLoop
    refine machine_fcfs_fold _ _ ?_ (le_refl _) hclock
    intro p hpm
    have := hf p (hp.mem_iff.1 hpm)
    omega
  simp only [Machine.runFCFS, runFCFS, hloop]
  rw [machine_metrics_eq]
  intro f hf2
  have := fcfs_records_range hv hp f hf2
  omega

/-- On a valid list with `NoOverflow` the clock of the machine `runFCFS` does not
overflow. -/
theorem fcfsNoWrap_of_noOverflow
    (sort : (Process → Process → Bool) → List Process → List Process) {ps : List Process}
    (hp : (sort arrivalLess ps).Perm ps) (hv : Valid ps) (hno : NoOverflow ps) :
    Machine.fcfsNoWrap sort ps := by
  obtain ⟨n1, n2, n3, n4, n5⟩ := noOverflow_facts hv hno
  have hb : ∀ x ∈ sort arrivalLess ps, 0 ≤ x.burst_time := fun x hx =>
    le_of_lt (valid_mem hv (hp.mem_iff.1 hx)).2.2.1
  have hclock : clockFrom 0 (sort arrivalLess ps) ≤ 2147483647 := by
    have h1 := clockFrom_le (sort arrivalLess ps) 0 hb
    rw [maxArrival_perm hp, sumBurst_perm hp, max_eq_right n3] at h1
    omega
  exact machine_fcfs_noWrap_of_fit (sort arrivalLess ps)
    { processes := ps, gantt_chart := [], current_time := 0 } hb (le_refl _) hclock

theorem machine_srtStep_clock {ps : List Process} {s : SRTState} (h : SRTCore ps s) :
    (Machine.srtStep s).current_time = wrap32 (s.current_time + 1) := by
  cases htop : pqTop (srtAdmit s) with
  | none => simp only [Machine.srtStep, htop]
  | some cur =>
    obtain ⟨hmem, -⟩ := pqTop_least _ _ htop
    obtain ⟨p2, hp2, -, -, -⟩ := (srtAdmit_mem h cur.1 cur.2).1 hmem
    simp only [Machine.srtStep, htop, hp2]
    split <;> simp only

/-- As long as its clock has not overflowed, the machine `runSRT` on a valid
list of `int` values goes through the same states as the exact one, and the
exact clock fits an `int`. -/
theorem machine_srt_noWrap_eq {ps : List Process} (hv : Valid ps) (hr : InRange ps) :
    ∀ n : Nat, Machine.srtNoWrap ps n →
      Machine.srtAt ps n = srtAt ps n ∧ (srtAt ps n).current_time ≤ 2147483647
  | 0, _ => by
    refine ⟨by simp only [Machine.srtAt, srtAt, Function.iterate_zero], ?_⟩
    simp [srtAt, srtInit]
  | n + 1, hw => by
    obtain ⟨ih, hb⟩ := machine_srt_noWrap_eq hv hr n (fun k hk => hw k (by omega))
    have hle := hw n (by omega)
    rw [machine_srtAt_succ] at hle ⊢
    rw [ih] at hle ⊢
    rw [srtAt_succ]
    by_cases hg : (srtAt ps n).completed < (srtAt ps n).processes.length
    · have et : Machine.srtTick (srtAt ps n) = Machine.srtStep (srtAt ps n) := by
        simp [Machine.srtTick, hg]
      have et2 : srtTick (srtAt ps n) = srtStep (srtAt ps n) := by simp [srtTick, hg]
      have hclk := srt_clock hv n hg
      have hcore := srtCore_at hv n
      rw [et, machine_srtStep_clock hcore] at hle
      have h1 : (srtAt ps n).current_time + 1 ≤ 2147483647 := by
        unfold wrap32 at hle
        omega
      have es := machine_srtStep_eq hv hr hcore (by omega) h1
      refine ⟨by rw [et, et2, es], ?_⟩
      rw [et2, srt_step_clock hcore]
      exact h1
    · have et : Machine.srtTick (srtAt ps n) = srtAt ps n := by simp [Machine.srtTick, hg]
      have et2 : srtTick (srtAt ps n) = srtAt ps n := by simp [srtTick, hg]
      rw [et, et2]
      exact ⟨rfl, hb⟩

theorem machine_srtNoWrap_mono {ps : List Process} {n m : Nat} (h : m ≤ n)
    (hw : Machine.srtNoWrap ps n) : Machine.srtNoWrap ps m :=
  fun k hk => hw k (by omega)

/-- When the clock of the machine `runSRT` does not overflow within `srtFuel ps`
iterations, the machine and the exact run agree at every tick. -/
theorem machine_srtAt_eq_of_noWrap {ps : List Process} (hv : Valid ps) (hr : InRange ps)
    (hw : Machine.srtNoWrap ps (srtFuel ps)) (t : Nat) :
    Machine.srtAt ps t = srtAt ps t := by
  by_cases ht : t ≤ srtFuel ps
  · exact (machine_srt_noWrap_eq hv hr t (machine_srtNoWrap_mono ht hw)).1
  · obtain ⟨k, rfl⟩ : ∃ k, t = k + srtFuel ps := ⟨t - srtFuel ps, by omega⟩
    have hd := (srtLoop_terminates hv).2
    have e0 := (machine_srt_noWrap_eq hv hr (srtFuel ps) hw).1
    have hfix : Machine.srtTick (srtAt ps (srtFuel ps)) = srtAt ps (srtFuel ps) := by
      simp [Machine.srtTick, hd]
    have e1 : Machine.srtAt ps (k + srtFuel ps)
        = Machine.srtTick^[k] (Machine.srtAt ps (srtFuel ps)) :=
      Function.iterate_add_apply _ _ _ _
    rw [e1, e0, Function.iterate_fixed hfix, srt_final_stable hv]

theorem machine_srtLoop_result {ps : List Process} (hv : Valid ps) (hr : InRange ps)
    (hw : Machine.srtNoWrap ps (srtFuel ps)) (fuel : Nat) (hf : srtFuel ps ≤ fuel) :
    Machine.srtLoop fuel (srtInit ps) = some (Machine.srtAt ps (srtFuel ps)) := by
  obtain ⟨k, rfl⟩ : ∃ k, fuel = k + srtFuel ps := ⟨fuel - srtFuel ps, by omega⟩
  have hd := (srtLoop_terminates hv).2
  have := machine_srtLoop_eq (k + srtFuel ps) (srtInit ps) (by
    show ¬ (Machine.srtAt ps (k + srtFuel ps)).completed
      < (Machine.srtAt ps (k + srtFuel ps)).processes.length
    rw [machine_srtAt_eq_of_noWrap hv hr hw, srt_final_stable hv]
    exact hd)
  rw [this]
  show some (Machine.srtAt ps (k + srtFuel ps)) = _
  rw [machine_srtAt_eq_of_noWrap hv hr hw, machine_srtAt_eq_of_noWrap hv hr hw,
    srt_final_stable hv]

/-- While its clock does not overflow, the machine `runSRT` on a valid list of
`int` values returns what the exact one returns. -/
theorem machine_runSRT_eq_of_noWrap {ps : List Process} (hv : Valid ps) (hr : InRange ps)
    (hw : Machine.srtNoWrap ps (srtFuel ps)) (g : List (Int × Int)) (q : Int) :
    Machine.runSRT (srtFuel ps) { processes := ps, gantt_chart := g, quantum := q }
      = runSRT (srtFuel ps) { processes := ps, gantt_chart := g, quantum := q } := by
  have hloop : Machine.srtLoop (srtFuel ps) (srtInit ps) = some (srtAt ps (srtFuel ps)) := by
    rw [machine_srtLoop_result hv hr hw _ (le_refl _), machine_srtAt_eq_of_noWrap hv hr hw]
  rw [runSRT_result hv g q]
  simp only [Machine.runSRT, hloop, Option.map_some']
  rw [machine_metrics_eq]
  intro f hf
  have hcore := srtCore_at hv (srtFuel ps)
  have hchart := srtChart_at hv (srtFuel ps)
  obtain ⟨j, hj⟩ := List.getElem?_of_mem hf
  have hlt : j < (srtAt ps (srtFuel ps)).temp.length := by
    rw [hcore.len_temp, ← hcore.len_procs]
    exact (List.getElem?_eq_some.1 hj).1
  have hx := List.getElem?_eq_getElem hlt
  obtain ⟨f1, a1, a2, -, a4⟩ := hchart.finish j _ hx (srt_final_done hv _ (List.getElem?_mem hx))
  have hff : f1 = f := Option.some.inj (a1.symm.trans hj)
  subst hff
  obtain ⟨p0, hm0, h0, -, e2, e3⟩ := srt_mem_ps hcore hx
  obtain ⟨p1, h1, e4⟩ := hchart.procs_static j f1 hj
  have hpp : p1 = p0 := Option.some.inj (h1.symm.trans h0)
  subst hpp
  have ha : f1.arrival_time = p1.arrival_time := by rw [e4]
  have hb : f1.burst_time = p1.burst_time := by rw [e4]
  have hvm := valid_mem hv hm0
  have ht := (hchart.gantt_times _ a2).2
  have hcl := (machine_srt_noWrap_eq hv hr (srtFuel ps) hw).2
  simp only at ht
  omega

theorem machine_srtIdleUpto_eq {ps : List Process} (hv : Valid ps) (hr : InRange ps)
    (hw : Machine.srtNoWrap ps (srtFuel ps)) (n : Nat) :
    Machine.srtIdleUpto ps n = srtIdleUpto ps n := by
  have e : Machine.srtIdleAt ps = srtIdleAt ps := by
    funext k
    simp only [Machine.srtIdleAt, srtIdleAt, machine_srtAt_eq_of_noWrap hv hr hw]
  simp only [Machine.srtIdleUpto, srtIdleUpto, e]

/-- On a valid list with `NoOverflow` the clock of the machine `runSRT` never
overflows. -/
theorem srtNoWrap_of_noOverflow {ps : List Process} (hv : Valid ps) (hno : NoOverflow ps)
    (n : Nat) : Machine.srtNoWrap ps n := by
  intro k _
  rw [machine_srtAt_eq hv hno, machine_srtAt_eq hv hno, srtAt_succ]
  unfold srtTick
  split
  · rw [srt_step_clock (srtCore_at hv k)]
    omega
  · exact le_refl _

/-! ## FCFS and SRT on the machine model -/

/-- C1 (as amended): for a valid list of `int` values on which `current_time`
does not overflow during the run, the machine `runSRT` returns, and for every
time `t` its Gantt chart has an entry `(t, id)` iff at the start of tick `t`
some process has `arrival_time <= t` and `remaining_time > 0`; the process of
that entry then has the least `remaining_time` among those processes, and the
tick lowers its `remaining_time` by exactly 1 and changes no other process. -/
theorem machine_srt_selection_rule (ps : List Process) (hv : Valid ps) (hr : InRange ps)
    (hw : Machine.srtNoWrap ps (srtFuel ps)) (g : List (Int × Int)) (q : Int) (t : Nat) :
    ∃ r, Machine.runSRT (srtFuel ps) { processes := ps, gantt_chart := g, quantum := q }
        = some r ∧
      ((∃ pid, ((t : Int), pid) ∈ r.gantt_chart) ↔
        ∃ p ∈ (Machine.srtAt ps t).temp, p.arrival_time ≤ t ∧ 0 < p.remaining_time) ∧
      ∀ pid, ((t : Int), pid) ∈ r.gantt_chart →
        ∃ (i : Nat) (p : Process), (Machine.srtAt ps t).temp[i]? = some p ∧ p.id = pid ∧
          p.arrival_time ≤ t ∧ 0 < p.remaining_time ∧
          (∀ x ∈ (Machine.srtAt ps t).temp, x.arrival_time ≤ t → 0 < x.remaining_time →
            p.remaining_time ≤ x.remaining_time) ∧
          (Machine.srtAt ps (t + 1)).temp =
            (Machine.srtAt ps t).temp.set i
              { p with remaining_time := p.remaining_time - 1 } := by
  rw [machine_runSRT_eq_of_noWrap hv hr hw, machine_srtAt_eq_of_noWrap hv hr hw,
    machine_srtAt_eq_of_noWrap hv hr hw]
  exact srt_selection_rule ps hv g q t

/-- Witness for `machine_srt_selection_rule`: scenario 2 at tick 3. -/
theorem machine_srt_selection_rule_witness :
    Valid scenario2 ∧ InRange scenario2 ∧ Machine.srtNoWrap scenario2 (srtFuel scenario2) ∧
    ∃ r, Machine.runSRT (srtFuel scenario2)
        { processes := scenario2, gantt_chart := [], quantum := 4 } = some r ∧
      ((∃ pid, (((3 : Nat) : Int), pid) ∈ r.gantt_chart) ↔
        ∃ p ∈ (Machine.srtAt scenario2 3).temp,
          p.arrival_time ≤ (3 : Nat) ∧ 0 < p.remaining_time) ∧
      ∀ pid, (((3 : Nat) : Int), pid) ∈ r.gantt_chart →
        ∃ (i : Nat) (p : Process), (Machine.srtAt scenario2 3).temp[i]? = some p ∧
          p.id = pid ∧ p.arrival_time ≤ (3 : Nat) ∧ 0 < p.remaining_time ∧
          (∀ x ∈ (Machine.srtAt scenario2 3).temp, x.arrival_time ≤ (3 : Nat) →
            0 < x.remaining_time → p.remaining_time ≤ x.remaining_time) ∧
          (Machine.srtAt scenario2 (3 + 1)).temp =
            (Machine.srtAt scenario2 3).temp.set i
              { p with remaining_time := p.remaining_time - 1 } :=
  ⟨by decide, by decide, by decide,
    machine_srt_selection_rule scenario2 (by decide) (by decide) (by decide) [] 4 3⟩

/-- C3 (as amended): under any `std::sort` meeting the library contract and for
a valid list of `int` values on which `current_time` does not overflow during
the run, the machine FCFS chart `(s_1,p_1),...,(s_N,p_N)` satisfies
`s_1 = arrival(p_1)`, `s_{i+1} = max(s_i + burst(p_i), arrival(p_{i+1}))`, hence
`s_i >= arrival(p_i)` and `s_{i+1} >= s_i + burst(p_i)`, and the finish time
recorded for `p_i` is `s_i + burst(p_i)`.  On `[(0,5),(1,3),(2,8)]` the order is
P1,P2,P3 with finishes 5,8,16 and waits 0,4,6. -/
theorem machine_fcfs_slices
    (sort : (Process → Process → Bool) → List Process → List Process)
    (hs : StdSortContract sort) (ps : List Process) (hv : Valid ps) (hr : InRange ps)
    (hw : Machine.fcfsNoWrap sort ps) (g : List (Int × Int)) (q : Int) :
    let r := Machine.runFCFS sort { processes := ps, gantt_chart := g, quantum := q }
    let w := Machine.runFCFS sort { processes := scenario1, gantt_chart := g, quantum := q }
    r.gantt_chart.length = ps.length ∧
    (∀ e : Int × Int, r.gantt_chart[0]? = some e → e.1 = arrivalOf ps e.2) ∧
    (∀ (i : Nat) (e e2 : Int × Int), r.gantt_chart[i]? = some e →
      r.gantt_chart[i + 1]? = some e2 →
      e2.1 = max (e.1 + burstOf ps e.2) (arrivalOf ps e2.2) ∧ e.1 + burstOf ps e.2 ≤ e2.1) ∧
    (∀ (i : Nat) (e : Int × Int), r.gantt_chart[i]? = some e →
      arrivalOf ps e.2 ≤ e.1 ∧ finishOf r.processes e.2 = e.1 + burstOf ps e.2) ∧
    w.gantt_chart = [(0, 1), (5, 2), (8, 3)] ∧
    w.processes.map (fun p => p.finish_time) = [5, 8, 16] ∧
    w.processes.map (fun p => p.waiting_time) = [0, 4, 6] := by
  have h1 : NoOverflow scenario1 := by decide
  have h2 : Valid scenario1 := by decide
  rw [machine_runFCFS_eq_of_noWrap sort (hs ps).1 hv hr hw, machine_runFCFS_eq sort hs h2 h1]
  exact fcfs_slices sort hs ps hv g q

/-- Witness for `machine_fcfs_slices`: insertion sort on scenario 1. -/
theorem machine_fcfs_slices_witness :
    StdSortContract insertionSort ∧ Valid scenario1 ∧ InRange scenario1 ∧
    Machine.fcfsNoWrap insertionSort scenario1 ∧
    (Machine.runFCFS insertionSort
      { processes := scenario1, gantt_chart := [], quantum := 4 }).gantt_chart.length
        = scenario1.length :=
  ⟨insertionSort_contract, by decide, by decide, by decide,
    (machine_fcfs_slices insertionSort insertionSort_contract scenario1 (by decide)
      (by decide) (by decide) [] 4).1⟩

/-- C6 (as amended): for a valid list of `int` values on which `current_time`
does not overflow during the run, the loop of the machine `runSRT` stops
(within `srtFuel ps` iterations, and any larger fuel gives the same state); its
guard holds exactly while some process is unfinished; on exit every process of
the working copy has `remaining_time == 0`, each id occurs in the chart exactly
`burst_time` times, the chart has `sum(burst_time)` entries, and every recorded
`finish_time` is one more than the time of that process's last chart entry. -/
theorem machine_srt_terminates_when_done (ps : List Process) (hv : Valid ps)
    (hr : InRange ps) (hw : Machine.srtNoWrap ps (srtFuel ps))
    (g : List (Int × Int)) (q : Int) :
    ∃ fin, (∀ fuel, srtFuel ps ≤ fuel → Machine.srtLoop fuel (srtInit ps) = some fin) ∧
      Machine.runSRT (srtFuel ps) { processes := ps, gantt_chart := g, quantum := q } =
        some { processes := Machine.calculateMetrics fin.processes,
               gantt_chart := fin.gantt_chart, quantum := q } ∧
      (∀ n : Nat, (Machine.srtAt ps n).completed < (Machine.srtAt ps n).processes.length ↔
        ∃ p ∈ (Machine.srtAt ps n).temp, p.remaining_time ≠ 0) ∧
      fin.temp.length = ps.length ∧
      (∀ p ∈ fin.temp, p.remaining_time = 0) ∧
      (∀ p ∈ ps, ((fin.gantt_chart.countP (fun e => decide (e.2 = p.id)) : Nat) : Int)
        = p.burst_time) ∧
      (fin.gantt_chart.length : Int) = sumBurst ps ∧
      (Machine.calculateMetrics fin.processes).length = ps.length ∧
      (∀ f ∈ Machine.calculateMetrics fin.processes,
        (f.finish_time - 1, f.id) ∈ fin.gantt_chart ∧
        ∀ e ∈ fin.gantt_chart, e.2 = f.id → e.1 ≤ f.finish_time - 1) := by
  obtain ⟨fin, h1, h2, h3, h4, h5, h6, h7, h8, h9⟩ := srt_terminates_when_done ps hv g q
  have hfin : fin = srtAt ps (srtFuel ps) := by
    have := h1 (srtFuel ps) (le_refl _)
    rw [srtLoop_result hv _ (le_refl _)] at this
    exact (Option.some.inj this).symm
  have hmet : Machine.calculateMetrics fin.processes = calculateMetrics fin.processes := by
    have ha := machine_runSRT_eq_of_noWrap hv hr hw g q
    have hb : Machine.runSRT (srtFuel ps) { processes := ps, gantt_chart := g, quantum := q }
        = some { processes := Machine.calculateMetrics fin.processes,
                 gantt_chart := fin.gantt_chart, quantum := q } := by
      simp only [Machine.runSRT, machine_srtLoop_result hv hr hw _ (le_refl _),
        machine_srtAt_eq_of_noWrap hv hr hw, Option.map_some', hfin]
    rw [hb, h2] at ha
    have hc := Option.some.inj ha
    exact congrArg Scheduler.processes hc
  refine ⟨fin, ?_, ?_, ?_, h4, h5, h6, h7, ?_, ?_⟩
  · intro fuel hf
    rw [machine_srtLoop_result hv hr hw fuel hf, machine_srtAt_eq_of_noWrap hv hr hw, hfin]
  · rw [machine_runSRT_eq_of_noWrap hv hr hw, h2, hmet]
  · intro n
    rw [machine_srtAt_eq_of_noWrap hv hr hw]
    exact h3 n
  · rw [hmet]
    exact h8
  · rw [hmet]
    exact h9

/-- Witness for `machine_srt_terminates_when_done`: scenario 2. -/
theorem machine_srt_terminates_when_done_witness :
    Valid scenario2 ∧ InRange scenario2 ∧ Machine.srtNoWrap scenario2 (srtFuel scenario2) ∧
    ∃ fin, (∀ fuel, srtFuel scenario2 ≤ fuel →
        Machine.srtLoop fuel (srtInit scenario2) = some fin) ∧
      (∀ p ∈ fin.temp, p.remaining_time = 0) ∧
      (fin.gantt_chart.length : Int) = sumBurst scenario2 := by
  refine ⟨by decide, by decide, by decide, ?_⟩
  obtain ⟨fin, h1, -, -, -, h5, -, h7, -⟩ :=
    machine_srt_terminates_when_done scenario2 (by decide) (by decide) (by decide) [] 4
  exact ⟨fin, h1, h5, h7⟩

/-- C7 (as amended): for a valid list of `int` values, after the machine
`runFCFS` (under any `std::sort` meeting the library contract) when its clock
does not overflow, and after the machine `runSRT` (which returns) when its
clock does not overflow, every process has
`finish_time >= arrival_time + burst_time`, `turnaround_time >= burst_time` and
`waiting_time >= 0`. -/
theorem machine_waiting_nonneg_fcfs_srt
    (sort : (Process → Process → Bool) → List Process → List Process)
    (hs : StdSortContract sort) (ps : List Process) (hv : Valid ps) (hr : InRange ps)
    (g : List (Int × Int)) (q : Int) :
    (Machine.fcfsNoWrap sort ps →
      (Machine.runFCFS sort
        { processes := ps, gantt_chart := g, quantum := q }).processes.length = ps.length ∧
      ∀ f ∈ (Machine.runFCFS sort
          { processes := ps, gantt_chart := g, quantum := q }).processes,
        f.arrival_time + f.burst_time ≤ f.finish_time ∧ f.burst_time ≤ f.turnaround_time ∧
          0 ≤ f.waiting_time) ∧
    (Machine.srtNoWrap ps (srtFuel ps) →
      ∃ r, Machine.runSRT (srtFuel ps) { processes := ps, gantt_chart := g, quantum := q }
          = some r ∧
        r.processes.length = ps.length ∧
        ∀ f ∈ r.processes,
          f.arrival_time + f.burst_time ≤ f.finish_time ∧ f.burst_time ≤ f.turnaround_time ∧
            0 ≤ f.waiting_time) := by
  have h := waiting_nonneg_fcfs_srt sort hs ps hv g q
  refine ⟨fun hw => ?_, fun hw => ?_⟩
  · rw [machine_runFCFS_eq_of_noWrap sort (hs ps).1 hv hr hw]
    exact h.1
  · rw [machine_runSRT_eq_of_noWrap hv hr hw]
    exact h.2

/-- Witness for `machine_waiting_nonneg_fcfs_srt`: insertion sort and scenario 2. -/
theorem machine_waiting_nonneg_fcfs_srt_witness :
    StdSortContract insertionSort ∧ Valid scenario2 ∧ InRange scenario2 ∧
    Machine.fcfsNoWrap insertionSort scenario2 ∧
    Machine.srtNoWrap scenario2 (srtFuel scenario2) ∧
    ((Machine.runFCFS insertionSort
        { processes := scenario2, gantt_chart := [], quantum := 4 }).processes.length
          = scenario2.length ∧
      ∀ f ∈ (Machine.runFCFS insertionSort
          { processes := scenario2, gantt_chart := [], quantum := 4 }).processes,
        f.arrival_time + f.burst_time ≤ f.finish_time ∧ f.burst_time ≤ f.turnaround_time ∧
          0 ≤ f.waiting_time) ∧
    ∃ r, Machine.runSRT (srtFuel scenario2)
        { processes := scenario2, gantt_chart := [], quantum := 4 } = some r ∧
      r.processes.length = scenario2.length ∧
      ∀ f ∈ r.processes,
        f.arrival_time + f.burst_time ≤ f.finish_time ∧ f.burst_time ≤ f.turnaround_time ∧
          0 ≤ f.waiting_time :=
  ⟨insertionSort_contract, by decide, by decide, by decide, by decide,
    (machine_waiting_nonneg_fcfs_srt insertionSort insertionSort_contract scenario2
      (by decide) (by decide) [] 4).1 (by decide),
    (machine_waiting_nonneg_fcfs_srt insertionSort insertionSort_contract scenario2
      (by decide) (by decide) [] 4).2 (by decide)⟩

/-- C15 (as amended): for a valid, non-empty list of `int` values, after the
machine `runFCFS` (under any `std::sort` meeting the library contract) when its
clock does not overflow, and after the machine `runSRT` (which returns) when
its clock does not overflow, the makespan `max(finish_time)` equals
`sum(burst_time)` plus the total idle time (FCFS: the sum of the clock advances
to an arrival time; SRT: the number of loop iterations that find the ready set
empty); hence `sum(burst) <= makespan`, and
`100 * sum(burst) = 100 * makespan` iff the idle time is 0. -/
theorem machine_idle_time_accounting
    (sort : (Process → Process → Bool) → List Process → List Process)
    (hs : StdSortContract sort) (ps : List Process) (hv : Valid ps) (hr : InRange ps)
    (hne : ps ≠ []) (g : List (Int × Int)) (q : Int) :
    (Machine.fcfsNoWrap sort ps →
      completionTime
        (Machine.runFCFS sort { processes := ps, gantt_chart := g, quantum := q }).processes
        = sumBurst ps + Machine.fcfsIdle 0 (sort arrivalLess ps) ∧
      0 ≤ Machine.fcfsIdle 0 (sort arrivalLess ps) ∧
      sumBurst ps ≤ completionTime
        (Machine.runFCFS sort { processes := ps, gantt_chart := g, quantum := q }).processes ∧
      (100 * sumBurst ps = 100 * completionTime
        (Machine.runFCFS sort { processes := ps, gantt_chart := g, quantum := q }).processes
        ↔ Machine.fcfsIdle 0 (sort arrivalLess ps) = 0)) ∧
    (Machine.srtNoWrap ps (srtFuel ps) →
      ∃ r, Machine.runSRT (srtFuel ps) { processes := ps, gantt_chart := g, quantum := q }
          = some r ∧
        completionTime r.processes
          = sumBurst ps + (Machine.srtIdleUpto ps (srtFuel ps) : Int) ∧
        sumBurst ps ≤ completionTime r.processes ∧
        (100 * sumBurst ps = 100 * completionTime r.processes
          ↔ Machine.srtIdleUpto ps (srtFuel ps) = 0)) := by
  obtain ⟨hp, -⟩ := hs ps
  have h := idle_time_accounting sort hs ps hv hne g q
  refine ⟨fun hw => ?_, fun hw => ?_⟩
  · have hb : ∀ x ∈ sort arrivalLess ps, 0 ≤ x.burst_time := fun x hx =>
      le_of_lt (valid_mem hv (hp.mem_iff.1 hx)).2.2.1
    have hclock := fcfs_fit_of_noWrap sort hp hv hr hw
    rw [machine_runFCFS_eq_of_noWrap sort hp hv hr hw,
      machine_fcfsIdle_eq _ 0 (le_refl _) hb hclock]
    exact h.1
  · rw [machine_runSRT_eq_of_noWrap hv hr hw, machine_srtIdleUpto_eq hv hr hw]
    exact h.2

/-- Witness for `machine_idle_time_accounting`: insertion sort on `[(2,1),(5,2)]`,
where both algorithms idle for 4 time units and finish at 7. -/
theorem machine_idle_time_accounting_witness :
    StdSortContract insertionSort ∧ Valid gapInput ∧ InRange gapInput ∧ gapInput ≠ [] ∧
    Machine.fcfsNoWrap insertionSort gapInput ∧
    Machine.srtNoWrap gapInput (srtFuel gapInput) ∧
    Machine.fcfsIdle 0 (insertionSort arrivalLess gapInput) = 4 ∧
    Machine.srtIdleUpto gapInput (srtFuel gapInput) = 4 ∧
    completionTime (Machine.runFCFS insertionSort
      { processes := gapInput, gantt_chart := [], quantum := 1 }).processes
        = sumBurst gapInput + Machine.fcfsIdle 0 (insertionSort arrivalLess gapInput) ∧
    ∃ r, Machine.runSRT (srtFuel gapInput)
        { processes := gapInput, gantt_chart := [], quantum := 1 } = some r ∧
      completionTime r.processes
        = sumBurst gapInput + (Machine.srtIdleUpto gapInput (srtFuel gapInput) : Int) ∧
      sumBurst gapInput ≤ completionTime r.processes ∧
      (100 * sumBurst gapInput = 100 * completionTime r.processes
        ↔ Machine.srtIdleUpto gapInput (srtFuel gapInput) = 0) :=
  ⟨insertionSort_contract, by decide, by decide, by decide, by decide, by decide, by decide,
    by decide,
    ((machine_idle_time_accounting insertionSort insertionSort_contract gapInput (by decide)
      (by decide) (by decide) [] 1).1 (by decide)).1,
    (machine_idle_time_accounting insertionSort insertionSort_contract gapInput (by decide)
      (by decide) (by decide) [] 1).2 (by decide)⟩

/-! ## Inputs near the largest `int` -/

theorem scan_eq_nil {temp : List Process} {cond : Process → Bool}
    (h : ∀ p ∈ temp, cond p = false) : scan temp cond = [] := by
  apply List.eq_nil_iff_forall_not_mem.2
  intro i hi
  obtain ⟨p, hp, hc⟩ := mem_scan.1 hi
  rw [h p (List.getElem?_mem hp)] at hc
  exact Bool.noConfusion hc

/-- While the clock of the machine `runSRT` is below every arrival time, each
iteration only advances the clock by one. -/
theorem machine_srt_sweep (ps : List Process) (hne : ps ≠ []) (a : Int)
    (ha : a ≤ 2147483647) (h : ∀ p ∈ ps, a ≤ p.arrival_time) :
    ∀ k : Nat, (k : Int) ≤ a →
      Machine.srtAt ps k = { srtInit ps with current_time := (k : Int) }
  | 0, _ => by simp only [Machine.srtAt, Function.iterate_zero, id_eq, srtInit, Nat.cast_zero]
  | k + 1, hk => by
    have hk1 : ((k : Nat) : Int) + 1 ≤ a := by push_cast at hk; exact hk
    rw [machine_srtAt_succ, machine_srt_sweep ps hne a ha h k (by omega)]
    have hlen : 0 < ps.length := List.length_pos.2 hne
    have hscan : scan ps (fun p => p.arrival_time == (k : Int) && decide (0 < p.remaining_time))
        = [] := by
      apply scan_eq_nil
      intro p hp
      have := h p hp
      have hne2 : p.arrival_time ≠ (k : Int) := by omega
      simp [hne2]
    have hw : wrap32 ((k : Int) + 1) = (k : Int) + 1 :=
      wrap32_of_range (by omega) (by omega)
    simp only [Machine.srtTick, srtInit, hlen, if_true, Machine.srtStep, srtAdmit, hscan,
      List.filterMap_nil, List.append_nil, pqTop, hw, Nat.cast_add, Nat.cast_one]

/-- C1 (counterexample): on the valid one-process input `[(2147483647, 2)]` the
machine `runSRT` returns with the chart `[(2147483647, 1), (-2147483648, 1)]`:
`current_time++` leaves the range of `int`, so the second unit of P1 is charted
at time `-2147483648`, a time at which no process has arrived
(`arrival_time <= t` fails for P1). -/
theorem machine_srt_selection_counterexample :
    Valid (lateInput 2) ∧ InRange (lateInput 2) ∧
    Machine.runSRT (srtFuel (lateInput 2))
        { processes := lateInput 2, gantt_chart := [], quantum := 1 }
      = some { processes := [{ id := 1, arrival_time := 2147483647, burst_time := 2,
                               remaining_time := 2, finish_time := -2147483647,
                               waiting_time := 0, turnaround_time := 2 }],
               gantt_chart := [(2147483647, 1), (-2147483648, 1)], quantum := 1 } ∧
    (∀ p ∈ lateInput 2, ¬ p.arrival_time ≤ -2147483648) := by
  refine ⟨by decide, by decide, ?_, by decide⟩
  have hs := machine_srt_sweep (lateInput 2) (by decide) 2147483647 (le_refl _)
    (by decide) 2147483647 (by decide)
  have h2 : Machine.srtAt (lateInput 2) (2147483647 + 2)
      = { processes := [{ id := 1, arrival_time := 2147483647, burst_time := 2,
                          remaining_time := 2, finish_time := -2147483647,
                          waiting_time := 0, turnaround_time := 0 }],
          temp := [{ id := 1, arrival_time := 2147483647, burst_time := 2,
                     remaining_time := 0, finish_time := 0,
                     waiting_time := 0, turnaround_time := 0 }],
          pq := [], current_time := -2147483647, completed := 1,
          gantt_chart := [(2147483647, 1), (-2147483648, 1)] } := by
    rw [machine_srtAt_succ, machine_srtAt_succ, hs]
    decide
  have hf : srtFuel (lateInput 2) = 2147483647 + 2 := by decide
  have hl := machine_srtLoop_eq (2147483647 + 2) (srtInit (lateInput 2)) (by
    show ¬ (Machine.srtAt (lateInput 2) (2147483647 + 2)).completed
      < (Machine.srtAt (lateInput 2) (2147483647 + 2)).processes.length
    rw [h2]
    decide)
  have hl2 : Machine.srtLoop (2147483647 + 2) (srtInit (lateInput 2))
      = some (Machine.srtAt (lateInput 2) (2147483647 + 2)) := hl
  rw [h2] at hl2
  rw [hf]
  simp only [Machine.runSRT, hl2, Option.map_some']
  decide

/-- C6 (counterexample): on the valid one-process input `[(2147483647, 1)]` the
machine `runSRT` returns with the chart `[(2147483647, 1)]` and records
`finish_time = -2147483648` for P1, which is not one more than the time
`2147483647` of its last chart entry. -/
theorem machine_srt_finish_counterexample :
    Valid (lateInput 1) ∧ InRange (lateInput 1) ∧
    Machine.runSRT (srtFuel (lateInput 1))
        { processes := lateInput 1, gantt_chart := [], quantum := 1 }
      = some { processes := [{ id := 1, arrival_time := 2147483647, burst_time := 1,
                               remaining_time := 1, finish_time := -2147483648,
                               waiting_time := 0, turnaround_time := 1 }],
               gantt_chart := [(2147483647, 1)], quantum := 1 } ∧
    (-2147483648 : Int) ≠ 2147483647 + 1 := by
  refine ⟨by decide, by decide, ?_, by decide⟩
  have hs := machine_srt_sweep (lateInput 1) (by decide) 2147483647 (le_refl _)
    (by decide) 2147483647 (by decide)
  have h2 : Machine.srtAt (lateInput 1) (2147483647 + 1)
      = { processes := [{ id := 1, arrival_time := 2147483647, burst_time := 1,
                          remaining_time := 1, finish_time := -2147483648,
                          waiting_time := 0, turnaround_time := 0 }],
          temp := [{ id := 1, arrival_time := 2147483647, burst_time := 1,
                     remaining_time := 0, finish_time := 0,
                     waiting_time := 0, turnaround_time := 0 }],
          pq := [], current_time := -2147483648, completed := 1,
          gantt_chart := [(2147483647, 1)] } := by
    rw [machine_srtAt_succ, hs]
    decide
  have hf : srtFuel (lateInput 1) = 2147483647 + 1 := by decide
  have hl := machine_srtLoop_eq (2147483647 + 1) (srtInit (lateInput 1)) (by
    show ¬ (Machine.srtAt (lateInput 1) (2147483647 + 1)).completed
      < (Machine.srtAt (lateInput 1) (2147483647 + 1)).processes.length
    rw [h2]
    decide)
  have hl2 : Machine.srtLoop (2147483647 + 1) (srtInit (lateInput 1))
      = some (Machine.srtAt (lateInput 1) (2147483647 + 1)) := hl
  rw [h2] at hl2
  rw [hf]
  simp only [Machine.runSRT, hl2, Option.map_some']
  decide

/-- C3 (counterexample): on the valid input `[(0,2147483647),(0,1)]` the machine
`runFCFS` (with the library `std::sort`) charts P2 at `s_2 = 2147483647` and
records `finish_time = -2147483648` for it, not `s_2 + burst(P2) = 2147483648`. -/
theorem machine_fcfs_finish_counterexample :
    Valid bigInput ∧ InRange bigInput ∧
    (Machine.runFCFS stdSort
      { processes := bigInput, gantt_chart := [], quantum := 1 }).gantt_chart
        = [(0, 1), (2147483647, 2)] ∧
    finishOf (Machine.runFCFS stdSort
      { processes := bigInput, gantt_chart := [], quantum := 1 }).processes 2
        = -2147483648 ∧
    burstOf bigInput 2 = 1 ∧
    (-2147483648 : Int) ≠ 2147483647 + 1 := by
  decide

/-- C7 (counterexample): on the valid input `[(0,2147483647),(0,1)]` the machine
`runFCFS` (with the library `std::sort`) leaves P2 with
`finish_time = -2147483648 < arrival_time + burst_time = 1` and
`turnaround_time = -2147483648 < burst_time = 1`. -/
theorem machine_fcfs_turnaround_counterexample :
    Valid bigInput ∧ InRange bigInput ∧
    (Machine.runFCFS stdSort
      { processes := bigInput, gantt_chart := [], quantum := 1 }).processes
        = [{ id := 1, arrival_time := 0, burst_time := 2147483647,
             remaining_time := 2147483647, finish_time := 2147483647,
             waiting_time := 0, turnaround_time := 2147483647 },
           { id := 2, arrival_time := 0, burst_time := 1,
             remaining_time := 1, finish_time := -2147483648,
             waiting_time := 2147483647, turnaround_time := -2147483648 }] ∧
    (-2147483648 : Int) < 0 + 1 := by
  decide

/-- C15 (counterexample): on the valid, non-empty input `[(0,2147483647),(0,1)]`
the machine `runFCFS` (with the library `std::sort`) never idles, yet the
makespan `max(finish_time)` is `2147483647`, less than
`sum(burst_time) = 2147483648`. -/
theorem machine_fcfs_makespan_counterexample :
    Valid bigInput ∧ InRange bigInput ∧ bigInput ≠ [] ∧
    completionTime (Machine.runFCFS stdSort
      { processes := bigInput, gantt_chart := [], quantum := 1 }).processes = 2147483647 ∧
    Machine.fcfsIdle 0 (stdSort arrivalLess bigInput) = 0 ∧
    sumBurst bigInput = 2147483648 ∧
    completionTime (Machine.runFCFS stdSort
      { processes := bigInput, gantt_chart := [], quantum := 1 }).processes
        < sumBurst bigInput := by
  decide

/-! ## FCFS service order on the machine model -/

theorem machine_fcfs_fold_ids : ∀ (l : List Process) (s : FCFSState),
    (l.foldl Machine.fcfsStep s).gantt_chart.map Prod.snd
      = s.gantt_chart.map Prod.snd ++ l.map (fun p => p.id)
  | [], s => by simp only [List.foldl_nil, List.map_nil, List.append_nil]
  | p :: rest, s => by
    rw [List.foldl_cons, machine_fcfs_fold_ids rest (Machine.fcfsStep s p)]
    simp only [Machine.fcfsStep, List.map_append, List.map_cons, List.map_nil,
      List.append_assoc, List.singleton_append]

/-- C2 (as amended): whenever `std::sort` leaves the sorted copy a rearrangement
of the input in which no later element compares less than an earlier one (what
the library promises), the Gantt chart of the machine `runFCFS` on a valid
list has exactly N entries, its ids are a duplicate-free rearrangement of the
input ids (one entry per process), the ids follow the sorted copy, and arrival
times are non-decreasing along the chart. -/
theorem machine_fcfs_service_order
    (sort : (Process → Process → Bool) → List Process → List Process)
    (ps : List Process) (hv : Valid ps)
    (hp : (sort arrivalLess ps).Perm ps)
    (hsorted : (sort arrivalLess ps).Pairwise (fun a b => arrivalLess b a = false))
    (g : List (Int × Int)) (q : Int) :
    let G := (Machine.runFCFS sort
      { processes := ps, gantt_chart := g, quantum := q }).gantt_chart
    G.length = ps.length ∧
    G.map Prod.snd = (sort arrivalLess ps).map (fun p => p.id) ∧
    (G.map Prod.snd).Perm (ps.map (fun p => p.id)) ∧
    (G.map Prod.snd).Nodup ∧
    G.Pairwise (fun a b => arrivalOf ps a.2 ≤ arrivalOf ps b.2) := by
  have hids : ((Machine.runFCFS sort
      { processes := ps, gantt_chart := g, quantum := q }).gantt_chart).map Prod.snd
      = (sort arrivalLess ps).map (fun p => p.id) := by
    simp only [Machine.runFCFS, Machine.fcfsLoop, machine_fcfs_fold_ids, List.map_nil,
      List.nil_append]
  have hperm : ((sort arrivalLess ps).map (fun p => p.id)).Perm (ps.map (fun p => p.id)) :=
    hp.map _
  have hlen : ((Machine.runFCFS sort
      { processes := ps, gantt_chart := g, quantum := q }).gantt_chart).length = ps.length := by
    have := congrArg List.length hids
    rw [List.length_map, List.length_map, hp.length_eq] at this
    exact this
  have h1 : (sort arrivalLess ps).Pairwise
      (fun a b => arrivalOf ps a.id ≤ arrivalOf ps b.id) := by
    refine hsorted.imp_of_mem ?_
    intro a b ha hb hab
    rw [arrivalOf_mem hv (hp.mem_iff.1 ha), arrivalOf_mem hv (hp.mem_iff.1 hb)]
    simpa [arrivalLess] using hab
  have h2 : (((Machine.runFCFS sort
      { processes := ps, gantt_chart := g, quantum := q }).gantt_chart).map Prod.snd).Pairwise
      (fun a b => arrivalOf ps a ≤ arrivalOf ps b) := by
    rw [hids]
    exact List.pairwise_map.2 h1
  rw [List.pairwise_map] at h2
  refine ⟨hlen, hids, ?_, ?_, h2⟩
  · rw [hids]
    exact hperm
  · rw [hids]
    exact hperm.nodup_iff.2 (valid_ids_nodup hv)

/-- Witness for `machine_fcfs_service_order`: the library `std::sort` on seventeen
processes that all arrive at time 0. -/
theorem machine_fcfs_service_order_witness :
    Valid tie17 ∧ (stdSort arrivalLess tie17).Perm tie17 ∧
    (stdSort arrivalLess tie17).Pairwise (fun a b => arrivalLess b a = false) ∧
    (let G := (Machine.runFCFS stdSort
        { processes := tie17, gantt_chart := [], quantum := 4 }).gantt_chart
     G.length = tie17.length ∧
     G.map Prod.snd = (stdSort arrivalLess tie17).map (fun p => p.id) ∧
     (G.map Prod.snd).Perm (tie17.map (fun p => p.id)) ∧
     (G.map Prod.snd).Nodup ∧
     G.Pairwise (fun a b => arrivalOf tie17 a.2 ≤ arrivalOf tie17 b.2)) :=
  ⟨by decide, by decide, by decide,
    machine_fcfs_service_order stdSort tie17 (by decide) (by decide) (by decide) [] 4⟩

/-- C2 (counterexample): on the valid input of 17 processes that all arrive at
time 0 (ids 1..17 in input order), the machine `runFCFS` with the library
`std::sort` serves the processes in the order
9,17,16,15,14,13,12,11,10,1,8,7,6,5,4,3,2: P9 is served before P1 although both
arrive at time 0, so equal arrivals do not appear in increasing id order.  (The
quicksort phase of `std::sort` completes within its depth limit on this
input.) -/
theorem machine_fcfs_tie_order_counterexample :
    Valid tie17 ∧ InRange tie17 ∧ tie17.length = 17 ∧
    (∀ p ∈ tie17, p.arrival_time = 0) ∧
    (introsortLoop arrivalLess (2 * lgFloor 17 17) tie17 0 17).isSome = true ∧
    (Machine.runFCFS stdSort
      { processes := tie17, gantt_chart := [], quantum := 1 }).gantt_chart.map Prod.snd
        = [9, 17, 16, 15, 14, 13, 12, 11, 10, 1, 8, 7, 6, 5, 4, 3, 2] ∧
    (Machine.runFCFS stdSort
      { processes := tie17, gantt_chart := [], quantum := 1 }).gantt_chart.take 2
        = [(0, 9), (1, 17)] := by
  decide

/-! ## Metrics on the machine model -/

theorem machine_calculateMetrics_inputFields (l : List Process) :
    (Machine.calculateMetrics l).map Process.inputFields = l.map Process.inputFields := by
  simp only [Machine.calculateMetrics, List.map_map]
  apply List.map_congr_left
  intro p _
  simp only [Function.comp, Process.inputFields]

theorem machine_calculateMetrics_spec (l : List Process) :
    ∀ p ∈ Machine.calculateMetrics l,
      p.turnaround_time = wrap32 (p.finish_time - p.arrival_time) ∧
      p.waiting_time = wrap32 (p.turnaround_time - p.burst_time) := by
  intro p hp
  simp only [Machine.calculateMetrics, List.mem_map] at hp
  obtain ⟨x, -, rfl⟩ := hp
  simp only [and_self]

theorem machine_metricsOk_calculate {before l : List Process}
    (h : l.map Process.inputFields = before.map Process.inputFields) :
    Machine.MetricsOk before (Machine.calculateMetrics l) :=
  ⟨machine_calculateMetrics_spec l, (machine_calculateMetrics_inputFields l).trans h⟩

theorem machine_fcfs_fold_inputFields : ∀ (l : List Process) (s : FCFSState),
    (l.foldl Machine.fcfsStep s).processes.map Process.inputFields
      = s.processes.map Process.inputFields
  | [], _ => by simp only [List.foldl_nil]
  | p :: rest, s => by
    rw [List.foldl_cons, machine_fcfs_fold_inputFields rest (Machine.fcfsStep s p)]
    simp only [Machine.fcfsStep]
    exact setFinish_inputFields _ _ _

theorem machine_srtStep_inputFields (s : SRTState) :
    (Machine.srtStep s).processes.map Process.inputFields
      = s.processes.map Process.inputFields := by
  simp only [Machine.srtStep]
  split
  · simp only
  · split
    · simp only
    · split
      · exact setFinish_inputFields _ _ _
      · simp only

theorem machine_srtLoop_inputFields : ∀ (fuel : Nat) (s r : SRTState),
    Machine.srtLoop fuel s = some r →
    r.processes.map Process.inputFields = s.processes.map Process.inputFields
  | 0, s, r, h => by
    simp only [Machine.srtLoop] at h
    split at h
    · cases h
    · rw [← Option.some.inj h]
  | fuel + 1, s, r, h => by
    simp only [Machine.srtLoop] at h
    split at h
    · rw [machine_srtLoop_inputFields fuel _ r h, machine_srtStep_inputFields]
    · rw [← Option.some.inj h]

theorem machine_rrStep_inputFields (q : Int) (s : RRState) :
    (Machine.rrStep q s).processes.map Process.inputFields
      = s.processes.map Process.inputFields := by
  simp only [Machine.rrStep]
  split
  · simp only
  · split
    · simp only
    · split
      · exact setFinish_inputFields _ _ _
      · simp only

theorem machine_rrLoop_inputFields (q : Int) : ∀ (fuel : Nat) (s r : RRState),
    Machine.rrLoop q fuel s = some r →
    r.processes.map Process.inputFields = s.processes.map Process.inputFields
  | 0, s, r, h => by
    simp only [Machine.rrLoop] at h
    split at h
    · cases h
    · rw [← Option.some.inj h]
  | fuel + 1, s, r, h => by
    simp only [Machine.rrLoop] at h
    split at h
    · rw [machine_rrLoop_inputFields q fuel _ r h, machine_rrStep_inputFields]
    · rw [← Option.some.inj h]

theorem metricsOk_of_fit {before after : List Process}
    (h : Machine.MetricsOk before after) (hfit : MetricsFit after) :
    MetricsOk before after := by
  have hrec : ∀ p ∈ after, p.turnaround_time = p.finish_time - p.arrival_time ∧
      p.waiting_time = p.turnaround_time - p.burst_time := by
    intro p hp
    obtain ⟨h1, h2⟩ := h.1 p hp
    obtain ⟨f1, f2, f3, f4⟩ := hfit p hp
    have e1 : p.turnaround_time = p.finish_time - p.arrival_time := by
      rw [h1]
      exact wrap32_of_range f1 f2
    refine ⟨e1, ?_⟩
    rw [h2]
    exact wrap32_of_range (by omega) (by omega)
  exact ⟨hrec, sum_accounting _ (fun p hp => (hrec p hp).2), h.2⟩

/-- C14 (as amended): after the machine `runFCFS` (under any sort function), and
after the machine `runSRT` or `runRR` whenever they return, every record has
`turnaround_time` equal to the `int` result of `finish_time - arrival_time` and
`waiting_time` equal to the `int` result of `turnaround_time - burst_time`, and
id, arrival time, burst time and the canonical remaining time of every process
are unchanged.  Whenever both differences fit an `int` on every record they are
the exact differences and `sum(waiting) + sum(burst) = sum(turnaround)`; this is
the case after `runFCFS` (under a `std::sort` meeting the library contract) and
after `runSRT` (which returns) on a valid list of `int` values when
`current_time` does not overflow during the run. -/
theorem machine_metrics_accounting
    (sort : (Process → Process → Bool) → List Process → List Process)
    (s : Scheduler) (fuel : Nat) :
    Machine.MetricsOk s.processes (Machine.runFCFS sort s).processes ∧
    (∀ r, Machine.runSRT fuel s = some r → Machine.MetricsOk s.processes r.processes) ∧
    (∀ r, Machine.runRR fuel s = some r → Machine.MetricsOk s.processes r.processes) ∧
    (∀ after, Machine.MetricsOk s.processes after → MetricsFit after →
      MetricsOk s.processes after) ∧
    (StdSortContract sort → Valid s.processes → InRange s.processes →
      (Machine.fcfsNoWrap sort s.processes →
        MetricsOk s.processes (Machine.runFCFS sort s).processes) ∧
      (Machine.srtNoWrap s.processes (srtFuel s.processes) →
        ∃ r, Machine.runSRT (srtFuel s.processes) s = some r ∧
          MetricsOk s.processes r.processes)) := by
  refine ⟨?_, ?_, ?_, ?_, ?_⟩
  · exact machine_metricsOk_calculate (machine_fcfs_fold_inputFields _ _)
  · intro r hr
    simp only [Machine.runSRT] at hr
    cases hl : Machine.srtLoop fuel (srtInit s.processes) with
    | none => simp [hl] at hr
    | some fin =>
      rw [hl] at hr
      simp only [Option.map_some', Option.some.injEq] at hr
      subst hr
      exact machine_metricsOk_calculate (machine_srtLoop_inputFields fuel _ fin hl)
  · intro r hr
    simp only [Machine.runRR] at hr
    cases hl : Machine.rrLoop s.quantum fuel (rrInit s.processes) with
    | none => simp [hl] at hr
    | some fin =>
      rw [hl] at hr
      simp only [Option.map_some', Option.some.injEq] at hr
      subst hr
      exact machine_metricsOk_calculate (machine_rrLoop_inputFields s.quantum fuel _ fin hl)
  · intro after h hfit
    exact metricsOk_of_fit h hfit
  · obtain ⟨ps, g, q⟩ := s
    intro hs hv hr
    simp only at hv hr ⊢
    have hm := metrics_accounting sort { processes := ps, gantt_chart := g, quantum := q }
      (srtFuel ps)
    refine ⟨fun hw => ?_, fun hw => ?_⟩
    · rw [machine_runFCFS_eq_of_noWrap sort (hs ps).1 hv hr hw]
      exact hm.1
    · rw [machine_runSRT_eq_of_noWrap hv hr hw]
      obtain ⟨fin, -, h2, -⟩ := srt_terminates_when_done ps hv g q
      exact ⟨_, h2, hm.2.1 _ h2⟩

/-- Witness for `machine_metrics_accounting`: scenario 1 with quantum 4, where the
machine `runRR` returns on 16 iterations. -/
theorem machine_metrics_accounting_witness :
    (∃ r, Machine.runRR 16 { processes := scenario1, gantt_chart := [], quantum := 4 }
        = some r ∧ Machine.MetricsOk scenario1 r.processes) ∧
    StdSortContract insertionSort ∧ Valid scenario1 ∧ InRange scenario1 ∧
    Machine.fcfsNoWrap insertionSort scenario1 ∧
    Machine.srtNoWrap scenario1 (srtFuel scenario1) ∧
    MetricsOk scenario1
      (Machine.runFCFS insertionSort
        { processes := scenario1, gantt_chart := [], quantum := 4 }).processes ∧
    ∃ r, Machine.runSRT (srtFuel scenario1)
        { processes := scenario1, gantt_chart := [], quantum := 4 } = some r ∧
      MetricsOk scenario1 r.processes := by
  have h := machine_metrics_accounting insertionSort
    { processes := scenario1, gantt_chart := [], quantum := 4 } 16
  obtain ⟨-, -, h3, -, h5⟩ := h
  have i3 : (Machine.runRR 16
      { processes := scenario1, gantt_chart := [], quantum := 4 }).isSome = true := by decide
  obtain ⟨r3, hr3⟩ := Option.isSome_iff_exists.1 i3
  have h6 := h5 insertionSort_contract (by decide) (by decide)
  exact ⟨⟨r3, hr3, h3 r3 hr3⟩, insertionSort_contract, by decide, by decide, by decide,
    by decide, h6.1 (by decide), h6.2 (by decide)⟩

/-- C14 (counterexample): on the valid input `[(1, 2147483647)]` the machine
`runFCFS` records `finish_time = -2147483648` and `turnaround_time = 2147483647`,
which is not `finish_time - arrival_time = -2147483649`; on the valid input
`[(0,2147483647),(0,1)]` it leaves P2 with `turnaround_time = -2147483648`,
`burst_time = 1` and `waiting_time = 2147483647`, which is not
`turnaround_time - burst_time`; and on the valid input
`[(0,3),(2,1),(2147483647,2)]` with quantum 2 the machine `runRR` returns with
P3 at `finish_time = 0`, `turnaround_time = -2147483647` and
`waiting_time = 2147483647`, which is not `turnaround_time - burst_time`
either. -/
theorem machine_metrics_counterexample :
    Valid wrapInput ∧ InRange wrapInput ∧ InRange bigInput ∧ InRange rrLate3 ∧
    (Machine.runFCFS stdSort
      { processes := wrapInput, gantt_chart := [], quantum := 1 }).processes
        = [{ id := 1, arrival_time := 1, burst_time := 2147483647,
             remaining_time := 2147483647, finish_time := -2147483648,
             waiting_time := 0, turnaround_time := 2147483647 }] ∧
    (2147483647 : Int) ≠ -2147483648 - 1 ∧
    Valid bigInput ∧
    (Machine.runFCFS stdSort
      { processes := bigInput, gantt_chart := [], quantum := 1 }).processes[1]?
        = some { id := 2, arrival_time := 0, burst_time := 1,
                 remaining_time := 1, finish_time := -2147483648,
                 waiting_time := 2147483647, turnaround_time := -2147483648 } ∧
    Valid rrLate3 ∧
    (Machine.runRR 4 { processes := rrLate3, gantt_chart := [], quantum := 2 }).map
        (fun r => r.processes[2]?)
      = some (some { id := 3, arrival_time := 2147483647, burst_time := 2,
                     remaining_time := 2, finish_time := 0,
                     waiting_time := 2147483647, turnaround_time := -2147483647 }) ∧
    (2147483647 : Int) ≠ -2147483647 - 2 := by
  decide

/-! ## Round-Robin on the machine model: the loop invariant -/

theorem sum_map_set (f : Process → Int) : ∀ (l : List Process) (i : Nat) (p a : Process),
    l[i]? = some p → ((l.set i a).map f).sum = (l.map f).sum - f p + f a
  | [], _, _, _, h => by simp at h
  | x :: xs, 0, p, a, h => by
    simp at h
    subst h
    simp only [List.set_cons_zero, List.map_cons, List.sum_cons]
    omega
  | x :: xs, i + 1, p, a, h => by
    have := sum_map_set f xs i p a (by simpa using h)
    simp only [List.set_cons_succ, List.map_cons, List.sum_cons, this]
    omega

theorem zeros_set {l : List Process} {i : Nat} {p : Process} (hp : l[i]? = some p)
    (a : Process) :
    zeros (l.set i a) = zeros l - (if p.remaining_time = 0 then (1 : Int) else 0)
      + (if a.remaining_time = 0 then (1 : Int) else 0) :=
  sum_map_set _ l i p a hp

theorem zeros_nonneg : ∀ l : List Process, 0 ≤ zeros l
  | [] => by simp [zeros]
  | x :: xs => by
    have := zeros_nonneg xs
    simp only [zeros] at this
    simp only [zeros, List.map_cons, List.sum_cons]
    split <;> omega

theorem length_le_zeros_add : ∀ l : List Process, (∀ p ∈ l, 0 ≤ p.remaining_time) →
    (l.length : Int) ≤ zeros l + sumRemaining l
  | [], _ => by simp [zeros, sumRemaining]
  | x :: xs, h => by
    have ih := length_le_zeros_add xs (fun p hp => h p (List.mem_cons_of_mem _ hp))
    have hx := h x (List.mem_cons_self _ _)
    simp only [zeros, sumRemaining] at ih
    simp only [zeros, sumRemaining, List.map_cons, List.sum_cons, List.length_cons,
      Nat.cast_add, Nat.cast_one]
    split <;> omega

theorem zeros_of_all : ∀ l : List Process, (∀ p ∈ l, p.remaining_time = 0) →
    zeros l = (l.length : Int)
  | [], _ => by simp [zeros]
  | x :: xs, h => by
    have ih := zeros_of_all xs (fun p hp => h p (List.mem_cons_of_mem _ hp))
    have hx := h x (List.mem_cons_self _ _)
    simp only [zeros] at ih
    simp only [zeros, List.map_cons, List.sum_cons, List.length_cons, Nat.cast_add,
      Nat.cast_one, hx, if_true, ih]
    omega

theorem zeros_of_valid {ps : List Process} (hv : Valid ps) : zeros ps = 0 := by
  have key : ∀ l : List Process, (∀ p ∈ l, p.remaining_time ≠ 0) → zeros l = 0 := by
    intro l
    induction l with
    | nil => intro _; simp [zeros]
    | cons x xs ih =>
      intro h
      have hx := h x (List.mem_cons_self _ _)
      have := ih (fun p hp => h p (List.mem_cons_of_mem _ hp))
      simp only [zeros] at this
      simp only [zeros, List.map_cons, List.sum_cons, if_neg hx, this]
      omega
  apply key
  intro p hp
  have := valid_mem hv hp
  omega

theorem sumRemaining_of_valid {ps : List Process} (hv : Valid ps) :
    sumRemaining ps = sumBurst ps := by
  simp only [sumRemaining, sumBurst]
  congr 1
  exact List.map_congr_left (fun p hp => (valid_mem hv hp).2.2.2)

/-- What the invariant says of one record of `temp`. -/
theorem machine_rr_record {ps : List Process} {s : RRState} (hv : Valid ps)
    (hr : InRange ps) (h : Machine.RRInv ps s) {i : Nat} {p : Process}
    (hp : s.temp[i]? = some p) :
    p.id = (i : Int) + 1 ∧ (i : Int) + 1 ≤ 2147483647 ∧ 0 ≤ p.arrival_time ∧
      p.arrival_time ≤ 2147483647 ∧ 0 < p.burst_time ∧ p.burst_time ≤ 2147483647 ∧
      0 ≤ p.remaining_time ∧ p.remaining_time ≤ p.burst_time := by
  obtain ⟨p0, h0, e0⟩ := h.static i p hp
  obtain ⟨v1, v2, v3, -⟩ := valid_get hv h0
  obtain ⟨r1, r2⟩ := hr
  obtain ⟨r3, r4⟩ := r2 p0 (List.getElem?_mem h0)
  obtain ⟨m1, m2⟩ := h.rem_range i p hp
  have hi : i < ps.length := (List.getElem?_eq_some.1 h0).1
  have hid : p.id = p0.id := by rw [e0]
  have ha : p.arrival_time = p0.arrival_time := by rw [e0]
  have hb : p.burst_time = p0.burst_time := by rw [e0]
  unfold INT_MAX at r1 r3 r4
  refine ⟨by omega, by omega, by omega, by omega, by omega, by omega, m1, m2⟩

theorem machine_rrAdmit_valid {ps : List Process} {s : RRState} (h : Machine.RRInv ps s)
    {i : Nat} (hi : i ∈ rrAdmit s) : i < s.temp.length := by
  unfold rrAdmit at hi
  rcases List.mem_append.1 hi with hi | hi
  · exact h.rq_valid i hi
  · obtain ⟨p, hp, -⟩ := mem_scan.1 hi
    exact (List.getElem?_eq_some.1 hp).1

/-- Shape of one iteration of the machine `runRR`: the queue is empty after the
arrival scan and only the clock moves, or the front process is dispatched;
`remaining_time -= execute_time` and `id - 1` never overflow. -/
theorem machine_rr_step_cases {ps : List Process} {s : RRState} {q : Int} (hq : 0 < q)
    (hv : Valid ps) (hr : InRange ps) (h : Machine.RRInv ps s) :
    (rrAdmit s = [] ∧
      Machine.rrStep q s
        = { s with rq := [], current_time := wrap32 (s.current_time + 1) }) ∨
    (∃ (cur : Nat) (rest : List Nat) (p : Process), rrAdmit s = cur :: rest ∧
      s.temp[cur]? = some p ∧
      Machine.rrStep q s =
        if p.remaining_time - min q p.remaining_time = 0 then
          { processes := setFinish s.processes (p.id - 1).toNat
              (wrap32 (s.current_time + min q p.remaining_time)),
            temp := s.temp.set cur
              { p with remaining_time := p.remaining_time - min q p.remaining_time },
            rq := rest,
            current_time := wrap32 (s.current_time + min q p.remaining_time),
            completed := s.completed + 1,
            gantt_chart := s.gantt_chart ++ [(s.current_time, p.id)] }
        else
          { processes := s.processes,
            temp := s.temp.set cur
              { p with remaining_time := p.remaining_time - min q p.remaining_time },
            rq := rest ++ Machine.rrSliceArrivals
                (s.temp.set cur
                  { p with remaining_time := p.remaining_time - min q p.remaining_time })
                (wrap32 (s.current_time + min q p.remaining_time))
                (min q p.remaining_time) ++ [cur],
            current_time := wrap32 (s.current_time + min q p.remaining_time),
            completed := s.completed,
            gantt_chart := s.gantt_chart ++ [(s.current_time, p.id)] }) := by
  cases hadm : rrAdmit s with
  | nil =>
    left
    refine ⟨rfl, ?_⟩
    simp only [Machine.rrStep, hadm]
  | cons cur rest =>
    right
    have hlt : cur < s.temp.length :=
      machine_rrAdmit_valid h (by rw [hadm]; exact List.mem_cons_self _ _)
    have hp : s.temp[cur]? = some s.temp[cur] := List.getElem?_eq_getElem hlt
    obtain ⟨f1, f2, f3, f4, f5, f6, f7, f8⟩ := machine_rr_record hv hr h hp
    have hmin1 : min q s.temp[cur].remaining_time ≤ s.temp[cur].remaining_time :=
      min_le_right _ _
    have hmin2 : 0 ≤ min q s.temp[cur].remaining_time := le_min (le_of_lt hq) f7
    have e1 : wrap32 (s.temp[cur].remaining_time - min q s.temp[cur].remaining_time)
        = s.temp[cur].remaining_time - min q s.temp[cur].remaining_time :=
      wrap32_of_range (by omega) (by omega)
    have e2 : wrap32 (s.temp[cur].id - 1) = s.temp[cur].id - 1 :=
      wrap32_of_range (by omega) (by omega)
    refine ⟨cur, rest, s.temp[cur], rfl, hp, ?_⟩
    simp only [Machine.rrStep, hadm, hp, e1, e2]

theorem machine_rrInv_init {ps : List Process} (hv : Valid ps) :
    Machine.RRInv ps (rrInit ps) where
  len_temp := rfl
  len_proc := rfl
  static := fun i p hp => ⟨p, hp, rfl⟩
  rem_range := fun i p hp => by
    have := valid_get hv hp
    omega
  rq_valid := fun i hi => by simp [rrInit] at hi
  clock_lo := by simp [rrInit]
  clock_hi := by simp [rrInit]
  zeros_le := by simp [rrInit, zeros_of_valid hv]
  completed_le := by simp [rrInit]
  chart_le := by simp [rrInit, zeros_of_valid hv, sumRemaining_of_valid hv]

theorem machine_rrInv_step {ps : List Process} {s : RRState} {q : Int} (hq : 0 < q)
    (hv : Valid ps) (hr : InRange ps) (h : Machine.RRInv ps s)
    (hg : s.completed < s.processes.length) : Machine.RRInv ps (Machine.rrStep q s) := by
  have hN := h.len_proc
  rcases machine_rr_step_cases hq hv hr h with ⟨-, hstep⟩ | ⟨cur, rest, p, hadm, hp, hstep⟩
  · rw [hstep]
    exact
      { len_temp := h.len_temp
        len_proc := h.len_proc
        static := h.static
        rem_range := h.rem_range
        rq_valid := fun i hi => by simp at hi
        clock_lo := (wrap32_bounds _).1
        clock_hi := (wrap32_bounds _).2
        zeros_le := h.zeros_le
        completed_le := h.completed_le
        chart_le := h.chart_le }
  · obtain ⟨f1, f2, f3, f4, f5, f6, f7, f8⟩ := machine_rr_record hv hr h hp
    have hmin1 : min q p.remaining_time ≤ p.remaining_time := min_le_right _ _
    have hmin2 : 0 ≤ min q p.remaining_time := le_min (le_of_lt hq) f7
    have hmin3 : min q p.remaining_time = q ∨ min q p.remaining_time = p.remaining_time :=
      min_choice _ _
    have hT : (Machine.rrStep q s).temp = s.temp.set cur
        { p with remaining_time := p.remaining_time - min q p.remaining_time } := by
      rw [hstep]; split <;> simp only
    have hC : (Machine.rrStep q s).current_time
        = wrap32 (s.current_time + min q p.remaining_time) := by
      rw [hstep]; split <;> simp only
    have hG : (Machine.rrStep q s).gantt_chart.length = s.gantt_chart.length + 1 := by
      rw [hstep]; split <;> simp
    have hrest : ∀ i ∈ rest, i < s.temp.length := fun i hi =>
      machine_rrAdmit_valid h (by rw [hadm]; exact List.mem_cons_of_mem _ hi)
    have hcur : cur < s.temp.length := (List.getElem?_eq_some.1 hp).1
    have hsum := sumRemaining_set s.temp cur p
      { p with remaining_time := p.remaining_time - min q p.remaining_time } hp
    have hzero := zeros_set hp
      { p with remaining_time := p.remaining_time - min q p.remaining_time }
    simp only at hsum hzero
    have hz0 := h.zeros_le
    have hc0 := h.chart_le
    have hcl := h.completed_le
    have hi0 : ∃ a : Int, (if p.remaining_time = 0 then (1 : Int) else 0) = a ∧
        ((p.remaining_time = 0 ∧ a = 1) ∨ (p.remaining_time ≠ 0 ∧ a = 0)) := by
      by_cases hz : p.remaining_time = 0
      · exact ⟨1, by simp [hz], Or.inl ⟨hz, rfl⟩⟩
      · exact ⟨0, by simp [hz], Or.inr ⟨hz, rfl⟩⟩
    have hi1 : ∃ a : Int,
        (if p.remaining_time - min q p.remaining_time = 0 then (1 : Int) else 0) = a ∧
        ((p.remaining_time - min q p.remaining_time = 0 ∧ a = 1) ∨
          (p.remaining_time - min q p.remaining_time ≠ 0 ∧ a = 0)) := by
      by_cases hz : p.remaining_time - min q p.remaining_time = 0
      · exact ⟨1, by simp [hz], Or.inl ⟨hz, rfl⟩⟩
      · exact ⟨0, by simp [hz], Or.inr ⟨hz, rfl⟩⟩
    obtain ⟨a0, ha0, hcase0⟩ := hi0
    obtain ⟨a1, ha1, hcase1⟩ := hi1
    rw [ha0, ha1] at hzero
    have hK : ((Machine.rrStep q s).completed : Int) = (s.completed : Int) + a1 := by
      rw [hstep]
      split
      · rename_i hz
        simp only [Nat.cast_add, Nat.cast_one]
        omega
      · rename_i hz
        simp only
        omega
    have hgN : (s.completed : Int) < (ps.length : Int) := by
      rw [hN] at hg
      exact_mod_cast hg
    refine
      { len_temp := by rw [hT]; simpa using h.len_temp
        len_proc := ?_
        static := fun j x hx => ?_
        rem_range := fun j x hx => ?_
        rq_valid := fun i hi => ?_
        clock_lo := by rw [hC]; exact (wrap32_bounds _).1
        clock_hi := by rw [hC]; exact (wrap32_bounds _).2
        zeros_le := ?_
        completed_le := ?_
        chart_le := ?_ }
    · rw [hstep]; split
      · simp only [setFinish_length]; exact h.len_proc
      · exact h.len_proc
    · rw [hT] at hx
      rcases get_set_cases hx with ⟨rfl, rfl⟩ | ⟨-, hx2⟩
      · obtain ⟨p0, h0, e0⟩ := h.static _ p hp
        refine ⟨p0, h0, ?_⟩
        rw [e0]
      · exact h.static j x hx2
    · rw [hT] at hx
      rcases get_set_cases hx with ⟨rfl, rfl⟩ | ⟨-, hx2⟩
      · simp only
        omega
      · exact h.rem_range j x hx2
    · rw [hT, List.length_set]
      rw [hstep] at hi
      split at hi
      · exact hrest i hi
      · simp only [List.mem_append, List.mem_singleton] at hi
        rcases hi with (hi | hi) | hi
        · exact hrest i hi
        · obtain ⟨y, hy, -⟩ := mem_scan.1 hi
          have := (List.getElem?_eq_some.1 hy).1
          rw [List.length_set] at this
          exact this
        · rw [hi]; exact hcur
    · rw [hT, hzero, hK]
      omega
    · have : ((Machine.rrStep q s).completed : Int) ≤ (ps.length : Int) := by
        rw [hK]
        omega
      exact_mod_cast this
    · rw [hG, hT, hzero, hsum, hK]
      push_cast
      omega

theorem machine_rrAt_succ (q : Int) (ps : List Process) (n : Nat) :
    Machine.rrAt q ps (n + 1) = Machine.rrTick q (Machine.rrAt q ps n) :=
  Function.iterate_succ_apply' _ _ _

theorem machine_rrInv_at {ps : List Process} {q : Int} (hq : 0 < q) (hv : Valid ps)
    (hr : InRange ps) : ∀ n : Nat, Machine.RRInv ps (Machine.rrAt q ps n)
  | 0 => machine_rrInv_init hv
  | n + 1 => by
    rw [machine_rrAt_succ]
    unfold Machine.rrTick
    split
    · exact machine_rrInv_step hq hv hr (machine_rrInv_at hq hv hr n) (by assumption)
    · exact machine_rrInv_at hq hv hr n

/-! ## Round-Robin on the machine model: termination -/

theorem machine_rrIdleDist_lt (s : RRState) : Machine.rrIdleDist s < 4294967296 := by
  unfold Machine.rrIdleDist
  split <;> omega

theorem machine_sumRemaining_nonneg {ps : List Process} {s : RRState}
    (h : Machine.RRInv ps s) : 0 ≤ sumRemaining s.temp := by
  apply sumRemaining_nonneg
  intro p hp
  obtain ⟨i, hi⟩ := List.getElem?_of_mem hp
  exact (h.rem_range i p hi).1

/-- Every iteration of the machine `runRR` lowers the termination measure: a
dispatch lowers the work and completions still to come, an idle iteration
brings the clock one unit closer to the arrival of an unfinished process. -/
theorem machine_rr_measure_step {ps : List Process} {s : RRState} {q : Int} (hq : 0 < q)
    (hv : Valid ps) (hr : InRange ps) (h : Machine.RRInv ps s)
    (hg : s.completed < s.processes.length) :
    Machine.rrMeasure ps (Machine.rrStep q s) < Machine.rrMeasure ps s := by
  have hN := h.len_proc
  have hgN : (s.completed : Int) < (ps.length : Int) := by
    rw [hN] at hg
    exact_mod_cast hg
  have hs0 := machine_sumRemaining_nonneg h
  rcases machine_rr_step_cases hq hv hr h with ⟨hnil, hstep⟩ | ⟨cur, rest, p, hadm, hp, hstep⟩
  · rw [hstep]
    unfold Machine.rrMeasure Machine.rrIdleDist
    simp only
    cases hfind : s.temp.find? (fun p => decide (p.remaining_time ≠ 0)) with
    | none =>
      exfalso
      have hall : ∀ p ∈ s.temp, p.remaining_time = 0 := by
        intro p hp
        have := List.find?_eq_none.1 hfind p hp
        simpa using this
      have hz := zeros_of_all s.temp hall
      have hz2 := h.zeros_le
      have hl := h.len_temp
      rw [hz, hl] at hz2
      omega
    | some x =>
      have hx : x ∈ s.temp := List.mem_of_find?_eq_some hfind
      have hxr : x.remaining_time ≠ 0 := by
        have := List.find?_some hfind
        simpa using this
      obtain ⟨i, hi⟩ := List.getElem?_of_mem hx
      obtain ⟨f1, f2, f3, f4, f5, f6, f7, f8⟩ := machine_rr_record hv hr h hi
      have hne : x.arrival_time ≠ s.current_time := by
        intro heq
        have hmem : i ∈ rrAdmit s := by
          unfold rrAdmit
          apply List.mem_append_right
          apply mem_scan.2
          refine ⟨x, hi, ?_⟩
          simp only [Bool.and_eq_true, beq_iff_eq, decide_eq_true_eq]
          exact ⟨heq, by omega⟩
        rw [hnil] at hmem
        exact List.not_mem_nil _ hmem
      have hlo := h.clock_lo
      have hhi := h.clock_hi
      simp only
      unfold wrap32
      omega
  · obtain ⟨f1, f2, f3, f4, f5, f6, f7, f8⟩ := machine_rr_record hv hr h hp
    have hmin1 : min q p.remaining_time ≤ p.remaining_time := min_le_right _ _
    have hmin2 : 0 ≤ min q p.remaining_time := le_min (le_of_lt hq) f7
    have hmin3 : min q p.remaining_time = q ∨ min q p.remaining_time = p.remaining_time :=
      min_choice _ _
    have hT : (Machine.rrStep q s).temp = s.temp.set cur
        { p with remaining_time := p.remaining_time - min q p.remaining_time } := by
      rw [hstep]; split <;> simp only
    have hsum := sumRemaining_set s.temp cur p
      { p with remaining_time := p.remaining_time - min q p.remaining_time } hp
    simp only at hsum
    have hK : ((Machine.rrStep q s).completed : Int) = (s.completed : Int) + 1 ∨
        (((Machine.rrStep q s).completed : Int) = (s.completed : Int) ∧
          1 ≤ min q p.remaining_time) := by
      rw [hstep]
      split
      · left
        simp only [Nat.cast_add, Nat.cast_one]
      · right
        rename_i hz
        simp only [true_and]
        omega
    have hd := machine_rrIdleDist_lt (Machine.rrStep q s)
    unfold Machine.rrMeasure
    rw [hT, hsum]
    rcases hK with hK | ⟨hK, he⟩
    · rw [hK]
      omega
    · rw [hK]
      omega

theorem machine_rrLoop_done (q : Int) (fuel : Nat) {s : RRState}
    (h : ¬ s.completed < s.processes.length) : Machine.rrLoop q fuel s = some s := by
  cases fuel <;> simp [Machine.rrLoop, h]

theorem machine_rrLoop_terminates_aux {ps : List Process} {q : Int} (hq : 0 < q)
    (hv : Valid ps) (hr : InRange ps) : ∀ (m : Nat) (s : RRState),
    Machine.RRInv ps s → Machine.rrMeasure ps s ≤ m →
    ∃ fin, (∀ fuel, m ≤ fuel → Machine.rrLoop q fuel s = some fin) ∧
      Machine.RRInv ps fin ∧ ¬ fin.completed < fin.processes.length
  | 0, s, h, hm => by
    by_cases hg : s.completed < s.processes.length
    · exfalso
      have hs0 := machine_sumRemaining_nonneg h
      have hgN : (s.completed : Int) < (ps.length : Int) := by
        rw [h.len_proc] at hg
        exact_mod_cast hg
      unfold Machine.rrMeasure at hm
      omega
    · exact ⟨s, fun fuel _ => machine_rrLoop_done q fuel hg, h, hg⟩
  | m + 1, s, h, hm => by
    by_cases hg : s.completed < s.processes.length
    · have hlt := machine_rr_measure_step hq hv hr h hg
      obtain ⟨fin, hf, hinv, hd⟩ := machine_rrLoop_terminates_aux hq hv hr m
        (Machine.rrStep q s) (machine_rrInv_step hq hv hr h hg) (by omega)
      refine ⟨fin, ?_, hinv, hd⟩
      intro fuel hfuel
      obtain ⟨f, rfl⟩ : ∃ f, fuel = f + 1 := ⟨fuel - 1, by omega⟩
      simp only [Machine.rrLoop, hg, if_true]
      exact hf f (by omega)
    · exact ⟨s, fun fuel _ => machine_rrLoop_done q fuel hg, h, hg⟩

theorem machine_rrMeasure_init {ps : List Process} (hv : Valid ps) :
    Machine.rrMeasure ps (rrInit ps) ≤ Machine.rrFuel ps := by
  have hd := machine_rrIdleDist_lt (rrInit ps)
  have hs := sumBurst_nonneg ps (fun p hp => le_of_lt (valid_mem hv hp).2.2.1)
  have e := sumRemaining_of_valid hv
  unfold Machine.rrMeasure Machine.rrFuel
  simp only [rrInit] at hd ⊢
  rw [e]
  simp only [Nat.cast_zero, sub_zero]
  omega

/-- C4: for every valid list of `int` values and every quantum > 0, the loop of
the machine `runRR` stops: from `Machine.rrFuel ps` iterations on it returns one
and the same final state, in which the guard `completed < N` is false, and
`runRR` returns; the Gantt chart then has at most `sum(burst_time)` entries
(dispatches). -/
theorem machine_rr_terminates (ps : List Process) (hv : Valid ps) (hr : InRange ps)
    (q : Int) (hq : 0 < q) (g : List (Int × Int)) :
    ∃ fin : RRState,
      (∀ fuel, Machine.rrFuel ps ≤ fuel →
        Machine.rrLoop q fuel (rrInit ps) = some fin) ∧
      (∀ fuel, Machine.rrFuel ps ≤ fuel →
        Machine.runRR fuel { processes := ps, gantt_chart := g, quantum := q }
          = some { processes := Machine.calculateMetrics fin.processes,
                   gantt_chart := fin.gantt_chart, quantum := q }) ∧
      ¬ fin.completed < fin.processes.length ∧
      (fin.gantt_chart.length : Int) ≤ sumBurst ps := by
  obtain ⟨fin, hf, hinv, hd⟩ := machine_rrLoop_terminates_aux hq hv hr (Machine.rrFuel ps)
    (rrInit ps) (machine_rrInv_init hv) (machine_rrMeasure_init hv)
  refine ⟨fin, hf, ?_, hd, ?_⟩
  · intro fuel hfuel
    simp only [Machine.runRR, hf fuel hfuel, Option.map_some']
  · have h1 := hinv.chart_le
    have h2 := hinv.completed_le
    have h3 := length_le_zeros_add fin.temp (fun p hp => by
      obtain ⟨i, hi⟩ := List.getElem?_of_mem hp
      exact (hinv.rem_range i p hi).1)
    have h4 := hinv.len_temp
    rw [h4] at h3
    omega

/-! ## Round-Robin: the machine run equals the exact run while the clock has not
overflowed -/

theorem machine_rrStep_eq {ps : List Process} {s : RRState} {q : Int} (hq : 0 < q)
    (hv : Valid ps) (hr : InRange ps) (h : Machine.RRInv ps s)
    (hle : s.current_time ≤ (Machine.rrStep q s).current_time) :
    Machine.rrStep q s = rrStep q s := by
  have hlo := h.clock_lo
  have hhi := h.clock_hi
  rcases machine_rr_step_cases hq hv hr h with ⟨hnil, hstep⟩ | ⟨cur, rest, p, hadm, hp, hstep⟩
  · have hC : (Machine.rrStep q s).current_time = wrap32 (s.current_time + 1) := by
      rw [hstep]
    rw [hC] at hle
    have hfit : s.current_time + 1 ≤ 2147483647 := by
      unfold wrap32 at hle
      omega
    have ew : wrap32 (s.current_time + 1) = s.current_time + 1 :=
      wrap32_of_range (by omega) hfit
    rw [hstep, ew]
    simp only [rrStep, hnil]
  · obtain ⟨f1, f2, f3, f4, f5, f6, f7, f8⟩ := machine_rr_record hv hr h hp
    have hmin1 : min q p.remaining_time ≤ p.remaining_time := min_le_right _ _
    have hmin2 : 0 ≤ min q p.remaining_time := le_min (le_of_lt hq) f7
    have hC : (Machine.rrStep q s).current_time
        = wrap32 (s.current_time + min q p.remaining_time) := by
      rw [hstep]; split <;> simp only
    rw [hC] at hle
    have hfit : s.current_time + min q p.remaining_time ≤ 2147483647 := by
      unfold wrap32 at hle
      omega
    have ew : wrap32 (s.current_time + min q p.remaining_time)
        = s.current_time + min q p.remaining_time :=
      wrap32_of_range (by omega) hfit
    have e3 : wrap32 (s.current_time + min q p.remaining_time - min q p.remaining_time)
        = s.current_time + min q p.remaining_time - min q p.remaining_time :=
      wrap32_of_range (by omega) (by omega)
    rw [hstep, ew]
    simp only [rrStep, hadm, hp, Machine.rrSliceArrivals, rrSliceArrivals, e3]

/-- While its clock has not overflowed, the machine `runRR` goes through the
same states as the exact one. -/
theorem machine_rrAt_eq {ps : List Process} {q : Int} (hq : 0 < q) (hv : Valid ps)
    (hr : InRange ps) : ∀ n : Nat, Machine.rrNoWrap q ps n →
    Machine.rrAt q ps n = rrAt q ps n
  | 0, _ => by simp only [Machine.rrAt, rrAt, Function.iterate_zero]
  | n + 1, hw => by
    have ih := machine_rrAt_eq hq hv hr n (fun k hk => hw k (by omega))
    have hle := hw n (by omega)
    rw [machine_rrAt_succ] at hle ⊢
    rw [rrAt_succ, ← ih]
    unfold Machine.rrTick at hle ⊢
    unfold rrTick
    split
    · rename_i hg
      rw [if_pos hg] at hle
      exact machine_rrStep_eq hq hv hr (machine_rrInv_at hq hv hr n) hle
    · simp only

theorem machine_rrNoWrap_mono {q : Int} {ps : List Process} {n m : Nat} (h : m ≤ n)
    (hw : Machine.rrNoWrap q ps n) : Machine.rrNoWrap q ps m :=
  fun k hk => hw k (by omega)

/-- C9 (as amended): for a valid list of `int` values and quantum > 0, whenever an
iteration of the machine `runRR` dispatches a process over the slice
`(start, end]` and that process does not finish, and `current_time` has not
overflowed up to and including that dispatch, the ready queue right after the
iteration ends with the preempted process and every process whose arrival lies
in `(start, end]` stands before it. -/
theorem machine_rr_requeue_position (ps : List Process) (hv : Valid ps) (hr : InRange ps)
    (q : Int) (hq : 0 < q) (n cur : Nat) (rest : List Nat) (p : Process)
    (hw : Machine.rrNoWrap q ps (n + 1))
    (hg : (Machine.rrAt q ps n).completed < (Machine.rrAt q ps n).processes.length)
    (hadm : rrAdmit (Machine.rrAt q ps n) = cur :: rest)
    (hp : (Machine.rrAt q ps n).temp[cur]? = some p)
    (hnf : p.remaining_time - min q p.remaining_time ≠ 0) :
    ∃ pre, (Machine.rrAt q ps (n + 1)).rq = pre ++ [cur] ∧
      (Machine.rrAt q ps (n + 1)).current_time
        = (Machine.rrAt q ps n).current_time + min q p.remaining_time ∧
      ∀ (j : Nat) (x : Process), (Machine.rrAt q ps n).temp[j]? = some x →
        (Machine.rrAt q ps n).current_time < x.arrival_time →
        x.arrival_time ≤ (Machine.rrAt q ps n).current_time + min q p.remaining_time →
        j ≠ cur ∧ j ∈ pre := by
  have e1 := machine_rrAt_eq hq hv hr (n + 1) hw
  have e0 := machine_rrAt_eq hq hv hr n (machine_rrNoWrap_mono (Nat.le_succ n) hw)
  rw [e0] at hg hadm hp
  rw [e1, e0]
  exact rr_requeue_position ps hv q hq n cur rest p hg hadm hp hnf

/-- Witness for `machine_rr_requeue_position`: the first dispatch of scenario 1
with quantum 4. -/
theorem machine_rr_requeue_position_witness :
    Valid scenario1 ∧ InRange scenario1 ∧ (0 : Int) < 4 ∧
    Machine.rrNoWrap 4 scenario1 (0 + 1) ∧
    (Machine.rrAt 4 scenario1 0).completed < (Machine.rrAt 4 scenario1 0).processes.length ∧
    rrAdmit (Machine.rrAt 4 scenario1 0) = 0 :: [] ∧
    (Machine.rrAt 4 scenario1 0).temp[0]? = some (Process.new 1 0 5) ∧
    (Process.new 1 0 5).remaining_time - min 4 (Process.new 1 0 5).remaining_time ≠ 0 ∧
    ∃ pre, (Machine.rrAt 4 scenario1 (0 + 1)).rq = pre ++ [0] ∧
      (Machine.rrAt 4 scenario1 (0 + 1)).current_time =
        (Machine.rrAt 4 scenario1 0).current_time
          + min 4 (Process.new 1 0 5).remaining_time ∧
      ∀ (j : Nat) (x : Process), (Machine.rrAt 4 scenario1 0).temp[j]? = some x →
        (Machine.rrAt 4 scenario1 0).current_time < x.arrival_time →
        x.arrival_time ≤
          (Machine.rrAt 4 scenario1 0).current_time
            + min 4 (Process.new 1 0 5).remaining_time →
        j ≠ 0 ∧ j ∈ pre :=
  ⟨by decide, by decide, by decide, by decide, by decide, by decide, by decide, by decide,
    machine_rr_requeue_position scenario1 (by decide) (by decide) 4 (by decide) 0 0 []
      (Process.new 1 0 5) (by decide) (by decide) (by decide) (by decide) (by decide)⟩

/-- C10 (as amended): for a valid list of `int` values and quantum > 0, when an
iteration of the machine `runRR` dispatches a process over `(start, end]`
without finishing it, and `current_time` has not overflowed up to and including
that dispatch, the processes whose arrival lies in `(start, end]`, and only
those, are appended to the ready queue (after the processes already waiting,
before the preempted one) in increasing position in the process list, i.e. in
increasing id. -/
theorem machine_rr_slice_arrivals_by_position (ps : List Process) (hv : Valid ps)
    (hr : InRange ps) (q : Int) (hq : 0 < q) (n cur : Nat) (rest : List Nat) (p : Process)
    (hw : Machine.rrNoWrap q ps (n + 1))
    (hg : (Machine.rrAt q ps n).completed < (Machine.rrAt q ps n).processes.length)
    (hadm : rrAdmit (Machine.rrAt q ps n) = cur :: rest)
    (hp : (Machine.rrAt q ps n).temp[cur]? = some p)
    (hnf : p.remaining_time - min q p.remaining_time ≠ 0) :
    ∃ block, (Machine.rrAt q ps (n + 1)).rq = rest ++ block ++ [cur] ∧
      block.Pairwise (fun a b => a < b) ∧
      ∀ j : Nat, j ∈ block ↔
        ∃ x, (Machine.rrAt q ps n).temp[j]? = some x ∧ x.id = (j : Int) + 1 ∧
          (Machine.rrAt q ps n).current_time < x.arrival_time ∧
          x.arrival_time ≤ (Machine.rrAt q ps n).current_time + min q p.remaining_time := by
  have e1 := machine_rrAt_eq hq hv hr (n + 1) hw
  have e0 := machine_rrAt_eq hq hv hr n (machine_rrNoWrap_mono (Nat.le_succ n) hw)
  rw [e0] at hg hadm hp
  rw [e1, e0]
  exact rr_slice_arrivals_by_position ps hv q hq n cur rest p hg hadm hp hnf

/-- Witness for `machine_rr_slice_arrivals_by_position`: the first dispatch of
`[(0,5),(3,1),(1,1)]` with quantum 4. -/
theorem machine_rr_slice_arrivals_by_position_witness :
    Valid rrOrder ∧ InRange rrOrder ∧ (0 : Int) < 4 ∧
    Machine.rrNoWrap 4 rrOrder (0 + 1) ∧
    (Machine.rrAt 4 rrOrder 0).completed < (Machine.rrAt 4 rrOrder 0).processes.length ∧
    rrAdmit (Machine.rrAt 4 rrOrder 0) = 0 :: [] ∧
    (Machine.rrAt 4 rrOrder 0).temp[0]? = some (Process.new 1 0 5) ∧
    (Process.new 1 0 5).remaining_time - min 4 (Process.new 1 0 5).remaining_time ≠ 0 ∧
    ∃ block, (Machine.rrAt 4 rrOrder (0 + 1)).rq = [] ++ block ++ [0] ∧
      block.Pairwise (fun a b => a < b) ∧
      ∀ j : Nat, j ∈ block ↔
        ∃ x, (Machine.rrAt 4 rrOrder 0).temp[j]? = some x ∧ x.id = (j : Int) + 1 ∧
          (Machine.rrAt 4 rrOrder 0).current_time < x.arrival_time ∧
          x.arrival_time ≤
            (Machine.rrAt 4 rrOrder 0).current_time
              + min 4 (Process.new 1 0 5).remaining_time :=
  ⟨by decide, by decide, by decide, by decide, by decide, by decide, by decide, by decide,
    machine_rr_slice_arrivals_by_position rrOrder (by decide) (by decide) 4 (by decide) 0 0 []
      (Process.new 1 0 5) (by decide) (by decide) (by decide) (by decide) (by decide)⟩

/-- C10 (counterexample): with quantum 4 on `[(0,5),(3,1),(1,1)]`, P2 (arrival 3)
and P3 (arrival 1) both arrive during P1's first slice `(0, 4]`; after it the
queue of the machine `runRR` is P2, P3, P1, so the later arrival P2 is queued,
and then dispatched, before the earlier arrival P3. -/
theorem machine_rr_slice_order_counterexample :
    Valid rrOrder ∧ InRange rrOrder ∧
    (Machine.rrAt 4 rrOrder 1).current_time = 4 ∧
    (Machine.rrAt 4 rrOrder 1).rq.map
        (fun i => ((Machine.rrAt 4 rrOrder 1).temp[i]?).map (fun p => (p.id, p.arrival_time)))
      = [some (2, 3), some (3, 1), some (1, 0)] ∧
    (Machine.runRR 4 { processes := rrOrder, gantt_chart := [], quantum := 4 }).map
        (fun r => r.gantt_chart) = some [(0, 1), (4, 2), (5, 3), (6, 1)] :=
  ⟨by decide, by decide, by decide, by decide, by decide⟩

/-- C12 (as amended): for a valid list of `int` values and quantum > 0, every
dispatch of the machine `runRR` (an iteration that finds a process `cur` at the
front of the queue) lowers the remaining time of `cur`, and of no other
process, by exactly `min(quantum, remaining_time)`, which is between 0 and the
quantum, appends exactly one Gantt entry, and sets the clock to the `int` sum
`current_time + min(quantum, remaining_time)`, which is the exact sum whenever
that fits an `int`; if `remaining_time <= quantum` at the dispatch, the process
is complete after it (remaining time 0, `completed` raised, finish time
written). -/
theorem machine_rr_quantum_bound (ps : List Process) (hv : Valid ps) (hr : InRange ps)
    (q : Int) (hq : 0 < q) (n cur : Nat) (rest : List Nat)
    (hg : (Machine.rrAt q ps n).completed < (Machine.rrAt q ps n).processes.length)
    (hadm : rrAdmit (Machine.rrAt q ps n) = cur :: rest) :
    ∃ p, (Machine.rrAt q ps n).temp[cur]? = some p ∧
      0 ≤ min q p.remaining_time ∧ min q p.remaining_time ≤ q ∧
      (Machine.rrAt q ps (n + 1)).current_time =
        wrap32 ((Machine.rrAt q ps n).current_time + min q p.remaining_time) ∧
      ((Machine.rrAt q ps n).current_time + min q p.remaining_time ≤ 2147483647 →
        (Machine.rrAt q ps (n + 1)).current_time =
          (Machine.rrAt q ps n).current_time + min q p.remaining_time) ∧
      (Machine.rrAt q ps (n + 1)).temp = (Machine.rrAt q ps n).temp.set cur
        { p with remaining_time := p.remaining_time - min q p.remaining_time } ∧
      (Machine.rrAt q ps (n + 1)).gantt_chart =
        (Machine.rrAt q ps n).gantt_chart ++ [((Machine.rrAt q ps n).current_time, p.id)] ∧
      (p.remaining_time ≤ q →
        (Machine.rrAt q ps (n + 1)).temp[cur]? = some { p with remaining_time := 0 } ∧
        (Machine.rrAt q ps (n + 1)).current_time =
          wrap32 ((Machine.rrAt q ps n).current_time + p.remaining_time) ∧
        (Machine.rrAt q ps (n + 1)).completed = (Machine.rrAt q ps n).completed + 1 ∧
        (Machine.rrAt q ps (n + 1)).processes =
          setFinish (Machine.rrAt q ps n).processes (p.id - 1).toNat
            (wrap32 ((Machine.rrAt q ps n).current_time + p.remaining_time)) ∧
        (Machine.rrAt q ps (n + 1)).rq = rest) := by
  have hinv := machine_rrInv_at hq hv hr n
  have e : Machine.rrAt q ps (n + 1) = Machine.rrStep q (Machine.rrAt q ps n) := by
    rw [machine_rrAt_succ]
    simp [Machine.rrTick, hg]
  rcases machine_rr_step_cases hq hv hr hinv with ⟨hnil, -⟩ | ⟨cur2, rest2, p, hadm2, hp, hstep⟩
  · rw [hnil] at hadm
    cases hadm
  · rw [hadm] at hadm2
    simp only [List.cons.injEq] at hadm2
    obtain ⟨rfl, rfl⟩ := hadm2
    obtain ⟨f1, f2, f3, f4, f5, f6, f7, f8⟩ := machine_rr_record hv hr hinv hp
    have hmin2 : 0 ≤ min q p.remaining_time := le_min (le_of_lt hq) f7
    have hlo := hinv.clock_lo
    have hC : (Machine.rrAt q ps (n + 1)).current_time =
        wrap32 ((Machine.rrAt q ps n).current_time + min q p.remaining_time) := by
      rw [e, hstep]; split <;> simp only
    refine ⟨p, hp, hmin2, min_le_left _ _, hC, ?_, ?_, ?_, ?_⟩
    · intro hfit
      rw [hC]
      exact wrap32_of_range (by omega) hfit
    · rw [e, hstep]; split <;> simp only
    · rw [e, hstep]; split <;> simp only
    · intro hle
      have hmin : min q p.remaining_time = p.remaining_time := min_eq_right hle
      have hz : p.remaining_time - min q p.remaining_time = 0 := by omega
      rw [e, hstep, if_pos hz, hmin]
      refine ⟨?_, by simp only, by simp only, by simp only, by simp only⟩
      simp only
      rw [get_set_self hp]
      simp

/-- Witness for `machine_rr_quantum_bound`: the second dispatch of scenario 1 with
quantum 4 (P2, remaining time 3, completes in one dispatch). -/
theorem machine_rr_quantum_bound_witness :
    Valid scenario1 ∧ InRange scenario1 ∧ (0 : Int) < 4 ∧
    (Machine.rrAt 4 scenario1 1).completed < (Machine.rrAt 4 scenario1 1).processes.length ∧
    rrAdmit (Machine.rrAt 4 scenario1 1) = 1 :: [2, 0] ∧
    ∃ p, (Machine.rrAt 4 scenario1 1).temp[1]? = some p ∧
      0 ≤ min 4 p.remaining_time ∧ min 4 p.remaining_time ≤ 4 ∧
      (Machine.rrAt 4 scenario1 (1 + 1)).current_time =
        wrap32 ((Machine.rrAt 4 scenario1 1).current_time + min 4 p.remaining_time) ∧
      ((Machine.rrAt 4 scenario1 1).current_time + min 4 p.remaining_time ≤ 2147483647 →
        (Machine.rrAt 4 scenario1 (1 + 1)).current_time =
          (Machine.rrAt 4 scenario1 1).current_time + min 4 p.remaining_time) ∧
      (Machine.rrAt 4 scenario1 (1 + 1)).temp = (Machine.rrAt 4 scenario1 1).temp.set 1
        { p with remaining_time := p.remaining_time - min 4 p.remaining_time } ∧
      (Machine.rrAt 4 scenario1 (1 + 1)).gantt_chart =
        (Machine.rrAt 4 scenario1 1).gantt_chart
          ++ [((Machine.rrAt 4 scenario1 1).current_time, p.id)] ∧
      (p.remaining_time ≤ 4 →
        (Machine.rrAt 4 scenario1 (1 + 1)).temp[1]? = some { p with remaining_time := 0 } ∧
        (Machine.rrAt 4 scenario1 (1 + 1)).current_time =
          wrap32 ((Machine.rrAt 4 scenario1 1).current_time + p.remaining_time) ∧
        (Machine.rrAt 4 scenario1 (1 + 1)).completed
          = (Machine.rrAt 4 scenario1 1).completed + 1 ∧
        (Machine.rrAt 4 scenario1 (1 + 1)).processes =
          setFinish (Machine.rrAt 4 scenario1 1).processes (p.id - 1).toNat
            (wrap32 ((Machine.rrAt 4 scenario1 1).current_time + p.remaining_time)) ∧
        (Machine.rrAt 4 scenario1 (1 + 1)).rq = [2, 0]) :=
  ⟨by decide, by decide, by decide, by decide, by decide,
    machine_rr_quantum_bound scenario1 (by decide) (by decide) 4 (by decide) 1 1 [2, 0]
      (by decide) (by decide)⟩

/-- While the clock of the machine `runRR` is below every arrival time, each
iteration only advances the clock by one. -/
theorem machine_rr_sweep (q : Int) (ps : List Process) (hne : ps ≠ []) (a : Int)
    (ha : a ≤ 2147483647) (h : ∀ p ∈ ps, a ≤ p.arrival_time) :
    ∀ k : Nat, (k : Int) ≤ a →
      Machine.rrAt q ps k = { rrInit ps with current_time := (k : Int) }
  | 0, _ => by simp only [Machine.rrAt, Function.iterate_zero, id_eq, rrInit, Nat.cast_zero]
  | k + 1, hk => by
    have hk1 : ((k : Nat) : Int) + 1 ≤ a := by push_cast at hk; exact hk
    rw [machine_rrAt_succ, machine_rr_sweep q ps hne a ha h k (by omega)]
    have hlen : 0 < ps.length := List.length_pos.2 hne
    have hscan : scan ps (fun p => p.arrival_time == (k : Int) && decide (0 < p.remaining_time))
        = [] := by
      apply scan_eq_nil
      intro p hp
      have := h p hp
      have hne2 : p.arrival_time ≠ (k : Int) := by omega
      simp [hne2]
    have hw : wrap32 ((k : Int) + 1) = (k : Int) + 1 :=
      wrap32_of_range (by omega) (by omega)
    simp only [Machine.rrTick, rrInit, hlen, if_true, Machine.rrStep, rrAdmit, hscan,
      List.append_nil, hw, Nat.cast_add, Nat.cast_one]

/-- C9 (counterexample): on the valid input `[(2147483646,5),(2147483647,1)]` with
quantum 2, iteration 2147483646 of the machine `runRR` dispatches P1 at time
2147483646 for 2 units without finishing it; P2 arrives at 2147483647, inside
the slice `(2147483646, 2147483648]`, but the clock has become `-2147483648`,
the test `arrival_time <= current_time` fails, and the ready queue after the
dispatch holds P1 alone. -/
theorem machine_rr_requeue_counterexample :
    Valid lateRR ∧ InRange lateRR ∧
    Machine.rrAt 2 lateRR 2147483646
      = { rrInit lateRR with current_time := 2147483646 } ∧
    rrAdmit (Machine.rrAt 2 lateRR 2147483646) = [0] ∧
    (Machine.rrAt 2 lateRR 2147483646).temp
      = [Process.new 1 2147483646 5, Process.new 2 2147483647 1] ∧
    (Process.new 1 2147483646 5).remaining_time
      - min 2 (Process.new 1 2147483646 5).remaining_time ≠ 0 ∧
    (Machine.rrAt 2 lateRR (2147483646 + 1)).rq = [0] ∧
    (Machine.rrAt 2 lateRR (2147483646 + 1)).gantt_chart = [(2147483646, 1)] ∧
    (2147483646 : Int) < (Process.new 2 2147483647 1).arrival_time ∧
    (Process.new 2 2147483647 1).arrival_time ≤ 2147483646 + 2 ∧
    1 ∉ (Machine.rrAt 2 lateRR (2147483646 + 1)).rq := by
  have hs := machine_rr_sweep 2 lateRR (by decide) 2147483646 (by decide)
    (by decide) 2147483646 (by decide)
  have hs1 : Machine.rrAt 2 lateRR (2147483646 + 1)
      = { processes := lateRR,
          temp := [{ Process.new 1 2147483646 5 with remaining_time := 3 },
            Process.new 2 2147483647 1],
          rq := [0], current_time := -2147483648, completed := 0,
          gantt_chart := [(2147483646, 1)] } := by
    rw [machine_rrAt_succ, hs]
    decide
  rw [hs1, hs]
  decide

/-- C12 (counterexample): on the valid input `[(2147483646,5),(2147483647,1)]`
with quantum 2, iteration 2147483646 of the machine `runRR` dispatches P1 with
remaining time 5 at clock 2147483646; after the dispatch the clock is
`-2147483648`, not `2147483646 + min(2, 5) = 2147483648`. -/
theorem machine_rr_clock_counterexample :
    Valid lateRR ∧ InRange lateRR ∧
    (Machine.rrAt 2 lateRR 2147483646).current_time = 2147483646 ∧
    (Machine.rrAt 2 lateRR 2147483646).completed
      < (Machine.rrAt 2 lateRR 2147483646).processes.length ∧
    rrAdmit (Machine.rrAt 2 lateRR 2147483646) = [0] ∧
    (Machine.rrAt 2 lateRR 2147483646).temp[0]? = some (Process.new 1 2147483646 5) ∧
    min 2 (Process.new 1 2147483646 5).remaining_time = 2 ∧
    (Machine.rrAt 2 lateRR (2147483646 + 1)).current_time = -2147483648 ∧
    (Machine.rrAt 2 lateRR (2147483646 + 1)).temp.map (fun p => p.remaining_time)
      = [3, 1] ∧
    (-2147483648 : Int) ≠ 2147483646 + 2 := by
  have hs := machine_rr_sweep 2 lateRR (by decide) 2147483646 (by decide)
    (by decide) 2147483646 (by decide)
  have hs1 : Machine.rrAt 2 lateRR (2147483646 + 1)
      = { processes := lateRR,
          temp := [{ Process.new 1 2147483646 5 with remaining_time := 3 },
            Process.new 2 2147483647 1],
          rq := [0], current_time := -2147483648, completed := 0,
          gantt_chart := [(2147483646, 1)] } := by
    rw [machine_rrAt_succ, hs]
    decide
  rw [hs1, hs]
  decide

/-! ## Round-Robin on the machine model: a run through two overflows -/

theorem machine_rrLoop_eq (q : Int) : ∀ (n : Nat) (s : RRState),
    ¬ ((Machine.rrTick q)^[n] s).completed < ((Machine.rrTick q)^[n] s).processes.length →
    Machine.rrLoop q n s = some ((Machine.rrTick q)^[n] s)
  | 0, s, h => by
    simp only [Function.iterate_zero, id_eq] at h
    simp [Machine.rrLoop, h]
  | n + 1, s, h => by
    rw [Function.iterate_succ_apply] at h ⊢
    by_cases hg : s.completed < s.processes.length
    · have e : Machine.rrTick q s = Machine.rrStep q s := by simp [Machine.rrTick, hg]
      rw [e] at h ⊢
      simp only [Machine.rrLoop, hg, if_true]
      exact machine_rrLoop_eq q n _ h
    · have e : Machine.rrTick q s = s := by simp [Machine.rrTick, hg]
      rw [e, Function.iterate_fixed e n]
      simp [Machine.rrLoop, hg]

/-- With an empty ready queue, and as long as the clock of the machine `runRR`
meets no arrival time of an unfinished process, each iteration only advances
the clock by one (in `int` arithmetic). -/
theorem machine_rr_idle_sweep (q : Int) (s : RRState)
    (hg : s.completed < s.processes.length) (hrq : s.rq = [])
    (hlo : -2147483648 ≤ s.current_time) (hhi : s.current_time ≤ 2147483647) :
    ∀ k : Nat, (∀ j : Nat, j < k → ∀ p ∈ s.temp, 0 < p.remaining_time →
        p.arrival_time ≠ wrap32 (s.current_time + (j : Int))) →
      (Machine.rrTick q)^[k] s
        = { s with current_time := wrap32 (s.current_time + (k : Int)) }
  | 0, _ => by
    simp only [Function.iterate_zero, id_eq, Nat.cast_zero, add_zero,
      wrap32_of_range hlo hhi]
  | k + 1, h => by
    have ih := machine_rr_idle_sweep q s hg hrq hlo hhi k (fun j hj => h j (by omega))
    rw [Function.iterate_succ_apply', ih]
    have hscan : scan s.temp (fun p => p.arrival_time == wrap32 (s.current_time + (k : Int))
        && decide (0 < p.remaining_time)) = [] := by
      apply scan_eq_nil
      intro p hp
      by_cases hr : 0 < p.remaining_time
      · have := h k (by omega) p hp hr
        simp [this]
      · simp [hr]
    have hw : wrap32 (wrap32 (s.current_time + (k : Int)) + 1)
        = wrap32 (s.current_time + ((k + 1 : Nat) : Int)) := by
      unfold wrap32
      push_cast
      omega
    obtain ⟨procs, temp, rq, ct, comp, g⟩ := s
    simp only at hrq hg hscan hw
    subst hrq
    simp only [Machine.rrTick, hg, if_true, Machine.rrStep, rrAdmit, hscan, List.append_nil, hw]

/-- On scenario 1 with quantum 5 the machine `runRR` returns after
`2^33 - 2` iterations with four dispatches: P1 runs from 0 to 5 and finishes,
P2 and P3 (arrived inside that slice) are not enqueued, the clock idles until
it has wrapped round to 1, P2 runs from 1 to 4, the clock idles round once more
to 2, and P3 runs from 2 to 7 and from 7 to 10. -/
theorem machine_rr_scenario1_quantum5 :
    (Machine.rrTick 5)^[2 + (4294967294 + (1 + (4294967292 + 1)))] (rrInit scenario1)
      = { processes := [{ Process.new 1 0 5 with finish_time := 5 },
            { Process.new 2 1 3 with finish_time := 4 },
            { Process.new 3 2 8 with finish_time := 10 }],
          temp := [{ Process.new 1 0 5 with remaining_time := 0 },
            { Process.new 2 1 3 with remaining_time := 0 },
            { Process.new 3 2 8 with remaining_time := 0 }],
          rq := [], current_time := 10, completed := 3,
          gantt_chart := [(0, 1), (1, 2), (2, 3), (7, 3)] } := by
  have h1 : (Machine.rrTick 5)^[1] (rrInit scenario1)
      = { processes := [{ Process.new 1 0 5 with finish_time := 5 }, Process.new 2 1 3,
            Process.new 3 2 8],
          temp := [{ Process.new 1 0 5 with remaining_time := 0 }, Process.new 2 1 3,
            Process.new 3 2 8],
          rq := [], current_time := 5, completed := 1, gantt_chart := [(0, 1)] } := by
    decide
  rw [Function.iterate_add_apply, Function.iterate_add_apply, Function.iterate_add_apply,
    Function.iterate_add_apply, h1]
  rw [machine_rr_idle_sweep 5 _ (by decide) (by decide) (by decide) (by decide) 4294967292 (by
    intro j hj p hp hr
    simp only [List.mem_cons, List.mem_singleton, List.not_mem_nil, or_false] at hp
    rcases hp with rfl | rfl | rfl
    · simp [Process.new] at hr
    · simp only [Process.new]
      unfold wrap32
      omega
    · simp only [Process.new]
      unfold wrap32
      omega)]
  have h2 : (Machine.rrTick 5)^[1]
      { processes := [{ Process.new 1 0 5 with finish_time := 5 }, Process.new 2 1 3,
            Process.new 3 2 8],
        temp := [{ Process.new 1 0 5 with remaining_time := 0 }, Process.new 2 1 3,
            Process.new 3 2 8],
        rq := [], current_time := wrap32 (5 + ((4294967292 : Nat) : Int)), completed := 1,
        gantt_chart := [(0, 1)] }
      = { processes := [{ Process.new 1 0 5 with finish_time := 5 },
            { Process.new 2 1 3 with finish_time := 4 }, Process.new 3 2 8],
          temp := [{ Process.new 1 0 5 with remaining_time := 0 },
            { Process.new 2 1 3 with remaining_time := 0 }, Process.new 3 2 8],
          rq := [], current_time := 4, completed := 2,
          gantt_chart := [(0, 1), (1, 2)] } := by
    decide
  rw [h2]
  rw [machine_rr_idle_sweep 5 _ (by decide) (by decide) (by decide) (by decide) 4294967294 (by
    intro j hj p hp hr
    simp only [List.mem_cons, List.mem_singleton, List.not_mem_nil, or_false] at hp
    rcases hp with rfl | rfl | rfl
    · simp [Process.new] at hr
    · simp [Process.new] at hr
    · simp only [Process.new]
      unfold wrap32
      omega)]
  decide

/-- Witness for `machine_rr_terminates`: scenario 1 with quantum 5, where the
machine `runRR` returns with the chart `[(0,P1),(1,P2),(2,P3),(7,P3)]`, four
dispatches for a total burst of 16. -/
theorem machine_rr_terminates_witness :
    Valid scenario1 ∧ InRange scenario1 ∧ (0 : Int) < 5 ∧
    (∃ fin : RRState,
      (∀ fuel, Machine.rrFuel scenario1 ≤ fuel →
        Machine.rrLoop 5 fuel (rrInit scenario1) = some fin) ∧
      (∀ fuel, Machine.rrFuel scenario1 ≤ fuel →
        Machine.runRR fuel { processes := scenario1, gantt_chart := [], quantum := 5 }
          = some { processes := Machine.calculateMetrics fin.processes,
                   gantt_chart := fin.gantt_chart, quantum := 5 }) ∧
      ¬ fin.completed < fin.processes.length ∧
      (fin.gantt_chart.length : Int) ≤ sumBurst scenario1) ∧
    ∀ fuel, Machine.rrFuel scenario1 ≤ fuel →
      (Machine.runRR fuel { processes := scenario1, gantt_chart := [], quantum := 5 }).map
        (fun r => r.gantt_chart) = some [(0, 1), (1, 2), (2, 3), (7, 3)] := by
  have hthm := machine_rr_terminates scenario1 (by decide) (by decide) 5 (by decide) []
  refine ⟨by decide, by decide, by decide, hthm, ?_⟩
  obtain ⟨fin, hloop, hrun, -, -⟩ := hthm
  obtain ⟨fs, hfs, hchart, hdone, hfix⟩ : ∃ fs : RRState,
      (Machine.rrTick 5)^[2 + (4294967294 + (1 + (4294967292 + 1)))] (rrInit scenario1) = fs ∧
      fs.gantt_chart = [(0, 1), (1, 2), (2, 3), (7, 3)] ∧
      ¬ fs.completed < fs.processes.length ∧ Machine.rrTick 5 fs = fs :=
    ⟨_, machine_rr_scenario1_quantum5, by decide, by decide, by decide⟩
  have hF : Machine.rrFuel scenario1
      = 77309411330 + (2 + (4294967294 + (1 + (4294967292 + 1)))) := by decide
  have hiter : (Machine.rrTick 5)^[Machine.rrFuel scenario1] (rrInit scenario1) = fs := by
    rw [hF, Function.iterate_add_apply, hfs, Function.iterate_fixed hfix]
  have hl := machine_rrLoop_eq 5 (Machine.rrFuel scenario1) (rrInit scenario1)
    (by rw [hiter]; exact hdone)
  rw [hiter, hloop _ (le_refl _)] at hl
  have hfin : fin = fs := Option.some.inj hl
  intro fuel hfuel
  rw [hrun fuel hfuel, hfin]
  simp only [Option.map_some', hchart]

end CpuScheduling
